import Mathlib

/-!
# Sort-merge join (smerge.c): shallow embedding and verification

C `int` values are modelled as `Int` (the theorems assume sizes below `2^31`, so
no signed arithmetic leaves the `int` range), `uint64_t` and `size_t` values as
`Nat` reduced modulo `2^64`, C arrays as `List Int` read and written through
`rd` and `wr`.  Every `while` loop is a structurally recursive function on a
fuel argument that the caller sets to a bound on the number of iterations.
The OpenMP `parallel for` over batches is modelled as the sequential loop over
`b = 0 .. nBatch-1`.
-/

namespace Smerge

/-! ## Machine-level helpers -/

/-- Array read `a[i]` with an `int` index; a read outside the array yields `0`. -/
def rd (a : List Int) (i : Int) : Int :=
  if i < 0 then 0 else a.getD i.toNat 0

/-- Array write `a[i] = v` with an `int` index; a write outside the array is dropped. -/
def wr (a : List Int) (i : Int) (v : Int) : List Int :=
  if i < 0 then a else a.set i.toNat v

/-- Modulus of `uint64_t` and of `size_t`. -/
def U64 : Nat := 2 ^ 64

/-- Conversion `(uint64_t)v` or `(size_t)v` of an `int`. -/
def toU64 (v : Int) : Nat := (v % (U64 : Int)).toNat

/-- Conversion of a `size_t` value to `int` (low 32 bits, two's complement). -/
def toInt32 (v : Nat) : Int :=
  if v % 2 ^ 32 < 2 ^ 31 then ((v % 2 ^ 32 : Nat) : Int) else ((v % 2 ^ 32 : Nat) : Int) - 2 ^ 32

/-- The enum `emult` of the source: `enum emult{ALL, FIRST, LAST, ERR}`. -/
inductive emult where
  | ALL
  | FIRST
  | LAST
  | ERR
deriving DecidableEq

/-- The mutable data of one `smerge` call: the shared output arrays `starts` and
`lens`, and the locals `cnt`, `xlen1`, `ylen1`, `xylen1`, which the function
stores into `nmatch[0]`, `xlens1[0]`, `ylens1[0]`, `xylens1[0]` on return. -/
structure JoinState where
  starts : List Int
  lens : List Int
  cnt : Nat
  xlen1 : Bool
  ylen1 : Bool
  xylen1 : Bool
deriving DecidableEq

/-! ## smerge -/

/-- The dual-cursor loop shared by all eight scans of `smerge`:
`while (i<ni && j<nj) { if (x_i == y_j) { hit; i++; } else if (x_i < y_j) i++; else if (x_i > y_j) j++; }`
where `kx i` and `ky j` are the keys `x_i`, `y_j` read at the cursors and `hit i j`
is the body of the equality branch. -/
def scan (ni nj : Int) (kx ky : Int → Int) (hit : Int → Int → JoinState → JoinState) :
    Nat → Int → Int → JoinState → JoinState
  | 0, _, _, s => s
  | fuel + 1, i, j, s =>
    if i < ni ∧ j < nj then
      if kx i = ky j then scan ni nj kx ky hit fuel (i + 1) j (hit i j s)
      else if kx i < ky j then scan ni nj kx ky hit fuel (i + 1) j s
      else if kx i > ky j then scan ni nj kx ky hit fuel i (j + 1) s
      else scan ni nj kx ky hit fuel i j s
    else s

/-- The loop `for (int ii=0; ii<xl1; ++ii) body(ii)`. -/
def forRun (xl1 : Int) (body : Int → JoinState → JoinState) (s : JoinState) : JoinState :=
  (List.range xl1.toNat).foldl (fun (t : JoinState) (ii : Nat) => body (ii : Int) t) s

/-- The statement `if (flag && c) flag = false;`. -/
def clearIf (flag c : Bool) : Bool := if flag && c then false else flag

/-- The function `smerge`: join of one batch, left runs `bx_off .. bx_off+bnx-1`
against right runs `by_off .. by_off+bny-1`. -/
def smerge (bx_off bnx by_off bny : Int)
    (x x_starts x_lens : List Int) (unq_x : Bool)
    (y y_starts y_lens : List Int) (unq_y : Bool)
    (starts lens : List Int) (mult : emult) : JoinState :=
  let s0 : JoinState := ⟨starts, lens, 0, true, true, true⟩
  let ni := bx_off + bnx
  let nj := by_off + bny
  let fuel := bnx.toNat + bny.toNat
  if unq_x && unq_y then
    scan ni nj (fun i => rd x i) (fun j => rd y j)
      (fun i j s => { s with starts := wr s.starts i (j + 1), cnt := (s.cnt + 1) % U64 })
      fuel bx_off by_off s0
  else if unq_x then
    match mult with
    | emult.FIRST =>
      scan ni nj (fun i => rd x i) (fun js => rd y (rd y_starts js - 1))
        (fun i js s =>
          let j := rd y_starts js - 1
          { s with starts := wr s.starts i (j + 1), cnt := (s.cnt + 1) % U64 })
        fuel bx_off by_off s0
    | emult.LAST =>
      scan ni nj (fun i => rd x i) (fun js => rd y (rd y_starts js - 1))
        (fun i js s =>
          let j := rd y_starts js - 1
          { s with starts := wr s.starts i (j + rd y_lens js), cnt := (s.cnt + 1) % U64 })
        fuel bx_off by_off s0
    | _ =>
      scan ni nj (fun i => rd x i) (fun js => rd y (rd y_starts js - 1))
        (fun i js s =>
          let j := rd y_starts js - 1
          let yl1 := rd y_lens js
          { s with
            starts := wr s.starts i (j + 1)
            lens := wr s.lens i yl1
            ylen1 := clearIf s.ylen1 (decide (yl1 > 1))
            cnt := (s.cnt + toU64 yl1) % U64 })
        fuel bx_off by_off s0
  else if unq_y then
    scan ni nj (fun is => rd x (rd x_starts is - 1)) (fun j => rd y j)
      (fun is j s =>
        let i := rd x_starts is - 1
        let j1 := j + 1
        let xl1 := rd x_lens is
        let s1 := forRun xl1 (fun ii t => { t with starts := wr t.starts (i + ii) j1 }) s
        { s1 with
          xlen1 := clearIf s1.xlen1 (decide (xl1 > 1))
          cnt := (s1.cnt + toU64 xl1) % U64 })
      fuel bx_off by_off s0
  else
    match mult with
    | emult.FIRST =>
      scan ni nj (fun is => rd x (rd x_starts is - 1)) (fun js => rd y (rd y_starts js - 1))
        (fun is js s =>
          let i := rd x_starts is - 1
          let j := rd y_starts js - 1
          let j1 := j + 1
          let xl1 := rd x_lens is
          let s1 := forRun xl1 (fun ii t => { t with starts := wr t.starts (i + ii) j1 }) s
          { s1 with
            xlen1 := clearIf s1.xlen1 (decide (xl1 > 1))
            cnt := (s1.cnt + toU64 xl1) % U64 })
        fuel bx_off by_off s0
    | emult.LAST =>
      scan ni nj (fun is => rd x (rd x_starts is - 1)) (fun js => rd y (rd y_starts js - 1))
        (fun is js s =>
          let i := rd x_starts is - 1
          let j := rd y_starts js - 1
          let j1 := j + rd y_lens js
          let xl1 := rd x_lens is
          let s1 := forRun xl1 (fun ii t => { t with starts := wr t.starts (i + ii) j1 }) s
          { s1 with
            xlen1 := clearIf s1.xlen1 (decide (xl1 > 1))
            cnt := (s1.cnt + toU64 xl1) % U64 })
        fuel bx_off by_off s0
    | _ =>
      scan ni nj (fun is => rd x (rd x_starts is - 1)) (fun js => rd y (rd y_starts js - 1))
        (fun is js s =>
          let i := rd x_starts is - 1
          let j := rd y_starts js - 1
          let j1 := j + 1
          let yl1 := rd y_lens js
          let xl1 := rd x_lens is
          let s1 := forRun xl1
            (fun ii t => { t with starts := wr t.starts (i + ii) j1, lens := wr t.lens (i + ii) yl1 }) s
          { s1 with
            xlen1 := clearIf s1.xlen1 (decide (xl1 > 1))
            ylen1 := clearIf s1.ylen1 (decide (yl1 > 1))
            xylen1 := clearIf s1.xylen1 (decide (xl1 > 1) && decide (yl1 > 1))
            cnt := (s1.cnt + (toU64 xl1 * toU64 yl1) % U64) % U64 })
        fuel bx_off by_off s0

/-! ## rollbs -/

/-- The binary-search loop of `rollbs` together with the statements after it:
`while (lower<=upper) { i = lower + (upper-lower)/2; ... }` followed by
`return side<0 ? lower : upper`. -/
def rollbsLoop (x ix : List Int) (val side : Int) : Nat → Int → Int → Int
  | 0, lower, upper => if side < 0 then lower else upper
  | fuel + 1, lower, upper =>
    if lower ≤ upper then
      let i := lower + Int.tdiv (upper - lower) 2
      let thisx := rd x (rd ix i - 1)
      if thisx = val then i
      else if thisx < val then rollbsLoop x ix val side fuel (i + 1) upper
      else if thisx > val then rollbsLoop x ix val side fuel lower (i - 1)
      else rollbsLoop x ix val side fuel lower upper
    else if side < 0 then lower else upper

/-- The function `rollbs`: rolling-nearest binary search over the keys
`x[ix[k]-1]`, `k = 0 .. nix-1`; `side < 0` asks for the lower bound, `side > 0`
for the upper bound, `-1` is the "none" answer. -/
def rollbs (x ix : List Int) (nix val side : Int) : Int :=
  if rd x (rd ix 0 - 1) = val then 0
  else if rd x (rd ix (nix - 1) - 1) = val then nix - 1
  else if side < 0 ∧ rd x (rd ix (nix - 1) - 1) < val then -1
  else if side < 0 ∧ rd x (rd ix 0 - 1) > val then 0
  else if ¬ side < 0 ∧ side > 0 ∧ rd x (rd ix 0 - 1) > val then -1
  else if ¬ side < 0 ∧ side > 0 ∧ rd x (rd ix (nix - 1) - 1) < val then nix - 1
  else rollbsLoop x ix val side (nix.toNat + 2) 0 nix

/-! ## batching -/

/-- The two ways a call can end in an R `error(...)`. -/
inductive SmergeError where
  | internalBatching
  | duplicateMatch
deriving DecidableEq

/-- One batch: the entries `Bx_off[b]`, `Bnx[b]`, `By_off[b]`, `Bny[b]`. -/
structure Batch where
  x_off : Int
  nx : Int
  y_off : Int
  ny : Int
deriving DecidableEq

/-- The body of the `for (int b=0; b<nBatch; ++b)` loop of `batching`. -/
def batchOf (nBatch : Int) (batchSize lastBatchSize : Nat)
    (x x_starts : List Int) (nx_starts : Int) (y y_starts : List Int) (ny_starts : Int)
    (b : Int) : Batch :=
  let bx_off : Int :=
    if b < nBatch - 1 then toInt32 ((toU64 b * batchSize) % U64)
    else toInt32 ((toU64 nx_starts + U64 - lastBatchSize) % U64)
  let bnx : Int := if b < nBatch - 1 then toInt32 batchSize else toInt32 lastBatchSize
  let x_i_min := rd x_starts bx_off
  let x_i_max := rd x_starts (bx_off + (bnx - 1))
  let y_i_min := rollbs y y_starts ny_starts (rd x (x_i_min - 1)) (-1)
  let y_i_max := rollbs y y_starts ny_starts (rd x (x_i_max - 1)) 1
  let y_match : Bool := decide (y_i_min ≥ 0) && decide (y_i_max ≥ 0)
  ⟨bx_off, bnx, if y_match then y_i_min else 0, if y_match then y_i_max - y_i_min + 1 else 0⟩

/-- The function `batching` (with `SMERGE_BATCHING_BALANCED` defined, as in the
source): cut the left runs `0 .. nx_starts-1` into `nBatch` batches and find the
right range of each.  `nx` and `ny` are only printed by the source. -/
def batching (nBatch : Int) (x : List Int) (x_starts : List Int) (nx_starts : Int)
    (y : List Int) (y_starts : List Int) (ny_starts : Int) :
    Except SmergeError (List Batch) :=
  let batchSize : Nat := toU64 (Int.tdiv (nx_starts - 1) nBatch + 1)
  let lastBatchSize : Nat :=
    (toU64 nx_starts + U64 - (toU64 (nBatch - 1) * batchSize) % U64) % U64
  if lastBatchSize = 0 ∨
      ((toU64 (nBatch - 1) * batchSize) % U64 + lastBatchSize) % U64 ≠ toU64 nx_starts then
    Except.error SmergeError.internalBatching
  else
    Except.ok ((List.range nBatch.toNat).map (fun (b : Nat) =>
      batchOf nBatch batchSize lastBatchSize x x_starts nx_starts y y_starts ny_starts (b : Int)))

/-! ## grpLens -/

/-- The function `grpLens`: run lengths from run starts. -/
def grpLens (starts : List Int) (n_starts n : Int) (lens : List Int) : List Int :=
  let l1 := (List.range (n_starts - 1).toNat).foldl
    (fun (l : List Int) (i : Nat) => wr l (i : Int) (rd starts ((i : Int) + 1) - rd starts (i : Int)))
    lens
  wr l1 (n_starts - 1) (n - rd starts (n_starts - 1) + 1)

/-! ## smergeC -/

/-- The batch count chosen by `smergeC` from the thread count `nth = getDTthreads()`. -/
def nBatchFor (nth nx_starts : Int) : Int :=
  if nth = 1 ∨ nx_starts < 1024 then 1
  else if nx_starts < nth * 2 then nx_starts
  else nth * 2

/-- The reduction loop of `smergeC`:
`for (b...) { smerge(...); nmatch += bnmatch; xlens1 = bxlens1 && xlens1; ... }`. -/
def runBatches (x x_starts x_lens : List Int) (unq_x : Bool)
    (y y_starts y_lens : List Int) (unq_y : Bool) (mult : emult) :
    List Batch → JoinState → JoinState
  | [], acc => acc
  | b :: bs, acc =>
    let r := smerge b.x_off b.nx b.y_off b.ny x x_starts x_lens unq_x y y_starts y_lens unq_y
      acc.starts acc.lens mult
    runBatches x x_starts x_lens unq_x y y_starts y_lens unq_y mult bs
      ⟨r.starts, r.lens, (acc.cnt + r.cnt) % U64,
        r.xlen1 && acc.xlen1, r.ylen1 && acc.ylen1, r.xylen1 && acc.xylen1⟩

/-- The function `smergeC` after the choice of `nBatch`: run lengths, batching,
the loop over the batches with its reduction, and the `mult == ERR` check. -/
def smergeCWith (nBatch : Int) (x : List Int) (nx : Int) (x_starts : List Int) (nx_starts : Int)
    (y : List Int) (ny : Int) (y_starts : List Int) (ny_starts : Int)
    (starts lens : List Int) (mult : emult) : Except SmergeError JoinState :=
  let unq_x : Bool := decide (nx_starts = nx)
  let unq_y : Bool := decide (ny_starts = ny)
  let x_lens : List Int :=
    if !unq_x then grpLens x_starts nx_starts nx (List.replicate nx_starts.toNat 0) else []
  let y_lens : List Int :=
    if !(unq_y || decide (mult = emult.FIRST)) then
      grpLens y_starts ny_starts ny (List.replicate ny_starts.toNat 0)
    else []
  match batching nBatch x x_starts nx_starts y y_starts ny_starts with
  | Except.error e => Except.error e
  | Except.ok bs =>
    let r := runBatches x x_starts x_lens unq_x y y_starts y_lens unq_y mult bs
      ⟨starts, lens, 0, true, true, true⟩
    if mult = emult.ERR ∧ r.ylen1 = false then Except.error SmergeError.duplicateMatch
    else Except.ok r

/-- The function `smergeC`, with the thread count `nth = getDTthreads()` as a parameter. -/
def smergeC (nth : Int) (x : List Int) (nx : Int) (x_starts : List Int) (nx_starts : Int)
    (y : List Int) (ny : Int) (y_starts : List Int) (ny_starts : Int)
    (starts lens : List Int) (mult : emult) : Except SmergeError JoinState :=
  smergeCWith (nBatchFor nth nx_starts) x nx x_starts nx_starts y ny y_starts ny_starts
    starts lens mult

/-! ## Specification-level definitions -/

/-- The run indices `lo, lo+1, ..., lo+n-1`. -/
def runsFrom : Int → Nat → List Int
  | _, 0 => []
  | lo, n + 1 => lo :: runsFrom (lo + 1) n

/-- Linear search for the run `j` in `lo .. lo+n-1` whose key `ky j` is `k`. -/
def findRun (ky : Int → Int) (k : Int) : Int → Nat → Option Int
  | _, 0 => none
  | lo, n + 1 => if ky lo = k then some lo else findRun ky k (lo + 1) n

/-- What the scan does for the left run `i`: the equality body against the
right run of `lo .. lo+n-1` with the same key, nothing when there is none. -/
def stepRun (kx ky : Int → Int) (lo : Int) (n : Nat)
    (hit : Int → Int → JoinState → JoinState) (s : JoinState) (i : Int) : JoinState :=
  match findRun ky (kx i) lo n with
  | some j => hit i j s
  | none => s

/-! ### Valid inputs and the one-pass join -/

/-- Key of run `k` of the column `col` with group index `gs`: `col[gs[k]-1]`. -/
def keyAt (col gs : List Int) (k : Int) : Int := rd col (rd gs k - 1)

/-- Number of rows of run `k`: from its first row up to the first row of the
next run, or up to the end of the column (`n` rows) for the last run. -/
def runLen (gs : List Int) (n : Int) (k : Int) : Int :=
  if k + 1 < gs.length then rd gs (k + 1) - rd gs k else n - rd gs k + 1

/-- A sorted column with its group index: the column fits an `int` size, there is
at least one run, the first run starts at row 1, run starts are strictly
increasing and lie in the column, every row of a run carries the key of the
run, and the keys of successive runs are strictly increasing. -/
def ValidIndex (col gs : List Int) : Prop :=
  col.length < 2 ^ 31 ∧ 0 < gs.length ∧ rd gs 0 = 1 ∧
  (∀ k : Nat, k < gs.length → k + 1 < gs.length → rd gs k < rd gs ((k : Int) + 1)) ∧
  rd gs ((gs.length : Int) - 1) ≤ col.length ∧
  (∀ k : Nat, k < gs.length → ∀ r : Nat, r < col.length →
    rd gs k - 1 ≤ (r : Int) → (r : Int) < rd gs k - 1 + runLen gs col.length k →
    rd col r = keyAt col gs k) ∧
  (∀ k : Nat, k < gs.length → k + 1 < gs.length →
    keyAt col gs k < keyAt col gs ((k : Int) + 1))

instance (col gs : List Int) : Decidable (ValidIndex col gs) := by
  unfold ValidIndex; infer_instance

/-- Write `v` into the rows `i0 .. i0+xl-1` of an output array. -/
def fillRun (a : List Int) (i0 xl v : Int) : List Int :=
  (List.range xl.toNat).foldl (fun (l : List Int) (ii : Nat) => wr l (i0 + (ii : Int)) v) a

/-- Effect of a match between left run `is` and right run `js`, in terms of the
group indices alone: `i0` first row and `xl` length of the left run, `j0` first
row (1-based) and `yl` length of the right run. -/
def uhit (x_starts : List Int) (nx : Int) (y_starts : List Int) (ny : Int)
    (unq_y : Bool) (mult : emult) (is js : Int) (s : JoinState) : JoinState :=
  let i0 := rd x_starts is - 1
  let xl := runLen x_starts nx is
  let j0 := rd y_starts js
  let yl := runLen y_starts ny js
  match mult with
  | emult.FIRST =>
    ⟨fillRun s.starts i0 xl j0, s.lens, (s.cnt + xl.toNat) % U64,
      s.xlen1 && !decide (xl > 1), s.ylen1, s.xylen1⟩
  | emult.LAST =>
    ⟨fillRun s.starts i0 xl (j0 + yl - 1), s.lens, (s.cnt + xl.toNat) % U64,
      s.xlen1 && !decide (xl > 1), s.ylen1, s.xylen1⟩
  | _ =>
    ⟨fillRun s.starts i0 xl j0, if unq_y then s.lens else fillRun s.lens i0 xl yl,
      (s.cnt + xl.toNat * yl.toNat) % U64,
      s.xlen1 && !decide (xl > 1), s.ylen1 && !decide (yl > 1),
      s.xylen1 && !(decide (xl > 1) && decide (yl > 1))⟩

/-- What the join does for the left run `is`: the uniform equality body against
the right run with the same key, searched among all right runs. -/
def joinStep (x xs y ys : List Int) (unq_y : Bool) (mult : emult)
    (s : JoinState) (is : Int) : JoinState :=
  stepRun (keyAt x xs) (keyAt y ys) 0 ys.length (uhit xs x.length ys y.length unq_y mult) s is

/-- The join as one pass over all left runs `0 .. xs.length-1`. -/
def joinSpec (x xs y ys : List Int) (unq_y : Bool) (mult : emult)
    (starts lens : List Int) : JoinState :=
  (runsFrom 0 xs.length).foldl (joinStep x xs y ys unq_y mult) ⟨starts, lens, 0, true, true, true⟩

/-- The right range of a batch covers every right run whose key occurs among
the left runs of the batch. -/
def Covers (x xs y ys : List Int) (bx_off bnx by_off bny : Int) : Prop :=
  ∀ i j : Int, bx_off ≤ i → i < bx_off + bnx → 0 ≤ j → j < ys.length →
    keyAt x xs i = keyAt y ys j → by_off ≤ j ∧ j < by_off + bny

/-- A batch that `smerge` handles as intended: ranges inside the two group
indices, and a right range covering the matches of the left range. -/
def GoodBatch (x xs y ys : List Int) (b : Batch) : Prop :=
  0 ≤ b.x_off ∧ b.x_off + b.nx ≤ xs.length ∧ 0 ≤ b.y_off ∧ b.y_off + b.ny ≤ ys.length ∧
    Covers x xs y ys b.x_off b.nx b.y_off b.ny

/-- The left runs of a list of batches, batch after batch. -/
def allRuns : List Batch → List Int
  | [] => []
  | b :: bs => runsFrom b.x_off b.nx.toNat ++ allRuns bs

/-- The batch counts for which `batching` cuts `n` left runs into non-empty
batches: with the batch size `(n-1)/K + 1` of the source, the first `K-1`
batches leave at least one run for the last batch.  One batch always qualifies
when `n >= 1`, so the count chosen by `smergeC` qualifies whenever there is one
thread or there are fewer than 1024 left runs. -/
def BatchCountOK (K n : Int) : Prop :=
  1 ≤ K ∧ (K - 1) * ((n - 1) / K + 1) < n

instance (K n : Int) : Decidable (BatchCountOK K n) := by
  unfold BatchCountOK; infer_instance

/-- The value that a match with right run `js` writes into `starts`. -/
def startOf (ys : List Int) (ny : Int) (mult : emult) (js : Int) : Int :=
  match mult with
  | emult.LAST => rd ys js + runLen ys ny js - 1
  | _ => rd ys js

/-- Whether a match writes into `lens`: not under FIRST and LAST, and not when
the right column is unique. -/
def writesLens (unq_y : Bool) (mult : emult) : Bool :=
  match mult with
  | emult.FIRST => false
  | emult.LAST => false
  | _ => !unq_y

/-- Row `r` lies in run `is` of the group index `gs` of a column of `n` rows. -/
def InRun (gs : List Int) (n : Int) (is r : Int) : Prop :=
  rd gs is - 1 ≤ r ∧ r < rd gs is - 1 + runLen gs n is

/-- No left run with a match has more than one row. -/
def NoMatchedLeftDup (x xs y ys : List Int) : Prop :=
  ∀ is : Nat, is < xs.length → ∀ js : Nat, js < ys.length →
    keyAt x xs is = keyAt y ys js → runLen xs x.length is ≤ 1

/-- No right run with a match has more than one row. -/
def NoMatchedRightDup (x xs y ys : List Int) : Prop :=
  ∀ is : Nat, is < xs.length → ∀ js : Nat, js < ys.length →
    keyAt x xs is = keyAt y ys js → runLen ys y.length js ≤ 1

/-- No match has more than one row on both sides. -/
def NoMatchedCrossDup (x xs y ys : List Int) : Prop :=
  ∀ is : Nat, is < xs.length → ∀ js : Nat, js < ys.length →
    keyAt x xs is = keyAt y ys js → ¬ (runLen xs x.length is > 1 ∧ runLen ys y.length js > 1)

instance (x xs y ys : List Int) : Decidable (NoMatchedLeftDup x xs y ys) := by
  unfold NoMatchedLeftDup; infer_instance

instance (x xs y ys : List Int) : Decidable (NoMatchedRightDup x xs y ys) := by
  unfold NoMatchedRightDup; infer_instance

instance (x xs y ys : List Int) : Decidable (NoMatchedCrossDup x xs y ys) := by
  unfold NoMatchedCrossDup; infer_instance

/-- Number of rows of the right run with key `k`, `0` when there is none. -/
def matchLen (y ys : List Int) (k : Int) : Nat :=
  match findRun (keyAt y ys) k 0 ys.length with
  | some js => (runLen ys y.length js).toNat
  | none => 0

/-- What a left row with key `k` adds to the match count: under FIRST and LAST
one if it has a match, otherwise the length of the right run it matches. -/
def rowCount (y ys : List Int) (mult : emult) (k : Int) : Nat :=
  match mult with
  | emult.FIRST => if (findRun (keyAt y ys) k 0 ys.length).isSome then 1 else 0
  | emult.LAST => if (findRun (keyAt y ys) k 0 ys.length).isSome then 1 else 0
  | _ => matchLen y ys k

/-- First row (0-based) of run `t`, or the number of rows when `t` is past the
last run. -/
def startRow (gs : List Int) (n : Nat) (t : Nat) : Nat :=
  if t < gs.length then (rd gs t - 1).toNat else n

/-- What a left row with key `k` adds to the match count, read off the right
column: under FIRST and LAST one if `k` occurs in it, otherwise the number of
right rows that carry `k`. -/
def rowMatches (y : List Int) (mult : emult) (k : Int) : Nat :=
  match mult with
  | emult.FIRST => if k ∈ y then 1 else 0
  | emult.LAST => if k ∈ y then 1 else 0
  | _ => y.count k

/-- The missing-value constant `NA_INTEGER` of R (`INT_MIN`), the "no match"
sentinel with which the caller fills `starts`. -/
def NA_INTEGER : Int := -2147483648

/-- The group index `1, 2, ..., n` of a column of `n` distinct keys. -/
def seqIndex (n : Nat) : List Int := (List.range n).map (fun (k : Nat) => (k : Int) + 1)

/-- Left column of the worked scenario: keys `1, 2, 2, 3`. -/
def exX : List Int := [1, 2, 2, 3]

/-- Group index of `exX`: runs start at rows 1, 2 and 4. -/
def exXs : List Int := [1, 2, 4]

/-- Right column of the worked scenario: keys `2, 2, 4`. -/
def exY : List Int := [2, 2, 4]

/-- Group index of `exY`: runs start at rows 1 and 3. -/
def exYs : List Int := [1, 3]

/-- Output `starts` of the worked scenario as seeded by the caller. -/
def exStarts : List Int := [NA_INTEGER, NA_INTEGER, NA_INTEGER, NA_INTEGER]

/-- Output `lens` of the worked scenario as seeded by the caller. -/
def exLens : List Int := [1, 1, 1, 1]

/-- The keys `x[ix[k]-1]`, `k = 0 .. nix-1`, are non-decreasing in `k`. -/
def KeysNonDecreasing (x ix : List Int) (nix : Int) : Prop :=
  ∀ k : Nat, k < nix.toNat → k + 1 < nix.toNat → keyAt x ix k ≤ keyAt x ix ((k : Int) + 1)

instance (x ix : List Int) (nix : Int) : Decidable (KeysNonDecreasing x ix nix) := by
  unfold KeysNonDecreasing; infer_instance

/-- No key `x[ix[k]-1]`, `k = 0 .. nix-1`, equals `val`. -/
def NoKeyIs (x ix : List Int) (nix val : Int) : Prop :=
  ∀ k : Nat, k < nix.toNat → keyAt x ix k ≠ val

instance (x ix : List Int) (nix val : Int) : Decidable (NoKeyIs x ix nix val) := by
  unfold NoKeyIs; infer_instance

/-- The binary-search loop of `rollbs` (the loop of `rollbsLoop`) with a record
of the positions `i` at which it reads `ix[i]`: the value the loop leaves and
the probed positions in order, or `none` when the fuel runs out while
`lower <= upper` still holds. -/
def rollbsLoopProbes (x ix : List Int) (val side : Int) :
    Nat → Int → Int → Option (Int × List Int)
  | 0, lower, upper =>
    if lower ≤ upper then none else some (if side < 0 then lower else upper, [])
  | fuel + 1, lower, upper =>
    if lower ≤ upper then
      let i := lower + Int.tdiv (upper - lower) 2
      let thisx := rd x (rd ix i - 1)
      if thisx = val then some (i, [i])
      else if thisx < val then
        (rollbsLoopProbes x ix val side fuel (i + 1) upper).map
          (fun (r : Int × List Int) => (r.1, i :: r.2))
      else if thisx > val then
        (rollbsLoopProbes x ix val side fuel lower (i - 1)).map
          (fun (r : Int × List Int) => (r.1, i :: r.2))
      else
        (rollbsLoopProbes x ix val side fuel lower upper).map
          (fun (r : Int × List Int) => (r.1, i :: r.2))
    else some (if side < 0 then lower else upper, [])

/-- The function `rollbs` with the probe record of its loop: the early exits
probe nothing inside the loop. -/
def rollbsProbes (x ix : List Int) (nix val side : Int) : Option (Int × List Int) :=
  if rd x (rd ix 0 - 1) = val then some (0, [])
  else if rd x (rd ix (nix - 1) - 1) = val then some (nix - 1, [])
  else if side < 0 ∧ rd x (rd ix (nix - 1) - 1) < val then some (-1, [])
  else if side < 0 ∧ rd x (rd ix 0 - 1) > val then some (0, [])
  else if ¬ side < 0 ∧ side > 0 ∧ rd x (rd ix 0 - 1) > val then some (-1, [])
  else if ¬ side < 0 ∧ side > 0 ∧ rd x (rd ix (nix - 1) - 1) < val then some (nix - 1, [])
  else rollbsLoopProbes x ix val side (nix.toNat + 2) 0 nix

/-- Every entry `ix[k]`, `k = 0 .. nix-1`, is a 1-based row of `x`. -/
def IndexEntriesValid (x ix : List Int) (nix : Int) : Prop :=
  ∀ k : Nat, k < nix.toNat → 1 ≤ rd ix k ∧ rd ix k ≤ x.length

instance (x ix : List Int) (nix : Int) : Decidable (IndexEntriesValid x ix nix) := by
  unfold IndexEntriesValid; infer_instance

/-- Walk over the batches from the left run `o`: every batch starts where the
previous one ended and holds at least one run; the result is the run after the
last batch, `none` when a batch is empty or out of place. -/
def partitionEnd : Int → List Batch → Option Int
  | o, [] => some o
  | o, b :: bs => if b.x_off = o ∧ 1 ≤ b.nx then partitionEnd (o + b.nx) bs else none

/-- The batches are a valid partition of the left runs `0 .. n-1`: contiguous
from run 0, every size `Bnx >= 1`, ending at `n` (so the sizes sum to `n`). -/
def ValidPartition (bs : List Batch) (n : Int) : Prop := partitionEnd 0 bs = some n

instance (bs : List Batch) (n : Int) : Decidable (ValidPartition bs n) := by
  unfold ValidPartition; infer_instance

/-- Read `a[i]` of a run-length array that may be absent (the null pointer that
`smergeC` keeps in `x_lens` or `y_lens` when it does not allocate the array);
`none` is the read of an absent array. -/
def rdLens (a : Option (List Int)) (i : Int) : Option Int :=
  match a with
  | some l => some (rd l i)
  | none => none

/-- The loop of `scan` with an equality body that may read an absent array:
the loop stops with `none` at the first such read. -/
def scanChecked (ni nj : Int) (kx ky : Int → Int)
    (hit : Int → Int → JoinState → Option JoinState) :
    Nat → Int → Int → JoinState → Option JoinState
  | 0, _, _, s => some s
  | fuel + 1, i, j, s =>
    if i < ni ∧ j < nj then
      if kx i = ky j then
        match hit i j s with
        | some s1 => scanChecked ni nj kx ky hit fuel (i + 1) j s1
        | none => none
      else if kx i < ky j then scanChecked ni nj kx ky hit fuel (i + 1) j s
      else if kx i > ky j then scanChecked ni nj kx ky hit fuel i (j + 1) s
      else scanChecked ni nj kx ky hit fuel i j s
    else some s

/-- The function `smerge` with run-length arrays that may be absent: the same
eight scans, every read `x_lens[is]` and `y_lens[js]` of the source going
through `rdLens`; the result is `none` when the call reads an absent array. -/
def smergeChecked (bx_off bnx by_off bny : Int)
    (x x_starts : List Int) (x_lens : Option (List Int)) (unq_x : Bool)
    (y y_starts : List Int) (y_lens : Option (List Int)) (unq_y : Bool)
    (starts lens : List Int) (mult : emult) : Option JoinState :=
  let s0 : JoinState := ⟨starts, lens, 0, true, true, true⟩
  let ni := bx_off + bnx
  let nj := by_off + bny
  let fuel := bnx.toNat + bny.toNat
  if unq_x && unq_y then
    scanChecked ni nj (fun i => rd x i) (fun j => rd y j)
      (fun i j s => some { s with starts := wr s.starts i (j + 1), cnt := (s.cnt + 1) % U64 })
      fuel bx_off by_off s0
  else if unq_x then
    match mult with
    | emult.FIRST =>
      scanChecked ni nj (fun i => rd x i) (fun js => rd y (rd y_starts js - 1))
        (fun i js s =>
          let j := rd y_starts js - 1
          some { s with starts := wr s.starts i (j + 1), cnt := (s.cnt + 1) % U64 })
        fuel bx_off by_off s0
    | emult.LAST =>
      scanChecked ni nj (fun i => rd x i) (fun js => rd y (rd y_starts js - 1))
        (fun i js s =>
          let j := rd y_starts js - 1
          match rdLens y_lens js with
          | none => none
          | some yl =>
            some { s with starts := wr s.starts i (j + yl), cnt := (s.cnt + 1) % U64 })
        fuel bx_off by_off s0
    | _ =>
      scanChecked ni nj (fun i => rd x i) (fun js => rd y (rd y_starts js - 1))
        (fun i js s =>
          let j := rd y_starts js - 1
          match rdLens y_lens js with
          | none => none
          | some yl1 =>
            some { s with
              starts := wr s.starts i (j + 1)
              lens := wr s.lens i yl1
              ylen1 := clearIf s.ylen1 (decide (yl1 > 1))
              cnt := (s.cnt + toU64 yl1) % U64 })
        fuel bx_off by_off s0
  else if unq_y then
    scanChecked ni nj (fun is => rd x (rd x_starts is - 1)) (fun j => rd y j)
      (fun is j s =>
        let i := rd x_starts is - 1
        let j1 := j + 1
        match rdLens x_lens is with
        | none => none
        | some xl1 =>
          let s1 := forRun xl1 (fun ii t => { t with starts := wr t.starts (i + ii) j1 }) s
          some { s1 with
            xlen1 := clearIf s1.xlen1 (decide (xl1 > 1))
            cnt := (s1.cnt + toU64 xl1) % U64 })
      fuel bx_off by_off s0
  else
    match mult with
    | emult.FIRST =>
      scanChecked ni nj (fun is => rd x (rd x_starts is - 1))
        (fun js => rd y (rd y_starts js - 1))
        (fun is js s =>
          let i := rd x_starts is - 1
          let j := rd y_starts js - 1
          let j1 := j + 1
          match rdLens x_lens is with
          | none => none
          | some xl1 =>
            let s1 := forRun xl1 (fun ii t => { t with starts := wr t.starts (i + ii) j1 }) s
            some { s1 with
              xlen1 := clearIf s1.xlen1 (decide (xl1 > 1))
              cnt := (s1.cnt + toU64 xl1) % U64 })
        fuel bx_off by_off s0
    | emult.LAST =>
      scanChecked ni nj (fun is => rd x (rd x_starts is - 1))
        (fun js => rd y (rd y_starts js - 1))
        (fun is js s =>
          let i := rd x_starts is - 1
          let j := rd y_starts js - 1
          match rdLens y_lens js with
          | none => none
          | some yl =>
            let j1 := j + yl
            match rdLens x_lens is with
            | none => none
            | some xl1 =>
              let s1 := forRun xl1 (fun ii t => { t with starts := wr t.starts (i + ii) j1 }) s
              some { s1 with
                xlen1 := clearIf s1.xlen1 (decide (xl1 > 1))
                cnt := (s1.cnt + toU64 xl1) % U64 })
        fuel bx_off by_off s0
    | _ =>
      scanChecked ni nj (fun is => rd x (rd x_starts is - 1))
        (fun js => rd y (rd y_starts js - 1))
        (fun is js s =>
          let i := rd x_starts is - 1
          let j := rd y_starts js - 1
          let j1 := j + 1
          match rdLens y_lens js with
          | none => none
          | some yl1 =>
            match rdLens x_lens is with
            | none => none
            | some xl1 =>
              let s1 := forRun xl1
                (fun ii t =>
                  { t with starts := wr t.starts (i + ii) j1, lens := wr t.lens (i + ii) yl1 }) s
              some { s1 with
                xlen1 := clearIf s1.xlen1 (decide (xl1 > 1))
                ylen1 := clearIf s1.ylen1 (decide (yl1 > 1))
                xylen1 := clearIf s1.xylen1 (decide (xl1 > 1) && decide (yl1 > 1))
                cnt := (s1.cnt + (toU64 xl1 * toU64 yl1) % U64) % U64 })
        fuel bx_off by_off s0

/-- The pointer `x_lens` as `smergeC` sets it up: left null for a unique left
column, otherwise the array filled by `grpLens`. -/
def xLensOf (x_starts : List Int) (nx_starts nx : Int) : Option (List Int) :=
  if nx_starts = nx then none
  else some (grpLens x_starts nx_starts nx (List.replicate nx_starts.toNat 0))

/-- The pointer `y_lens` as `smergeC` sets it up: left null for a unique right
column and under FIRST, otherwise the array filled by `grpLens`. -/
def yLensOf (y_starts : List Int) (ny_starts ny : Int) (mult : emult) : Option (List Int) :=
  if ny_starts = ny ∨ mult = emult.FIRST then none
  else some (grpLens y_starts ny_starts ny (List.replicate ny_starts.toNat 0))

/-- Left column of the 17-thread scenario: the 1056 distinct keys `1 .. 1056`;
the same list is its group index. -/
def exWide : List Int := seqIndex 1056

/-- Left column of the 32-thread scenario: the 1025 distinct keys `1 .. 1025`;
the same list is its group index. -/
def exWrap : List Int := seqIndex 1025

/-! ## Lemmas: searching a run by key -/

theorem findRun_some {ky : Int → Int} {k : Int} : ∀ (n : Nat) (lo j : Int),
    findRun ky k lo n = some j → lo ≤ j ∧ j < lo + n ∧ ky j = k := by
  intro n
  induction n with
  | zero => intro lo j h; simp [findRun] at h
  | succ n ih =>
    intro lo j h
    unfold findRun at h
    split at h
    · injection h with h; subst h
      refine ⟨le_refl _, ?_, by assumption⟩
      push_cast; omega
    · have := ih _ _ h
      push_cast; omega

theorem findRun_none {ky : Int → Int} {k : Int} : ∀ (n : Nat) (lo : Int),
    findRun ky k lo n = none → ∀ j, lo ≤ j → j < lo + n → ky j ≠ k := by
  intro n
  induction n with
  | zero => intro lo _ j h1 h2; simp at h2; omega
  | succ n ih =>
    intro lo h j h1 h2
    unfold findRun at h
    split at h
    · simp at h
    · rename_i hne
      by_cases hj : j = lo
      · subst hj; exact hne
      · apply ih _ h
        · omega
        · push_cast at h2; omega

theorem findRun_of_none {ky : Int → Int} {k : Int} (n : Nat) (lo : Int)
    (h : ∀ j, lo ≤ j → j < lo + n → ky j ≠ k) : findRun ky k lo n = none := by
  cases hf : findRun ky k lo n with
  | none => rfl
  | some j =>
    obtain ⟨h1, h2, h3⟩ := findRun_some n lo j hf
    exact absurd h3 (h j h1 h2)

theorem findRun_of_some {ky : Int → Int} {k : Int} (n : Nat) (lo j : Int)
    (h1 : lo ≤ j) (h2 : j < lo + n) (h3 : ky j = k)
    (huniq : ∀ j', lo ≤ j' → j' < lo + n → ky j' = k → j' = j) :
    findRun ky k lo n = some j := by
  cases hf : findRun ky k lo n with
  | none => exact absurd h3 (findRun_none n lo hf j h1 h2)
  | some j' =>
    obtain ⟨a, b, c⟩ := findRun_some n lo j' hf
    rw [huniq j' a b c]

/-! ## Lemmas: the scan is a fold over the left runs -/

theorem foldl_stepRun_none (kx ky : Int → Int) (lo : Int) (n : Nat)
    (hit : Int → Int → JoinState → JoinState) (s : JoinState) :
    ∀ (m : Nat) (i : Int),
      (∀ a, i ≤ a → a < i + m → findRun ky (kx a) lo n = none) →
      (runsFrom i m).foldl (stepRun kx ky lo n hit) s = s := by
  intro m
  induction m with
  | zero => intro i _; rfl
  | succ m ih =>
    intro i h
    simp only [runsFrom, List.foldl_cons]
    have h0 : findRun ky (kx i) lo n = none := h i (le_refl _) (by push_cast; omega)
    have : stepRun kx ky lo n hit s i = s := by simp [stepRun, h0]
    rw [this]
    apply ih
    intro a ha hb
    apply h a (by omega) (by push_cast; omega)

theorem scan_eq_foldl (ni nj i0 j0 : Int) (kx ky : Int → Int)
    (hit : Int → Int → JoinState → JoinState)
    (hx : ∀ a b, i0 ≤ a → a < b → b < ni → kx a < kx b)
    (hy : ∀ a b, j0 ≤ a → a < b → b < nj → ky a < ky b) :
    ∀ (fuel : Nat) (i j : Int) (s : JoinState), i0 ≤ i → j0 ≤ j →
      (∀ j', j0 ≤ j' → j' < j → j' < nj → i < ni → ky j' < kx i) →
      (ni - i).toNat + (nj - j).toNat ≤ fuel →
      scan ni nj kx ky hit fuel i j s
        = (runsFrom i (ni - i).toNat).foldl (stepRun kx ky j0 (nj - j0).toNat hit) s := by
  intro fuel
  induction fuel with
  | zero =>
    intro i j s hi hj hinv hf
    have h1 : (ni - i).toNat = 0 := by omega
    simp [scan, h1, runsFrom]
  | succ fuel ih =>
    intro i j s hi hj hinv hf
    unfold scan
    by_cases hc : i < ni ∧ j < nj
    · obtain ⟨hci, hcj⟩ := hc
      have hlen : (ni - i).toNat = (ni - (i + 1)).toNat + 1 := by omega
      have hmono : ∀ a b, j0 ≤ a → a ≤ b → b < nj → ky a ≤ ky b := by
        intro a b h1 h2 h3
        rcases (by omega : a < b ∨ a = b) with h | h
        · exact le_of_lt (hy a b h1 h h3)
        · subst h; exact le_refl _
      rw [if_pos ⟨hci, hcj⟩]
      by_cases heq : kx i = ky j
      · rw [if_pos heq, ih (i + 1) j (hit i j s) (by omega) hj ?_ (by omega), hlen]
        · simp only [runsFrom, List.foldl_cons]
          have hfind : findRun ky (kx i) j0 (nj - j0).toNat = some j := by
            apply findRun_of_some _ _ _ hj (by omega) heq.symm
            intro j' h1 h2 h3
            by_contra hne
            rcases lt_or_gt_of_ne hne with h | h
            · have := hinv j' h1 h (by omega) hci; omega
            · have := hy j j' hj h (by omega); omega
          simp [stepRun, hfind]
        · intro j' h1 h2 h3 h4
          have := hinv j' h1 h2 h3 hci
          have := hx i (i + 1) hi (by omega) h4
          omega
      · rw [if_neg heq]
        by_cases hlt : kx i < ky j
        · rw [if_pos hlt, ih (i + 1) j s (by omega) hj ?_ (by omega), hlen]
          · simp only [runsFrom, List.foldl_cons]
            have hfind : findRun ky (kx i) j0 (nj - j0).toNat = none := by
              apply findRun_of_none
              intro j' h1 h2 h3
              rcases lt_or_ge j' j with h | h
              · have := hinv j' h1 h (by omega) hci; omega
              · have := hmono j j' hj h (by omega); omega
            simp [stepRun, hfind]
          · intro j' h1 h2 h3 h4
            have := hinv j' h1 h2 h3 hci
            have := hx i (i + 1) hi (by omega) h4
            omega
        · rw [if_neg hlt]
          have hgt : kx i > ky j := by omega
          rw [if_pos hgt, ih i (j + 1) s hi (by omega) ?_ (by omega)]
          intro j' h1 h2 h3 h4
          rcases lt_or_ge j' j with h | h
          · exact hinv j' h1 h h3 h4
          · have : j' = j := by omega
            subst this; omega
    · rw [if_neg hc]
      rcases not_and_or.mp hc with h | h
      · have h1 : (ni - i).toNat = 0 := by omega
        simp [h1, runsFrom]
      · symm
        apply foldl_stepRun_none
        intro a ha hb
        apply findRun_of_none
        intro j' h1 h2 h3
        have hai : a < ni := by omega
        have hj' : j' < nj := by omega
        have h5 := hinv j' h1 (by omega) hj' (by omega)
        have h6 : kx i ≤ kx a := by
          rcases (by omega : i < a ∨ i = a) with h | h
          · exact le_of_lt (hx i a hi h hai)
          · subst h; exact le_refl _
        omega

/-! ## Lemmas: arrays -/

theorem rd_nat (a : List Int) (k : Nat) : rd a (k : Int) = a.getD k 0 := by
  simp [rd]

theorem wr_nat (a : List Int) (k : Nat) (v : Int) : wr a (k : Int) v = a.set k v := by
  simp [wr]

theorem length_wr (a : List Int) (i v : Int) : (wr a i v).length = a.length := by
  unfold wr; split <;> simp

theorem rd_wr_same (a : List Int) (i v : Int) (h0 : 0 ≤ i) (h1 : i < a.length) :
    rd (wr a i v) i = v := by
  obtain ⟨k, rfl⟩ := Int.eq_ofNat_of_zero_le h0
  have hk : k < a.length := by exact_mod_cast h1
  rw [wr_nat, rd_nat]
  simp [List.getD_eq_getElem?_getD, List.getElem?_set, hk]

theorem rd_wr_ne (a : List Int) (i j v : Int) (h : i ≠ j) : rd (wr a i v) j = rd a j := by
  unfold wr
  split
  · rfl
  · unfold rd
    split
    · rfl
    · have : i.toNat ≠ j.toNat := by omega
      simp [List.getD_eq_getElem?_getD, List.getElem?_set, this]

theorem list_ext_rd (a b : List Int) (hl : a.length = b.length)
    (h : ∀ k : Nat, k < a.length → rd a k = rd b k) : a = b := by
  apply List.ext_getElem hl
  intro n h1 h2
  have := h n h1
  rw [rd_nat, rd_nat] at this
  simpa [List.getD_eq_getElem?_getD, h1, h2] using this

theorem length_foldl_wr (f : Nat → Int) (g : Nat → Int) : ∀ (t : Nat) (l : List Int),
    ((List.range t).foldl (fun (l : List Int) (i : Nat) => wr l (g i) (f i)) l).length = l.length := by
  intro t
  induction t with
  | zero => intro l; rfl
  | succ t ih =>
    intro l
    rw [List.range_succ, List.foldl_append]
    simp [length_wr, ih]

theorem rd_foldl_wr (f : Nat → Int) : ∀ (t : Nat) (l : List Int) (k : Nat), t ≤ l.length →
    rd ((List.range t).foldl (fun (l : List Int) (i : Nat) => wr l (i : Int) (f i)) l) k
      = if k < t then f k else rd l k := by
  intro t
  induction t with
  | zero => intro l k _; simp
  | succ t ih =>
    intro l k ht
    rw [List.range_succ, List.foldl_append]
    simp only [List.foldl_cons, List.foldl_nil]
    by_cases hk : k = t
    · subst hk
      rw [rd_wr_same _ _ _ (by omega)]
      · simp
      · rw [length_foldl_wr f (fun i => (i : Int))]; exact_mod_cast ht
    · rw [rd_wr_ne _ _ _ _ (by omega), ih l k (by omega)]
      by_cases h1 : k < t
      · simp [h1, Nat.lt_succ_of_lt h1]
      · have h2 : ¬ k < t + 1 := by omega
        simp [h1, h2]

/-! ## Lemmas: consequences of validity -/

section Valid

variable {col gs : List Int}

theorem ValidIndex.gap (h : ValidIndex col gs) : ∀ (d a : Nat), a + d < gs.length →
    rd gs a + d ≤ rd gs ((a + d : Nat) : Int) := by
  intro d
  induction d with
  | zero => intro a _; simp
  | succ d ih =>
    intro a ha
    have h1 := ih a (by omega)
    have h2 := h.2.2.2.1 (a + d) (by omega) (by omega)
    have e : (((a + d : Nat) : Int) + 1) = ((a + (d + 1) : Nat) : Int) := by push_cast; ring
    rw [e] at h2
    push_cast at h1 h2 ⊢
    omega

theorem ValidIndex.start_ge (h : ValidIndex col gs) (k : Nat) (hk : k < gs.length) :
    (k : Int) + 1 ≤ rd gs k := by
  have := h.gap k 0 (by omega)
  have h0 := h.2.2.1
  simp only [Nat.zero_add, Nat.cast_zero] at this
  omega

theorem ValidIndex.start_le (h : ValidIndex col gs) (k : Nat) (hk : k < gs.length) :
    rd gs k + ((gs.length : Int) - 1 - k) ≤ col.length := by
  have := h.gap (gs.length - 1 - k) k (by omega)
  have hl := h.2.2.2.2.1
  have e : ((k + (gs.length - 1 - k) : Nat) : Int) = (gs.length : Int) - 1 := by omega
  rw [e] at this
  have e2 : ((gs.length - 1 - k : Nat) : Int) = (gs.length : Int) - 1 - k := by omega
  rw [e2] at this
  omega

theorem ValidIndex.start_lt (h : ValidIndex col gs) (a b : Nat) (hab : a < b)
    (hb : b < gs.length) : rd gs a < rd gs b := by
  have := h.gap (b - a) a (by omega)
  have e : a + (b - a) = b := by omega
  rw [e] at this
  have : ((b - a : Nat) : Int) = (b : Int) - a := by omega
  omega

theorem ValidIndex.runLen_eq (_h : ValidIndex col gs) (k : Nat) (hk : k < gs.length) :
    runLen gs col.length k
      = (if k + 1 < gs.length then rd gs ((k : Int) + 1) else (col.length : Int) + 1) - rd gs k := by
  unfold runLen
  by_cases hc : k + 1 < gs.length
  · have : ((k : Int) + 1 < gs.length) := by exact_mod_cast hc
    simp [hc, this]
  · have : ¬ ((k : Int) + 1 < gs.length) := by omega
    simp [hc, this]; ring

theorem ValidIndex.runLen_pos (h : ValidIndex col gs) (k : Nat) (hk : k < gs.length) :
    1 ≤ runLen gs col.length k := by
  rw [h.runLen_eq k hk]
  by_cases hc : k + 1 < gs.length
  · have := h.2.2.2.1 k hk hc
    simp [hc]; omega
  · have := h.start_le k hk
    simp [hc]; omega

theorem ValidIndex.run_end_le (h : ValidIndex col gs) (k : Nat) (hk : k < gs.length) :
    rd gs k - 1 + runLen gs col.length k ≤ col.length := by
  rw [h.runLen_eq k hk]
  by_cases hc : k + 1 < gs.length
  · have := h.start_le (k + 1) hc
    push_cast at this
    simp [hc]; omega
  · simp [hc]

theorem ValidIndex.run_end_next (h : ValidIndex col gs) (k : Nat) (hk : k + 1 < gs.length) :
    rd gs k - 1 + runLen gs col.length k = rd gs ((k : Int) + 1) - 1 := by
  rw [h.runLen_eq k (by omega)]
  simp [hk]

theorem ValidIndex.run_end_last (h : ValidIndex col gs) (k : Nat) (hk : k + 1 = gs.length) :
    rd gs k - 1 + runLen gs col.length k = col.length := by
  rw [h.runLen_eq k (by omega)]
  have : ¬ k + 1 < gs.length := by omega
  simp [this]

theorem ValidIndex.key_lt (h : ValidIndex col gs) : ∀ (d a : Nat), a + d + 1 < gs.length →
    keyAt col gs a < keyAt col gs ((a + d + 1 : Nat) : Int) := by
  intro d
  induction d with
  | zero =>
    intro a ha
    have := h.2.2.2.2.2.2 a (by omega) (by omega)
    simpa using this
  | succ d ih =>
    intro a ha
    have h1 := ih a (by omega)
    have h2 := h.2.2.2.2.2.2 (a + d + 1) (by omega) (by omega)
    have e : (((a + d + 1 : Nat) : Int) + 1) = ((a + (d + 1) + 1 : Nat) : Int) := by
      push_cast; ring
    rw [e] at h2
    omega

theorem ValidIndex.key_mono (h : ValidIndex col gs) (a b : Int) (h0 : 0 ≤ a) (hab : a < b)
    (hb : b < gs.length) : keyAt col gs a < keyAt col gs b := by
  obtain ⟨a', rfl⟩ := Int.eq_ofNat_of_zero_le h0
  obtain ⟨b', rfl⟩ := Int.eq_ofNat_of_zero_le (by omega : 0 ≤ b)
  have hab' : a' < b' := by exact_mod_cast hab
  have hb' : b' < gs.length := by exact_mod_cast hb
  have := h.key_lt (b' - a' - 1) a' (by omega)
  have e : a' + (b' - a' - 1) + 1 = b' := by omega
  rw [e] at this
  exact this

theorem ValidIndex.unique_start (h : ValidIndex col gs) (hu : gs.length = col.length)
    (k : Nat) (hk : k < gs.length) : rd gs k = (k : Int) + 1 := by
  have h1 := h.start_ge k hk
  have h2 := h.start_le k hk
  omega

theorem ValidIndex.unique_runLen (h : ValidIndex col gs) (hu : gs.length = col.length)
    (k : Nat) (hk : k < gs.length) : runLen gs col.length k = 1 := by
  rw [h.runLen_eq k hk]
  have h1 := h.unique_start hu k hk
  by_cases hc : k + 1 < gs.length
  · have h2 := h.unique_start hu (k + 1) hc
    push_cast at h2
    simp [hc]; omega
  · simp [hc]; omega

theorem ValidIndex.runLen_le (h : ValidIndex col gs) (k : Nat) (hk : k < gs.length) :
    runLen gs col.length k ≤ col.length := by
  have h1 := h.run_end_le k hk
  have h2 := h.start_ge k hk
  omega

theorem rd_grpLens (n : Int) (k : Nat) (hk : k < gs.length) :
    rd (grpLens gs gs.length n (List.replicate (gs.length : Int).toNat 0)) k = runLen gs n k := by
  unfold grpLens runLen
  simp only [Int.toNat_ofNat]
  have hlen : ((List.range ((gs.length : Int) - 1).toNat).foldl
      (fun (l : List Int) (i : Nat) => wr l (i : Int) (rd gs ((i : Int) + 1) - rd gs (i : Int)))
      (List.replicate gs.length 0)).length = gs.length := by
    rw [length_foldl_wr (fun i => rd gs ((i : Int) + 1) - rd gs (i : Int)) (fun i => (i : Int))]
    simp
  by_cases hc : k + 1 < gs.length
  · have hc' : ((k : Int) + 1 < gs.length) := by exact_mod_cast hc
    rw [if_pos hc', rd_wr_ne _ _ _ _ (by omega)]
    rw [rd_foldl_wr (fun i => rd gs ((i : Int) + 1) - rd gs (i : Int)) _ _ k (by simp)]
    have : k < ((gs.length : Int) - 1).toNat := by omega
    rw [if_pos this]
  · have hc' : ¬ ((k : Int) + 1 < gs.length) := by omega
    have e : (gs.length : Int) - 1 = (k : Int) := by omega
    rw [if_neg hc', e, rd_wr_same _ _ _ (by omega)]
    rw [← e, hlen]; omega

end Valid

/-! ## The equality body of the scan, uniformly for the eight scans -/

theorem clearIf_eq (f c : Bool) : clearIf f c = (f && !c) := by
  cases f <;> cases c <;> rfl

theorem forRun_starts (xl i v : Int) (s : JoinState) :
    forRun xl (fun ii t => { t with starts := wr t.starts (i + ii) v }) s
      = { s with starts := fillRun s.starts i xl v } := by
  unfold forRun fillRun
  generalize List.range xl.toNat = L
  induction L generalizing s with
  | nil => rfl
  | cons a L ih => simp only [List.foldl_cons]; rw [ih]

theorem forRun_both (xl i v w : Int) (s : JoinState) :
    forRun xl (fun ii t => { t with starts := wr t.starts (i + ii) v,
                                    lens := wr t.lens (i + ii) w }) s
      = { s with starts := fillRun s.starts i xl v, lens := fillRun s.lens i xl w } := by
  unfold forRun fillRun
  generalize List.range xl.toNat = L
  induction L generalizing s with
  | nil => rfl
  | cons a L ih => simp only [List.foldl_cons]; rw [ih]

theorem fillRun_one (a : List Int) (i0 v : Int) : fillRun a i0 1 v = wr a i0 v := by
  simp [fillRun, List.range_succ]

theorem toU64_of_small (v : Int) (h0 : 0 ≤ v) (h1 : v < 2 ^ 31) : toU64 v = v.toNat := by
  unfold toU64 U64
  have : v % ((2 ^ 64 : Nat) : Int) = v := by
    apply Int.emod_eq_of_lt h0
    norm_num; omega
  rw [this]

theorem scan_congr (ni nj i0 j0 : Int) (kx ky kx' ky' : Int → Int)
    (hit hit' : Int → Int → JoinState → JoinState)
    (hkx : ∀ i, i0 ≤ i → i < ni → kx i = kx' i)
    (hky : ∀ j, j0 ≤ j → j < nj → ky j = ky' j)
    (hh : ∀ i j s, i0 ≤ i → i < ni → j0 ≤ j → j < nj → hit i j s = hit' i j s) :
    ∀ (fuel : Nat) (i j : Int) (s : JoinState), i0 ≤ i → j0 ≤ j →
      scan ni nj kx ky hit fuel i j s = scan ni nj kx' ky' hit' fuel i j s := by
  intro fuel
  induction fuel with
  | zero => intro i j s _ _; rfl
  | succ fuel ih =>
    intro i j s hi hj
    unfold scan
    by_cases hc : i < ni ∧ j < nj
    · rw [if_pos hc, if_pos hc, ← hkx i hi hc.1, ← hky j hj hc.2, hh i j s hi hc.1 hj hc.2,
        ih (i + 1) j _ (by omega) hj, ih (i + 1) j s (by omega) hj,
        ih i (j + 1) s hi (by omega), ih i j s hi hj]
    · rw [if_neg hc, if_neg hc]

theorem ValidIndex.int_facts {col gs : List Int} (h : ValidIndex col gs) (i : Int)
    (h0 : 0 ≤ i) (h1 : i < gs.length) :
    1 ≤ runLen gs col.length i ∧ runLen gs col.length i ≤ col.length ∧ i + 1 ≤ rd gs i ∧
      rd gs i - 1 + runLen gs col.length i ≤ col.length := by
  obtain ⟨k, rfl⟩ := Int.eq_ofNat_of_zero_le h0
  have hk : k < gs.length := by exact_mod_cast h1
  exact ⟨h.runLen_pos k hk, h.runLen_le k hk, h.start_ge k hk, h.run_end_le k hk⟩

theorem ValidIndex.int_unique {col gs : List Int} (h : ValidIndex col gs)
    (hu : (gs.length : Int) = col.length) (i : Int) (h0 : 0 ≤ i) (h1 : i < gs.length) :
    rd gs i = i + 1 ∧ runLen gs col.length i = 1 ∧ keyAt col gs i = rd col i := by
  obtain ⟨k, rfl⟩ := Int.eq_ofNat_of_zero_le h0
  have hk : k < gs.length := by exact_mod_cast h1
  have hu' : gs.length = col.length := by exact_mod_cast hu
  have e := h.unique_start hu' k hk
  refine ⟨e, h.unique_runLen hu' k hk, ?_⟩
  unfold keyAt
  rw [e]; simp

/-- On a valid input each of the eight scans of `smerge` is the one scan over
run keys with the uniform equality body; of the uniqueness flags only the
direction "flag set, hence side unique" is used. -/
theorem smerge_eq_uscan_of {x xs y ys : List Int} (hx : ValidIndex x xs) (hy : ValidIndex y ys)
    (bx_off bnx by_off bny : Int) (x_lens y_lens : List Int) (unq_x unq_y : Bool)
    (starts lens : List Int) (mult : emult)
    (hbx : 0 ≤ bx_off) (hbx' : bx_off + bnx ≤ xs.length)
    (hby : 0 ≤ by_off) (hby' : by_off + bny ≤ ys.length)
    (hux : unq_x = true → (xs.length : Int) = x.length)
    (huy : unq_y = true → (ys.length : Int) = y.length)
    (hxl : unq_x = false → ∀ i : Int, 0 ≤ i → i < xs.length → rd x_lens i = runLen xs x.length i)
    (hyl : unq_y = false → mult ≠ emult.FIRST →
      ∀ j : Int, 0 ≤ j → j < ys.length → rd y_lens j = runLen ys y.length j) :
    smerge bx_off bnx by_off bny x xs x_lens unq_x y ys y_lens unq_y starts lens mult
      = scan (bx_off + bnx) (by_off + bny) (keyAt x xs) (keyAt y ys)
          (uhit xs x.length ys y.length unq_y mult) (bnx.toNat + bny.toNat) bx_off by_off
          ⟨starts, lens, 0, true, true, true⟩ := by
  have hsz : (x.length : Int) < 2 ^ 31 := by exact_mod_cast hx.1
  have hszy : (y.length : Int) < 2 ^ 31 := by exact_mod_cast hy.1
  unfold smerge
  simp only []
  cases hcx : unq_x <;> cases hcy : unq_y
  · simp only [Bool.false_and, Bool.false_eq_true, if_false]
    cases mult
    · -- both grouped, ALL
      refine scan_congr _ _ bx_off by_off _ _ _ _ _ _ ?_ ?_ ?_ _ _ _ _ (le_refl _) (le_refl _)
      · intro i h1 h2
        rfl
      · intro j h3 h4
        rfl
      · intro i j s h1 h2 h3 h4
        have fx := hx.int_facts i (by omega) (by omega)
        have fy := hy.int_facts j (by omega) (by omega)
        have ex := hxl hcx i (by omega) (by omega)
        have ey := hyl hcy (by decide) j (by omega) (by omega)
        simp only [forRun_both, forRun_starts, clearIf_eq, uhit, ex, ey]
        simp [toU64_of_small _ (show (0:Int) ≤ runLen xs x.length i by omega) (by omega),
          toU64_of_small _ (show (0:Int) ≤ runLen ys y.length j by omega) (by omega), Nat.add_mod]
    · -- both grouped, FIRST
      refine scan_congr _ _ bx_off by_off _ _ _ _ _ _ ?_ ?_ ?_ _ _ _ _ (le_refl _) (le_refl _)
      · intro i h1 h2
        rfl
      · intro j h3 h4
        rfl
      · intro i j s h1 h2 h3 h4
        have fx := hx.int_facts i (by omega) (by omega)
        have fy := hy.int_facts j (by omega) (by omega)
        have ex := hxl hcx i (by omega) (by omega)
        simp only [forRun_both, forRun_starts, clearIf_eq, uhit, ex]
        simp [toU64_of_small _ (show (0:Int) ≤ runLen xs x.length i by omega) (by omega), Nat.add_mod]
    · -- both grouped, LAST
      refine scan_congr _ _ bx_off by_off _ _ _ _ _ _ ?_ ?_ ?_ _ _ _ _ (le_refl _) (le_refl _)
      · intro i h1 h2
        rfl
      · intro j h3 h4
        rfl
      · intro i j s h1 h2 h3 h4
        have fx := hx.int_facts i (by omega) (by omega)
        have fy := hy.int_facts j (by omega) (by omega)
        have ex := hxl hcx i (by omega) (by omega)
        have ey := hyl hcy (by decide) j (by omega) (by omega)
        simp only [forRun_both, forRun_starts, clearIf_eq, uhit, ex, ey]
        simp [toU64_of_small _ (show (0:Int) ≤ runLen xs x.length i by omega) (by omega), Nat.add_mod]
        all_goals ring_nf
    · -- both grouped, ERR
      refine scan_congr _ _ bx_off by_off _ _ _ _ _ _ ?_ ?_ ?_ _ _ _ _ (le_refl _) (le_refl _)
      · intro i h1 h2
        rfl
      · intro j h3 h4
        rfl
      · intro i j s h1 h2 h3 h4
        have fx := hx.int_facts i (by omega) (by omega)
        have fy := hy.int_facts j (by omega) (by omega)
        have ex := hxl hcx i (by omega) (by omega)
        have ey := hyl hcy (by decide) j (by omega) (by omega)
        simp only [forRun_both, forRun_starts, clearIf_eq, uhit, ex, ey]
        simp [toU64_of_small _ (show (0:Int) ≤ runLen xs x.length i by omega) (by omega),
          toU64_of_small _ (show (0:Int) ≤ runLen ys y.length j by omega) (by omega), Nat.add_mod]
  · simp only [Bool.false_and, Bool.false_eq_true, if_false, if_true]
    cases mult
    · -- right unique, ALL
      refine scan_congr _ _ bx_off by_off _ _ _ _ _ _ ?_ ?_ ?_ _ _ _ _ (le_refl _) (le_refl _)
      · intro i h1 h2
        rfl
      · intro j h3 h4
        exact ((hy.int_unique (huy hcy) j (by omega) (by omega)).2.2).symm
      · intro i j s h1 h2 h3 h4
        have fx := hx.int_facts i (by omega) (by omega)
        have fy := hy.int_facts j (by omega) (by omega)
        have ex := hxl hcx i (by omega) (by omega)
        obtain ⟨uy1, uy2, _⟩ := hy.int_unique (huy hcy) j (by omega) (by omega)
        simp only [forRun_both, forRun_starts, clearIf_eq, uhit, ex, uy1, uy2]
        simp [toU64_of_small _ (show (0:Int) ≤ runLen xs x.length i by omega) (by omega), Nat.add_mod]
    · -- right unique, FIRST
      refine scan_congr _ _ bx_off by_off _ _ _ _ _ _ ?_ ?_ ?_ _ _ _ _ (le_refl _) (le_refl _)
      · intro i h1 h2
        rfl
      · intro j h3 h4
        exact ((hy.int_unique (huy hcy) j (by omega) (by omega)).2.2).symm
      · intro i j s h1 h2 h3 h4
        have fx := hx.int_facts i (by omega) (by omega)
        have fy := hy.int_facts j (by omega) (by omega)
        have ex := hxl hcx i (by omega) (by omega)
        obtain ⟨uy1, uy2, _⟩ := hy.int_unique (huy hcy) j (by omega) (by omega)
        simp only [forRun_both, forRun_starts, clearIf_eq, uhit, ex, uy1, uy2]
        simp [toU64_of_small _ (show (0:Int) ≤ runLen xs x.length i by omega) (by omega), Nat.add_mod]
    · -- right unique, LAST
      refine scan_congr _ _ bx_off by_off _ _ _ _ _ _ ?_ ?_ ?_ _ _ _ _ (le_refl _) (le_refl _)
      · intro i h1 h2
        rfl
      · intro j h3 h4
        exact ((hy.int_unique (huy hcy) j (by omega) (by omega)).2.2).symm
      · intro i j s h1 h2 h3 h4
        have fx := hx.int_facts i (by omega) (by omega)
        have fy := hy.int_facts j (by omega) (by omega)
        have ex := hxl hcx i (by omega) (by omega)
        obtain ⟨uy1, uy2, _⟩ := hy.int_unique (huy hcy) j (by omega) (by omega)
        simp only [forRun_both, forRun_starts, clearIf_eq, uhit, ex, uy1, uy2]
        simp [toU64_of_small _ (show (0:Int) ≤ runLen xs x.length i by omega) (by omega), Nat.add_mod]
    · -- right unique, ERR
      refine scan_congr _ _ bx_off by_off _ _ _ _ _ _ ?_ ?_ ?_ _ _ _ _ (le_refl _) (le_refl _)
      · intro i h1 h2
        rfl
      · intro j h3 h4
        exact ((hy.int_unique (huy hcy) j (by omega) (by omega)).2.2).symm
      · intro i j s h1 h2 h3 h4
        have fx := hx.int_facts i (by omega) (by omega)
        have fy := hy.int_facts j (by omega) (by omega)
        have ex := hxl hcx i (by omega) (by omega)
        obtain ⟨uy1, uy2, _⟩ := hy.int_unique (huy hcy) j (by omega) (by omega)
        simp only [forRun_both, forRun_starts, clearIf_eq, uhit, ex, uy1, uy2]
        simp [toU64_of_small _ (show (0:Int) ≤ runLen xs x.length i by omega) (by omega), Nat.add_mod]
  · simp only [Bool.true_and, Bool.false_eq_true, if_false, if_true]
    cases mult
    · -- left unique, ALL
      refine scan_congr _ _ bx_off by_off _ _ _ _ _ _ ?_ ?_ ?_ _ _ _ _ (le_refl _) (le_refl _)
      · intro i h1 h2
        exact ((hx.int_unique (hux hcx) i (by omega) (by omega)).2.2).symm
      · intro j h3 h4
        rfl
      · intro i j s h1 h2 h3 h4
        have fx := hx.int_facts i (by omega) (by omega)
        have fy := hy.int_facts j (by omega) (by omega)
        obtain ⟨ux1, ux2, _⟩ := hx.int_unique (hux hcx) i (by omega) (by omega)
        have ey := hyl hcy (by decide) j (by omega) (by omega)
        simp only [forRun_both, forRun_starts, clearIf_eq, uhit, ux1, ux2, ey]
        simp [fillRun_one, toU64_of_small _ (show (0:Int) ≤ runLen ys y.length j by omega) (by omega), Nat.add_mod]
    · -- left unique, FIRST
      refine scan_congr _ _ bx_off by_off _ _ _ _ _ _ ?_ ?_ ?_ _ _ _ _ (le_refl _) (le_refl _)
      · intro i h1 h2
        exact ((hx.int_unique (hux hcx) i (by omega) (by omega)).2.2).symm
      · intro j h3 h4
        rfl
      · intro i j s h1 h2 h3 h4
        have fx := hx.int_facts i (by omega) (by omega)
        have fy := hy.int_facts j (by omega) (by omega)
        obtain ⟨ux1, ux2, _⟩ := hx.int_unique (hux hcx) i (by omega) (by omega)
        simp only [forRun_both, forRun_starts, clearIf_eq, uhit, ux1, ux2]
        simp [fillRun_one, Nat.add_mod]
    · -- left unique, LAST
      refine scan_congr _ _ bx_off by_off _ _ _ _ _ _ ?_ ?_ ?_ _ _ _ _ (le_refl _) (le_refl _)
      · intro i h1 h2
        exact ((hx.int_unique (hux hcx) i (by omega) (by omega)).2.2).symm
      · intro j h3 h4
        rfl
      · intro i j s h1 h2 h3 h4
        have fx := hx.int_facts i (by omega) (by omega)
        have fy := hy.int_facts j (by omega) (by omega)
        obtain ⟨ux1, ux2, _⟩ := hx.int_unique (hux hcx) i (by omega) (by omega)
        have ey := hyl hcy (by decide) j (by omega) (by omega)
        simp only [forRun_both, forRun_starts, clearIf_eq, uhit, ux1, ux2, ey]
        simp [fillRun_one, Nat.add_mod]
        all_goals ring_nf
    · -- left unique, ERR
      refine scan_congr _ _ bx_off by_off _ _ _ _ _ _ ?_ ?_ ?_ _ _ _ _ (le_refl _) (le_refl _)
      · intro i h1 h2
        exact ((hx.int_unique (hux hcx) i (by omega) (by omega)).2.2).symm
      · intro j h3 h4
        rfl
      · intro i j s h1 h2 h3 h4
        have fx := hx.int_facts i (by omega) (by omega)
        have fy := hy.int_facts j (by omega) (by omega)
        obtain ⟨ux1, ux2, _⟩ := hx.int_unique (hux hcx) i (by omega) (by omega)
        have ey := hyl hcy (by decide) j (by omega) (by omega)
        simp only [forRun_both, forRun_starts, clearIf_eq, uhit, ux1, ux2, ey]
        simp [fillRun_one, toU64_of_small _ (show (0:Int) ≤ runLen ys y.length j by omega) (by omega), Nat.add_mod]
  · simp only [Bool.true_and, if_true]
    cases mult
    · -- both unique, ALL
      refine scan_congr _ _ bx_off by_off _ _ _ _ _ _ ?_ ?_ ?_ _ _ _ _ (le_refl _) (le_refl _)
      · intro i h1 h2
        exact ((hx.int_unique (hux hcx) i (by omega) (by omega)).2.2).symm
      · intro j h3 h4
        exact ((hy.int_unique (huy hcy) j (by omega) (by omega)).2.2).symm
      · intro i j s h1 h2 h3 h4
        have fx := hx.int_facts i (by omega) (by omega)
        have fy := hy.int_facts j (by omega) (by omega)
        obtain ⟨ux1, ux2, _⟩ := hx.int_unique (hux hcx) i (by omega) (by omega)
        obtain ⟨uy1, uy2, _⟩ := hy.int_unique (huy hcy) j (by omega) (by omega)
        simp only [forRun_both, forRun_starts, clearIf_eq, uhit, ux1, ux2, uy1, uy2]
        simp [fillRun_one, Nat.add_mod]
    · -- both unique, FIRST
      refine scan_congr _ _ bx_off by_off _ _ _ _ _ _ ?_ ?_ ?_ _ _ _ _ (le_refl _) (le_refl _)
      · intro i h1 h2
        exact ((hx.int_unique (hux hcx) i (by omega) (by omega)).2.2).symm
      · intro j h3 h4
        exact ((hy.int_unique (huy hcy) j (by omega) (by omega)).2.2).symm
      · intro i j s h1 h2 h3 h4
        have fx := hx.int_facts i (by omega) (by omega)
        have fy := hy.int_facts j (by omega) (by omega)
        obtain ⟨ux1, ux2, _⟩ := hx.int_unique (hux hcx) i (by omega) (by omega)
        obtain ⟨uy1, uy2, _⟩ := hy.int_unique (huy hcy) j (by omega) (by omega)
        simp only [forRun_both, forRun_starts, clearIf_eq, uhit, ux1, ux2, uy1, uy2]
        simp [fillRun_one, Nat.add_mod]
    · -- both unique, LAST
      refine scan_congr _ _ bx_off by_off _ _ _ _ _ _ ?_ ?_ ?_ _ _ _ _ (le_refl _) (le_refl _)
      · intro i h1 h2
        exact ((hx.int_unique (hux hcx) i (by omega) (by omega)).2.2).symm
      · intro j h3 h4
        exact ((hy.int_unique (huy hcy) j (by omega) (by omega)).2.2).symm
      · intro i j s h1 h2 h3 h4
        have fx := hx.int_facts i (by omega) (by omega)
        have fy := hy.int_facts j (by omega) (by omega)
        obtain ⟨ux1, ux2, _⟩ := hx.int_unique (hux hcx) i (by omega) (by omega)
        obtain ⟨uy1, uy2, _⟩ := hy.int_unique (huy hcy) j (by omega) (by omega)
        simp only [forRun_both, forRun_starts, clearIf_eq, uhit, ux1, ux2, uy1, uy2]
        simp [fillRun_one, Nat.add_mod]
    · -- both unique, ERR
      refine scan_congr _ _ bx_off by_off _ _ _ _ _ _ ?_ ?_ ?_ _ _ _ _ (le_refl _) (le_refl _)
      · intro i h1 h2
        exact ((hx.int_unique (hux hcx) i (by omega) (by omega)).2.2).symm
      · intro j h3 h4
        exact ((hy.int_unique (huy hcy) j (by omega) (by omega)).2.2).symm
      · intro i j s h1 h2 h3 h4
        have fx := hx.int_facts i (by omega) (by omega)
        have fy := hy.int_facts j (by omega) (by omega)
        obtain ⟨ux1, ux2, _⟩ := hx.int_unique (hux hcx) i (by omega) (by omega)
        obtain ⟨uy1, uy2, _⟩ := hy.int_unique (huy hcy) j (by omega) (by omega)
        simp only [forRun_both, forRun_starts, clearIf_eq, uhit, ux1, ux2, uy1, uy2]
        simp [fillRun_one, Nat.add_mod]

/-- On a valid input each of the eight scans of `smerge` is the one scan over
run keys with the uniform equality body. -/
theorem smerge_eq_uscan {x xs y ys : List Int} (hx : ValidIndex x xs) (hy : ValidIndex y ys)
    (bx_off bnx by_off bny : Int) (x_lens y_lens : List Int) (unq_x unq_y : Bool)
    (starts lens : List Int) (mult : emult)
    (hbx : 0 ≤ bx_off) (hbx' : bx_off + bnx ≤ xs.length)
    (hby : 0 ≤ by_off) (hby' : by_off + bny ≤ ys.length)
    (hux : unq_x = true ↔ (xs.length : Int) = x.length)
    (huy : unq_y = true ↔ (ys.length : Int) = y.length)
    (hxl : unq_x = false → ∀ i : Int, 0 ≤ i → i < xs.length → rd x_lens i = runLen xs x.length i)
    (hyl : unq_y = false → mult ≠ emult.FIRST →
      ∀ j : Int, 0 ≤ j → j < ys.length → rd y_lens j = runLen ys y.length j) :
    smerge bx_off bnx by_off bny x xs x_lens unq_x y ys y_lens unq_y starts lens mult
      = scan (bx_off + bnx) (by_off + bny) (keyAt x xs) (keyAt y ys)
          (uhit xs x.length ys y.length unq_y mult) (bnx.toNat + bny.toNat) bx_off by_off
          ⟨starts, lens, 0, true, true, true⟩ :=
  smerge_eq_uscan_of hx hy bx_off bnx by_off bny x_lens y_lens unq_x unq_y starts lens mult
    hbx hbx' hby hby' hux.mp huy.mp hxl hyl

/-! ## One batch as a fold over its left runs -/

theorem mem_runsFrom : ∀ (n : Nat) (lo a : Int), a ∈ runsFrom lo n ↔ lo ≤ a ∧ a < lo + n := by
  intro n
  induction n with
  | zero => intro lo a; simp [runsFrom]
  | succ n ih =>
    intro lo a
    simp only [runsFrom, List.mem_cons, ih]
    push_cast
    omega

theorem runsFrom_append : ∀ (n m : Nat) (lo : Int),
    runsFrom lo (n + m) = runsFrom lo n ++ runsFrom (lo + n) m := by
  intro n
  induction n with
  | zero => intro m lo; simp [runsFrom]
  | succ n ih =>
    intro m lo
    have e : n + 1 + m = (n + m) + 1 := by omega
    rw [e]
    simp only [runsFrom, List.cons_append, ih]
    push_cast
    rw [show lo + 1 + (n : Int) = lo + ((n : Int) + 1) by ring]

theorem foldl_congr_mem {α β : Type} (f g : α → β → α) :
    ∀ (l : List β) (s : α), (∀ a ∈ l, ∀ t, f t a = g t a) → l.foldl f s = l.foldl g s := by
  intro l
  induction l with
  | nil => intro s _; rfl
  | cons a l ih =>
    intro s h
    simp only [List.foldl_cons]
    rw [h a (List.mem_cons_self _ _), ih _ (fun b hb => h b (List.mem_cons_of_mem _ hb))]

theorem findRun_batch_eq {y ys : List Int} (hy : ValidIndex y ys) (k by_off bny : Int)
    (hby : 0 ≤ by_off) (hby' : by_off + bny ≤ ys.length)
    (hcov : ∀ j : Int, 0 ≤ j → j < ys.length → keyAt y ys j = k →
      by_off ≤ j ∧ j < by_off + bny) :
    findRun (keyAt y ys) k by_off bny.toNat = findRun (keyAt y ys) k 0 ys.length := by
  cases hf : findRun (keyAt y ys) k 0 ys.length with
  | none =>
    apply findRun_of_none
    intro j h1 h2
    exact findRun_none _ _ hf j (by omega) (by omega)
  | some j =>
    obtain ⟨h1, h2, h3⟩ := findRun_some _ _ _ hf
    have hc := hcov j h1 (by omega) h3
    apply findRun_of_some _ _ _ hc.1 (by omega) h3
    intro j' a b c
    by_contra hne
    rcases lt_or_gt_of_ne hne with h | h
    · have := hy.key_mono j' j (by omega) h (by omega); omega
    · have := hy.key_mono j j' (by omega) h (by omega); omega

/-- A batch of `smerge` whose right range covers its matches performs the join
steps of its left runs, in order. -/
theorem smerge_batch {x xs y ys : List Int} (hx : ValidIndex x xs) (hy : ValidIndex y ys)
    (bx_off bnx by_off bny : Int) (x_lens y_lens : List Int) (unq_x unq_y : Bool)
    (starts lens : List Int) (mult : emult)
    (hbx : 0 ≤ bx_off) (hbx' : bx_off + bnx ≤ xs.length)
    (hby : 0 ≤ by_off) (hby' : by_off + bny ≤ ys.length)
    (hcov : Covers x xs y ys bx_off bnx by_off bny)
    (hux : unq_x = true ↔ (xs.length : Int) = x.length)
    (huy : unq_y = true ↔ (ys.length : Int) = y.length)
    (hxl : unq_x = false → ∀ i : Int, 0 ≤ i → i < xs.length → rd x_lens i = runLen xs x.length i)
    (hyl : unq_y = false → mult ≠ emult.FIRST →
      ∀ j : Int, 0 ≤ j → j < ys.length → rd y_lens j = runLen ys y.length j) :
    smerge bx_off bnx by_off bny x xs x_lens unq_x y ys y_lens unq_y starts lens mult
      = (runsFrom bx_off bnx.toNat).foldl (joinStep x xs y ys unq_y mult)
          ⟨starts, lens, 0, true, true, true⟩ := by
  rw [smerge_eq_uscan hx hy bx_off bnx by_off bny x_lens y_lens unq_x unq_y starts lens mult
    hbx hbx' hby hby' hux huy hxl hyl]
  rw [scan_eq_foldl (bx_off + bnx) (by_off + bny) bx_off by_off (keyAt x xs) (keyAt y ys) _
    (fun a b h1 h2 h3 => hx.key_mono a b (by omega) h2 (by omega))
    (fun a b h1 h2 h3 => hy.key_mono a b (by omega) h2 (by omega))
    _ bx_off by_off _ (le_refl _) (le_refl _) (fun j' h1 h2 => by omega) (by omega)]
  have e1 : (bx_off + bnx - bx_off).toNat = bnx.toNat := by congr 1; omega
  have e2 : (by_off + bny - by_off).toNat = bny.toNat := by congr 1; omega
  rw [e1, e2]
  apply foldl_congr_mem
  intro a ha t
  rw [mem_runsFrom] at ha
  unfold joinStep stepRun
  rw [findRun_batch_eq hy (keyAt x xs a) by_off bny hby hby'
    (fun j h1 h2 h3 => hcov a j ha.1 (by omega) h1 h2 h3.symm)]

/-! ## Reduction over batches -/

theorem uhit_form (xs : List Int) (nx : Int) (ys : List Int) (ny : Int) (unq_y : Bool)
    (mult : emult) (is js : Int) :
    ∃ (A B : List Int → List Int) (d : Nat) (g1 g2 g3 : Bool), ∀ s : JoinState,
      uhit xs nx ys ny unq_y mult is js s
        = ⟨A s.starts, B s.lens, (s.cnt + d) % U64, s.xlen1 && g1, s.ylen1 && g2,
            s.xylen1 && g3⟩ := by
  cases mult
  · exact ⟨fun l => fillRun l (rd xs is - 1) (runLen xs nx is) (rd ys js),
      fun l => if unq_y then l else fillRun l (rd xs is - 1) (runLen xs nx is) (runLen ys ny js),
      (runLen xs nx is).toNat * (runLen ys ny js).toNat,
      !decide (runLen xs nx is > 1), !decide (runLen ys ny js > 1),
      !(decide (runLen xs nx is > 1) && decide (runLen ys ny js > 1)), fun s => rfl⟩
  · exact ⟨fun l => fillRun l (rd xs is - 1) (runLen xs nx is) (rd ys js), id,
      (runLen xs nx is).toNat, !decide (runLen xs nx is > 1), true, true,
      fun s => by simp [uhit]⟩
  · exact ⟨fun l => fillRun l (rd xs is - 1) (runLen xs nx is) (rd ys js + runLen ys ny js - 1),
      id, (runLen xs nx is).toNat, !decide (runLen xs nx is > 1), true, true,
      fun s => by simp [uhit]⟩
  · exact ⟨fun l => fillRun l (rd xs is - 1) (runLen xs nx is) (rd ys js),
      fun l => if unq_y then l else fillRun l (rd xs is - 1) (runLen xs nx is) (runLen ys ny js),
      (runLen xs nx is).toNat * (runLen ys ny js).toNat,
      !decide (runLen xs nx is > 1), !decide (runLen ys ny js > 1),
      !(decide (runLen xs nx is > 1) && decide (runLen ys ny js > 1)), fun s => rfl⟩

theorem foldl_joinStep_stats (x xs y ys : List Int) (unq_y : Bool) (mult : emult) :
    ∀ (l : List Int) (st ln : List Int) (c : Nat) (f1 f2 f3 : Bool), c < U64 →
      l.foldl (joinStep x xs y ys unq_y mult) ⟨st, ln, c, f1, f2, f3⟩
        = ⟨(l.foldl (joinStep x xs y ys unq_y mult) ⟨st, ln, 0, true, true, true⟩).starts,
           (l.foldl (joinStep x xs y ys unq_y mult) ⟨st, ln, 0, true, true, true⟩).lens,
           (c + (l.foldl (joinStep x xs y ys unq_y mult) ⟨st, ln, 0, true, true, true⟩).cnt) % U64,
           (l.foldl (joinStep x xs y ys unq_y mult) ⟨st, ln, 0, true, true, true⟩).xlen1 && f1,
           (l.foldl (joinStep x xs y ys unq_y mult) ⟨st, ln, 0, true, true, true⟩).ylen1 && f2,
           (l.foldl (joinStep x xs y ys unq_y mult) ⟨st, ln, 0, true, true, true⟩).xylen1 && f3⟩ := by
  intro l
  induction l with
  | nil =>
    intro st ln c f1 f2 f3 hc
    simp [Nat.mod_eq_of_lt hc]
  | cons a l ih =>
    intro st ln c f1 f2 f3 hc
    simp only [List.foldl_cons]
    cases hf : findRun (keyAt y ys) (keyAt x xs a) 0 ys.length with
    | none =>
      have hstep : ∀ s, joinStep x xs y ys unq_y mult s a = s := by
        intro s; simp [joinStep, stepRun, hf]
      rw [hstep, hstep]
      exact ih st ln c f1 f2 f3 hc
    | some j =>
      have hstep : ∀ s, joinStep x xs y ys unq_y mult s a
          = uhit xs x.length ys y.length unq_y mult a j s := by
        intro s; simp [joinStep, stepRun, hf]
      obtain ⟨A, B, d, g1, g2, g3, hform⟩ := uhit_form xs x.length ys y.length unq_y mult a j
      rw [hstep, hstep, hform, hform]
      have hU : 0 < U64 := by unfold U64; norm_num
      rw [ih (A st) (B ln) ((c + d) % U64) (f1 && g1) (f2 && g2) (f3 && g3)
        (Nat.mod_lt _ hU)]
      rw [ih (A st) (B ln) ((0 + d) % U64) (true && g1) (true && g2) (true && g3)
        (Nat.mod_lt _ hU)]
      simp only [JoinState.mk.injEq, true_and]
      refine ⟨?_, ?_, ?_, ?_⟩
      · generalize JoinState.cnt (List.foldl _ _ l) = R
        unfold U64
        omega
      · simp [Bool.and_assoc, Bool.and_comm]
      · simp [Bool.and_assoc, Bool.and_comm]
      · simp [Bool.and_assoc, Bool.and_comm]

/-! ## rollbs: what the bounds mean -/

/-- The binary-search loop of `rollbs` between cursors that bracket `val`:
either it returns a run with key `val`, or it returns the bound asked for. -/
theorem rollbsLoop_spec (x ix : List Int) (nix val side : Int)
    (hmono : ∀ a b : Int, 0 ≤ a → a ≤ b → b < nix → keyAt x ix a ≤ keyAt x ix b)
    (hfirst : keyAt x ix 0 < val) (hlast : val < keyAt x ix (nix - 1)) (hn : 1 ≤ nix) :
    ∀ (fuel : Nat) (lower upper : Int), 0 ≤ lower → upper ≤ nix →
      (∀ k, 0 ≤ k → k < lower → k < nix → keyAt x ix k < val) →
      (∀ k, upper < k → k < nix → val < keyAt x ix k) →
      (upper - lower + 1).toNat ≤ fuel →
      (0 ≤ rollbsLoop x ix val side fuel lower upper ∧
        rollbsLoop x ix val side fuel lower upper < nix) ∧
      (keyAt x ix (rollbsLoop x ix val side fuel lower upper) = val ∨
        (side < 0 ∧ val < keyAt x ix (rollbsLoop x ix val side fuel lower upper) ∧
          ∀ k, 0 ≤ k → k < rollbsLoop x ix val side fuel lower upper → keyAt x ix k < val) ∨
        (¬ side < 0 ∧ keyAt x ix (rollbsLoop x ix val side fuel lower upper) < val ∧
          ∀ k, rollbsLoop x ix val side fuel lower upper < k → k < nix →
            val < keyAt x ix k)) := by
  have hexit : ∀ lower upper : Int, 0 ≤ lower → upper ≤ nix → ¬ lower ≤ upper →
      (∀ k, 0 ≤ k → k < lower → k < nix → keyAt x ix k < val) →
      (∀ k, upper < k → k < nix → val < keyAt x ix k) →
      (0 ≤ (if side < 0 then lower else upper) ∧ (if side < 0 then lower else upper) < nix) ∧
      (keyAt x ix (if side < 0 then lower else upper) = val ∨
        (side < 0 ∧ val < keyAt x ix (if side < 0 then lower else upper) ∧
          ∀ k, 0 ≤ k → k < (if side < 0 then lower else upper) → keyAt x ix k < val) ∨
        (¬ side < 0 ∧ keyAt x ix (if side < 0 then lower else upper) < val ∧
          ∀ k, (if side < 0 then lower else upper) < k → k < nix → val < keyAt x ix k)) := by
    intro lower upper h0 h1 hlu hlo hup
    have hl : lower < nix := by
      by_contra hc
      have := hlo (nix - 1) (by omega) (by omega) (by omega)
      omega
    have hu : 0 ≤ upper := by
      by_contra hc
      have := hup 0 (by omega) (by omega)
      omega
    by_cases hs : side < 0
    · simp only [hs, if_true, true_and, not_true_eq_false, false_and, or_false]
      refine ⟨⟨h0, hl⟩, Or.inr ⟨hup lower (by omega) hl, ?_⟩⟩
      intro k hk0 hk1
      exact hlo k hk0 hk1 (by omega)
    · simp only [hs, if_false, false_and, not_false_eq_true, true_and, false_or]
      refine ⟨⟨hu, by omega⟩, Or.inr ⟨hlo upper hu (by omega) (by omega), ?_⟩⟩
      intro k hk0 hk1
      exact hup k hk0 hk1
  intro fuel
  induction fuel with
  | zero =>
    intro lower upper h0 h1 hlo hup hf
    simp only [rollbsLoop]
    exact hexit lower upper h0 h1 (by omega) hlo hup
  | succ fuel ih =>
    intro lower upper h0 h1 hlo hup hf
    unfold rollbsLoop
    by_cases hlu : lower ≤ upper
    · rw [if_pos hlu]
      have hdiv : Int.tdiv (upper - lower) 2 = (upper - lower) / 2 :=
        Int.tdiv_eq_ediv (by omega) (by omega)
      simp only [hdiv]
      have hl : lower < nix := by
        by_contra hc
        have := hlo (nix - 1) (by omega) (by omega) (by omega)
        omega
      have hi0 : lower ≤ lower + (upper - lower) / 2 := by omega
      have hi1 : lower + (upper - lower) / 2 ≤ upper := by omega
      have hi2 : lower + (upper - lower) / 2 < nix := by omega
      generalize lower + (upper - lower) / 2 = i at hi0 hi1 hi2
      have hkey : rd x (rd ix i - 1) = keyAt x ix i := rfl
      rw [hkey]
      by_cases heq : keyAt x ix i = val
      · rw [if_pos heq]
        exact ⟨⟨by omega, hi2⟩, Or.inl heq⟩
      · rw [if_neg heq]
        by_cases hlt : keyAt x ix i < val
        · rw [if_pos hlt]
          apply ih (i + 1) upper (by omega) h1 _ hup (by omega)
          intro k hk0 hk1 hk2
          have := hmono k i hk0 (by omega) hi2
          omega
        · rw [if_neg hlt]
          have hgt : keyAt x ix i > val := by omega
          rw [if_pos hgt]
          apply ih lower (i - 1) h0 (by omega) hlo _ (by omega)
          intro k hk0 hk1
          have := hmono i k (by omega) (by omega) hk1
          omega
    · rw [if_neg hlu]
      exact hexit lower upper h0 h1 hlu hlo hup

/-- The lower bound returned by `rollbs`: a run with key `val`, or `-1` when all
keys are below `val`, or the first run with a key above `val`. -/
theorem rollbs_lower (x ix : List Int) (nix val : Int) (hn : 1 ≤ nix)
    (hmono : ∀ a b : Int, 0 ≤ a → a ≤ b → b < nix → keyAt x ix a ≤ keyAt x ix b) :
    (0 ≤ rollbs x ix nix val (-1) ∧ rollbs x ix nix val (-1) < nix ∧
        keyAt x ix (rollbs x ix nix val (-1)) = val) ∨
      (rollbs x ix nix val (-1) = -1 ∧ keyAt x ix (nix - 1) < val) ∨
      (0 ≤ rollbs x ix nix val (-1) ∧ rollbs x ix nix val (-1) < nix ∧
        val < keyAt x ix (rollbs x ix nix val (-1)) ∧
        ∀ k, 0 ≤ k → k < rollbs x ix nix val (-1) → keyAt x ix k < val) := by
  unfold rollbs
  have hk0 : rd x (rd ix 0 - 1) = keyAt x ix 0 := rfl
  have hk1 : rd x (rd ix (nix - 1) - 1) = keyAt x ix (nix - 1) := rfl
  rw [hk0, hk1]
  by_cases h1 : keyAt x ix 0 = val
  · rw [if_pos h1]; exact Or.inl ⟨le_refl _, by omega, h1⟩
  rw [if_neg h1]
  by_cases h2 : keyAt x ix (nix - 1) = val
  · rw [if_pos h2]; exact Or.inl ⟨by omega, by omega, h2⟩
  rw [if_neg h2]
  by_cases h3 : keyAt x ix (nix - 1) < val
  · rw [if_pos ⟨by omega, h3⟩]; exact Or.inr (Or.inl ⟨rfl, h3⟩)
  rw [if_neg (fun h => h3 h.2)]
  by_cases h4 : keyAt x ix 0 > val
  · rw [if_pos ⟨by omega, h4⟩]
    exact Or.inr (Or.inr ⟨le_refl _, by omega, h4, fun k a b => by omega⟩)
  rw [if_neg (fun h => h4 h.2), if_neg (fun h => h.1 (by omega)),
    if_neg (fun h => h.1 (by omega))]
  have hs := rollbsLoop_spec x ix nix val (-1) hmono (by omega) (by omega) hn
    (nix.toNat + 2) 0 nix (le_refl _) (le_refl _) (fun k a b => by omega)
    (fun k a b => by omega) (by omega)
  obtain ⟨⟨a, b⟩, c⟩ := hs
  rcases c with c | c | c
  · exact Or.inl ⟨a, b, c⟩
  · exact Or.inr (Or.inr ⟨a, b, c.2.1, c.2.2⟩)
  · exact absurd (by omega : (-1 : Int) < 0) c.1

/-- The upper bound returned by `rollbs`: a run with key `val`, or `-1` when all
keys are above `val`, or the last run with a key below `val`. -/
theorem rollbs_upper (x ix : List Int) (nix val : Int) (hn : 1 ≤ nix)
    (hmono : ∀ a b : Int, 0 ≤ a → a ≤ b → b < nix → keyAt x ix a ≤ keyAt x ix b) :
    (0 ≤ rollbs x ix nix val 1 ∧ rollbs x ix nix val 1 < nix ∧
        keyAt x ix (rollbs x ix nix val 1) = val) ∨
      (rollbs x ix nix val 1 = -1 ∧ val < keyAt x ix 0) ∨
      (0 ≤ rollbs x ix nix val 1 ∧ rollbs x ix nix val 1 < nix ∧
        keyAt x ix (rollbs x ix nix val 1) < val ∧
        ∀ k, rollbs x ix nix val 1 < k → k < nix → val < keyAt x ix k) := by
  unfold rollbs
  have hk0 : rd x (rd ix 0 - 1) = keyAt x ix 0 := rfl
  have hk1 : rd x (rd ix (nix - 1) - 1) = keyAt x ix (nix - 1) := rfl
  rw [hk0, hk1]
  by_cases h1 : keyAt x ix 0 = val
  · rw [if_pos h1]; exact Or.inl ⟨le_refl _, by omega, h1⟩
  rw [if_neg h1]
  by_cases h2 : keyAt x ix (nix - 1) = val
  · rw [if_pos h2]; exact Or.inl ⟨by omega, by omega, h2⟩
  rw [if_neg h2, if_neg (fun h => absurd h.1 (by omega)),
    if_neg (fun h => absurd h.1 (by omega))]
  by_cases h3 : keyAt x ix 0 > val
  · rw [if_pos ⟨by omega, by omega, h3⟩]; exact Or.inr (Or.inl ⟨rfl, h3⟩)
  rw [if_neg (fun h => h3 h.2.2)]
  by_cases h4 : keyAt x ix (nix - 1) < val
  · rw [if_pos ⟨by omega, by omega, h4⟩]
    exact Or.inr (Or.inr ⟨by omega, by omega, h4, fun k a b => by omega⟩)
  rw [if_neg (fun h => h4 h.2.2)]
  have hs := rollbsLoop_spec x ix nix val 1 hmono (by omega) (by omega) hn
    (nix.toNat + 2) 0 nix (le_refl _) (le_refl _) (fun k a b => by omega)
    (fun k a b => by omega) (by omega)
  obtain ⟨⟨a, b⟩, c⟩ := hs
  rcases c with c | c | c
  · exact Or.inl ⟨a, b, c⟩
  · exact absurd c.1 (by omega)
  · exact Or.inr (Or.inr ⟨a, b, c.2.1, c.2.2⟩)

/-! ## batching: the right range of a batch covers its matches -/

theorem ValidIndex.key_mono_le {col gs : List Int} (h : ValidIndex col gs) (a b : Int)
    (h0 : 0 ≤ a) (hab : a ≤ b) (hb : b < gs.length) : keyAt col gs a ≤ keyAt col gs b := by
  rcases (by omega : a < b ∨ a = b) with h1 | h1
  · exact le_of_lt (h.key_mono a b h0 h1 hb)
  · subst h1; exact le_refl _

/-- The right range that `batching` derives with two `rollbs` calls from the
first and the last key of a range of left runs lies inside the right
index and covers every match of that range. -/
theorem yrange_good {x xs y ys : List Int} (hx : ValidIndex x xs) (hy : ValidIndex y ys)
    (off cnt : Int) (h0 : 0 ≤ off) (h2 : off + cnt ≤ xs.length)
    (lo hi : Int)
    (hlo : lo = rollbs y ys ys.length (rd x (rd xs off - 1)) (-1))
    (hhi : hi = rollbs y ys ys.length (rd x (rd xs (off + (cnt - 1)) - 1)) 1) :
    0 ≤ (if (decide (lo ≥ 0) && decide (hi ≥ 0)) = true then lo else 0) ∧
    (if (decide (lo ≥ 0) && decide (hi ≥ 0)) = true then lo else 0)
      + (if (decide (lo ≥ 0) && decide (hi ≥ 0)) = true then hi - lo + 1 else 0) ≤ ys.length ∧
    Covers x xs y ys off cnt (if (decide (lo ≥ 0) && decide (hi ≥ 0)) = true then lo else 0)
      (if (decide (lo ≥ 0) && decide (hi ≥ 0)) = true then hi - lo + 1 else 0) := by
  have hny : (1 : Int) ≤ ys.length := by have := hy.2.1; omega
  have hmono := fun a b h0 h1 h2 => hy.key_mono_le a b h0 h1 h2
  have hL := rollbs_lower y ys ys.length (keyAt x xs off) hny hmono
  have hU := rollbs_upper y ys ys.length (keyAt x xs (off + (cnt - 1))) hny hmono
  have e1 : rd x (rd xs off - 1) = keyAt x xs off := rfl
  have e2 : rd x (rd xs (off + (cnt - 1)) - 1) = keyAt x xs (off + (cnt - 1)) := rfl
  rw [e1] at hlo
  rw [e2] at hhi
  rw [← hlo] at hL
  rw [← hhi] at hU
  -- keys of the batch lie between its first and last key
  have hmin : ∀ i, off ≤ i → i < off + cnt → keyAt x xs off ≤ keyAt x xs i :=
    fun i a b => hx.key_mono_le off i h0 a (by omega)
  have hmax : ∀ i, off ≤ i → i < off + cnt → keyAt x xs i ≤ keyAt x xs (off + (cnt - 1)) :=
    fun i a b => hx.key_mono_le i _ (by omega) (by omega) (by omega)
  -- every matching right run is at or after lo, unless lo = -1 and there is none
  have hlow : ∀ i j : Int, off ≤ i → i < off + cnt → 0 ≤ j → j < ys.length →
      keyAt x xs i = keyAt y ys j → 0 ≤ lo ∧ lo ≤ j := by
    intro i j a b c d e
    have hm := hmin i a b
    rcases hL with ⟨p, q, r⟩ | ⟨p, q⟩ | ⟨p, q, r, t⟩
    · refine ⟨p, ?_⟩
      by_contra hc
      have := hy.key_mono j lo c (by omega) q
      omega
    · have := hy.key_mono_le j (ys.length - 1) c (by omega) (by omega)
      omega
    · refine ⟨p, ?_⟩
      by_contra hc
      have := t j c (by omega)
      omega
  have hupp : ∀ i j : Int, off ≤ i → i < off + cnt → 0 ≤ j → j < ys.length →
      keyAt x xs i = keyAt y ys j → 0 ≤ hi ∧ j ≤ hi := by
    intro i j a b c d e
    have hm := hmax i a b
    rcases hU with ⟨p, q, r⟩ | ⟨p, q⟩ | ⟨p, q, r, t⟩
    · refine ⟨p, ?_⟩
      by_contra hc
      have := hy.key_mono hi j p (by omega) d
      omega
    · have := hy.key_mono_le 0 j (le_refl _) c d
      omega
    · refine ⟨p, ?_⟩
      by_contra hc
      have := t j (by omega) d
      omega
  have hhi_lt : hi < ys.length := by
    rcases hU with ⟨_, q, _⟩ | ⟨p, _⟩ | ⟨_, q, _, _⟩ <;> omega
  by_cases hm : (decide (lo ≥ 0) && decide (hi ≥ 0)) = true
  · simp only [if_pos hm]
    simp only [Bool.and_eq_true, decide_eq_true_eq] at hm
    refine ⟨hm.1, by omega, ?_⟩
    intro i j a b c d e
    have := hlow i j a b c d e
    have := hupp i j a b c d e
    omega
  · simp only [if_neg hm]
    refine ⟨le_refl _, by omega, ?_⟩
    intro i j a b c d e
    have := hlow i j a b c d e
    have := hupp i j a b c d e
    simp only [Bool.and_eq_true, decide_eq_true_eq] at hm
    omega

/-! ## batching: the left ranges partition the left runs -/

theorem toU64_natCast (v : Nat) (h : v < 2 ^ 64) : toU64 (v : Int) = v := by
  unfold toU64 U64
  have : ((v : Int) % ((2 ^ 64 : Nat) : Int)) = (v : Int) := by
    apply Int.emod_eq_of_lt (by omega)
    exact_mod_cast h
  rw [this]; simp

theorem toInt32_small (v : Nat) (h : v < 2 ^ 31) : toInt32 v = (v : Int) := by
  unfold toInt32
  have : v % 2 ^ 32 = v := Nat.mod_eq_of_lt (by omega)
  rw [this, if_pos h]

theorem batchSize_eq (k n : Nat) (hn1 : 1 ≤ n) (hn : n < 2 ^ 31) :
    toU64 (Int.tdiv ((n : Int) - 1) ((k + 1 : Nat) : Int) + 1) = (n - 1) / (k + 1) + 1 := by
  have e1 : ((n : Int) - 1) = ((n - 1 : Nat) : Int) := by omega
  rw [e1, Int.tdiv_eq_ediv (by omega) (by omega)]
  have e2 : ((n - 1 : Nat) : Int) / ((k + 1 : Nat) : Int) + 1
      = (((n - 1) / (k + 1) + 1 : Nat) : Int) := by push_cast; rfl
  rw [e2]
  apply toU64_natCast
  have : (n - 1) / (k + 1) ≤ n - 1 := Nat.div_le_self _ _
  omega

theorem batching_eq (x xs y ys : List Int) (ny : Int) (k n : Nat) (hn : n < 2 ^ 31)
    (hP : k * ((n - 1) / (k + 1) + 1) < n) :
    batching ((k + 1 : Nat) : Int) x xs (n : Int) y ys ny
      = Except.ok ((List.range (k + 1)).map (fun (b : Nat) =>
          batchOf ((k + 1 : Nat) : Int) ((n - 1) / (k + 1) + 1)
            (n - k * ((n - 1) / (k + 1) + 1)) x xs n y ys ny (b : Int))) := by
  unfold batching
  have hn1 : 1 ≤ n := by omega
  simp only [batchSize_eq k n hn1 hn]
  have e1 : toU64 (((k + 1 : Nat) : Int) - 1) = k := by
    have : (((k + 1 : Nat) : Int) - 1) = (k : Int) := by push_cast; ring
    rw [this]; apply toU64_natCast
    have : 1 ≤ (n - 1) / (k + 1) + 1 := Nat.le_add_left 1 _
    have : k * 1 ≤ k * ((n - 1) / (k + 1) + 1) := Nat.mul_le_mul_left _ this
    omega
  have e2 : toU64 (n : Int) = n := toU64_natCast n (by omega)
  simp only [e1, e2]
  generalize k * ((n - 1) / (k + 1) + 1) = P at hP
  have e3 : (n + U64 - P % U64) % U64 = n - P := by unfold U64; omega
  rw [e3]
  have e4 : ¬ (n - P = 0 ∨ (P % U64 + (n - P)) % U64 ≠ n) := by unfold U64; omega
  rw [if_neg e4]
  simp

theorem batchOf_good {x xs y ys : List Int} (hx : ValidIndex x xs) (hy : ValidIndex y ys)
    (k : Nat) (hP : k * ((xs.length - 1) / (k + 1) + 1) < xs.length) (b : Nat) (hb : b ≤ k) :
    GoodBatch x xs y ys (batchOf ((k + 1 : Nat) : Int) ((xs.length - 1) / (k + 1) + 1)
      (xs.length - k * ((xs.length - 1) / (k + 1) + 1)) x xs xs.length y ys ys.length (b : Int)) ∧
    (batchOf ((k + 1 : Nat) : Int) ((xs.length - 1) / (k + 1) + 1)
      (xs.length - k * ((xs.length - 1) / (k + 1) + 1)) x xs xs.length y ys ys.length
      (b : Int)).x_off = ((b * ((xs.length - 1) / (k + 1) + 1) : Nat) : Int) ∧
    (batchOf ((k + 1 : Nat) : Int) ((xs.length - 1) / (k + 1) + 1)
      (xs.length - k * ((xs.length - 1) / (k + 1) + 1)) x xs xs.length y ys ys.length
      (b : Int)).nx = ((if b < k then (xs.length - 1) / (k + 1) + 1
        else xs.length - k * ((xs.length - 1) / (k + 1) + 1) : Nat) : Int) := by
  have hsz : xs.length < 2 ^ 31 := by
    have h1 := hx.start_le 0 hx.2.1
    have h2 := hx.2.2.1
    have h3 := hx.1
    simp only [Nat.cast_zero] at h1
    omega
  have hbs1 : 1 ≤ (xs.length - 1) / (k + 1) + 1 := Nat.le_add_left 1 _
  generalize (xs.length - 1) / (k + 1) + 1 = bs at hP hbs1
  have hbk : b * bs ≤ k * bs := Nat.mul_le_mul_right _ hb
  have hkk : k * 1 ≤ k * bs := Nat.mul_le_mul_left _ hbs1
  have hoff : (if (b : Int) < ((k + 1 : Nat) : Int) - 1 then toInt32 ((toU64 (b : Int) * bs) % U64)
      else toInt32 ((toU64 (xs.length : Int) + U64 - (xs.length - k * bs)) % U64))
      = ((b * bs : Nat) : Int) := by
    by_cases hc : b < k
    · have hc' : (b : Int) < ((k + 1 : Nat) : Int) - 1 := by push_cast; omega
      have hbb : 1 * bs ≤ k * bs := Nat.mul_le_mul_right _ (by omega)
      rw [if_pos hc', toU64_natCast b (by omega)]
      have : (b * bs) % U64 = b * bs := Nat.mod_eq_of_lt (by unfold U64; omega)
      rw [this, toInt32_small _ (by omega)]
    · have hc' : ¬ (b : Int) < ((k + 1 : Nat) : Int) - 1 := by push_cast; omega
      have hbk' : b = k := by omega
      subst hbk'
      rw [if_neg hc', toU64_natCast _ (by omega)]
      have : (xs.length + U64 - (xs.length - b * bs)) % U64 = b * bs := by unfold U64; omega
      rw [this, toInt32_small _ (by omega)]
  have hcnt : (if (b : Int) < ((k + 1 : Nat) : Int) - 1 then toInt32 bs
      else toInt32 (xs.length - k * bs))
      = ((if b < k then bs else xs.length - k * bs : Nat) : Int) := by
    by_cases hc : b < k
    · have hc' : (b : Int) < ((k + 1 : Nat) : Int) - 1 := by push_cast; omega
      have hbb : 1 * bs ≤ k * bs := Nat.mul_le_mul_right _ (by omega)
      rw [if_pos hc', if_pos hc, toInt32_small _ (by omega)]
    · have hc' : ¬ (b : Int) < ((k + 1 : Nat) : Int) - 1 := by push_cast; omega
      rw [if_neg hc', if_neg hc, toInt32_small _ (by omega)]
  refine ⟨?_, hoff, hcnt⟩
  unfold batchOf GoodBatch
  simp only [hoff, hcnt]
  have hin : ((b * bs : Nat) : Int) + ((if b < k then bs else xs.length - k * bs : Nat) : Int)
      ≤ xs.length := by
    by_cases hc : b < k
    · have : (b + 1) * bs ≤ k * bs := Nat.mul_le_mul_right _ (by omega)
      rw [if_pos hc]
      have e : (b + 1) * bs = b * bs + bs := by ring
      omega
    · have hbk' : b = k := by omega
      subst hbk'
      rw [if_neg hc]
      omega
  obtain ⟨g1, g2, g3⟩ := yrange_good hx hy _ _ (by omega) hin _ _ rfl rfl
  exact ⟨by omega, hin, g1, g2, g3⟩

theorem allRuns_append (l1 l2 : List Batch) : allRuns (l1 ++ l2) = allRuns l1 ++ allRuns l2 := by
  induction l1 with
  | nil => rfl
  | cons b l ih => simp [allRuns, ih]

theorem allRuns_partition (f : Nat → Batch) (k n bs : Nat) (hP : k * bs < n)
    (hoff : ∀ b, b ≤ k → (f b).x_off = ((b * bs : Nat) : Int))
    (hnx : ∀ b, b ≤ k → (f b).nx = ((if b < k then bs else n - k * bs : Nat) : Int)) :
    allRuns ((List.range (k + 1)).map f) = runsFrom 0 n := by
  have hpre : ∀ t, t ≤ k → allRuns ((List.range t).map f) = runsFrom 0 (t * bs) := by
    intro t
    induction t with
    | zero => intro _; simp [allRuns, runsFrom]
    | succ t ih =>
      intro ht
      rw [List.range_succ, List.map_append, allRuns_append, ih (by omega)]
      simp only [List.map_cons, List.map_nil, allRuns, List.append_nil]
      rw [hoff t (by omega), hnx t (by omega), if_pos (by omega : t < k)]
      have e : (t + 1) * bs = t * bs + bs := by ring
      rw [e, runsFrom_append]
      simp
  rw [List.range_succ, List.map_append, allRuns_append, hpre k (le_refl _)]
  simp only [List.map_cons, List.map_nil, allRuns, List.append_nil]
  rw [hoff k (le_refl _), hnx k (le_refl _), if_neg (by omega : ¬ k < k)]
  have e : n = k * bs + (n - k * bs) := by omega
  conv_rhs => rw [e]
  rw [runsFrom_append]
  simp

/-- The reduction loop of `smergeC` over good batches performs the join steps of
all their left runs on the accumulated state. -/
theorem runBatches_eq {x xs y ys : List Int} (hx : ValidIndex x xs) (hy : ValidIndex y ys)
    (x_lens y_lens : List Int) (unq_x unq_y : Bool) (mult : emult)
    (hux : unq_x = true ↔ (xs.length : Int) = x.length)
    (huy : unq_y = true ↔ (ys.length : Int) = y.length)
    (hxl : unq_x = false → ∀ i : Int, 0 ≤ i → i < xs.length → rd x_lens i = runLen xs x.length i)
    (hyl : unq_y = false → mult ≠ emult.FIRST →
      ∀ j : Int, 0 ≤ j → j < ys.length → rd y_lens j = runLen ys y.length j) :
    ∀ (bs : List Batch) (acc : JoinState), (∀ b ∈ bs, GoodBatch x xs y ys b) → acc.cnt < U64 →
      runBatches x xs x_lens unq_x y ys y_lens unq_y mult bs acc
        = (allRuns bs).foldl (joinStep x xs y ys unq_y mult) acc := by
  intro bs
  induction bs with
  | nil => intro acc _ _; rfl
  | cons b bs ih =>
    intro acc hg hc
    obtain ⟨g1, g2, g3, g4, g5⟩ := hg b (List.mem_cons_self _ _)
    simp only [runBatches, allRuns, List.foldl_append]
    rw [smerge_batch hx hy b.x_off b.nx b.y_off b.ny x_lens y_lens unq_x unq_y acc.starts
      acc.lens mult g1 g2 g3 g4 g5 hux huy hxl hyl]
    have hU : 0 < U64 := by unfold U64; norm_num
    rw [ih _ (fun b' hb' => hg b' (List.mem_cons_of_mem _ hb')) (Nat.mod_lt _ hU)]
    congr 1
    have := foldl_joinStep_stats x xs y ys unq_y mult (runsFrom b.x_off b.nx.toNat)
      acc.starts acc.lens acc.cnt acc.xlen1 acc.ylen1 acc.xylen1 hc
    exact this.symm

/-- On a valid input and with a batch count that `batching` can serve, the
batch-wise join of `smergeC` is the one pass `joinSpec` over all left runs,
followed by the duplicate check of `mult == ERR`. -/
theorem smergeCWith_eq {x xs y ys : List Int} (hx : ValidIndex x xs) (hy : ValidIndex y ys)
    (K : Int) (hK : BatchCountOK K xs.length) (starts lens : List Int) (mult : emult) :
    smergeCWith K x x.length xs xs.length y y.length ys ys.length starts lens mult
      = if mult = emult.ERR ∧
          (joinSpec x xs y ys (decide ((ys.length : Int) = y.length)) mult starts lens).ylen1 = false
        then Except.error SmergeError.duplicateMatch
        else Except.ok (joinSpec x xs y ys (decide ((ys.length : Int) = y.length)) mult starts lens) := by
  obtain ⟨hK1, hK2⟩ := hK
  have hn1 : 1 ≤ xs.length := hx.2.1
  have hsz : xs.length < 2 ^ 31 := by
    have h1 := hx.start_le 0 hx.2.1
    have h2 := hx.2.2.1
    have h3 := hx.1
    simp only [Nat.cast_zero] at h1
    omega
  obtain ⟨k, rfl⟩ : ∃ k : Nat, K = ((k + 1 : Nat) : Int) := ⟨(K - 1).toNat, by omega⟩
  have hP : k * ((xs.length - 1) / (k + 1) + 1) < xs.length := by
    have e1 : (((k + 1 : Nat) : Int) - 1) = (k : Int) := by push_cast; ring
    have e2 : ((xs.length : Int) - 1) = ((xs.length - 1 : Nat) : Int) := by omega
    rw [e1, e2] at hK2
    exact_mod_cast hK2
  unfold smergeCWith
  simp only [batching_eq x xs y ys ys.length k xs.length hsz hP]
  rw [runBatches_eq hx hy _ _ _ _ mult (by simp) (by simp) ?_ ?_ _ _ ?_ (by unfold U64; norm_num)]
  · rw [allRuns_partition _ k xs.length _ hP
      (fun b hb => (batchOf_good hx hy k hP b hb).2.1)
      (fun b hb => (batchOf_good hx hy k hP b hb).2.2)]
    rfl
  · intro hu i h0 h1
    obtain ⟨i', rfl⟩ := Int.eq_ofNat_of_zero_le h0
    simp only [hu, Bool.not_false, if_true]
    exact rd_grpLens _ i' (by exact_mod_cast h1)
  · intro hu hm j h0 h1
    obtain ⟨j', rfl⟩ := Int.eq_ofNat_of_zero_le h0
    have : (decide ((ys.length : Int) = y.length) || decide (mult = emult.FIRST)) = false := by
      rw [hu]; simp [hm]
    simp only [this, Bool.not_false, if_true]
    exact rd_grpLens _ j' (by exact_mod_cast h1)
  · intro b hb
    rw [List.mem_map] at hb
    obtain ⟨b', hb', rfl⟩ := hb
    rw [List.mem_range] at hb'
    exact (batchOf_good hx hy k hP b' (by omega)).1

/-! ## The one-pass join, row by row -/

theorem length_fillRun (a : List Int) (i0 xl v : Int) : (fillRun a i0 xl v).length = a.length := by
  unfold fillRun
  exact length_foldl_wr (fun _ => v) (fun ii => i0 + (ii : Int)) _ a

theorem rd_fillRun_out (a : List Int) (i0 xl v r : Int) (h : ¬ (i0 ≤ r ∧ r < i0 + xl)) :
    rd (fillRun a i0 xl v) r = rd a r := by
  unfold fillRun
  have key : ∀ (t : Nat) (l : List Int), t ≤ xl.toNat →
      rd ((List.range t).foldl (fun (l : List Int) (ii : Nat) => wr l (i0 + (ii : Int)) v) l) r
        = rd l r := by
    intro t
    induction t with
    | zero => intro l _; rfl
    | succ t ih =>
      intro l ht
      rw [List.range_succ, List.foldl_append]
      simp only [List.foldl_cons, List.foldl_nil]
      rw [rd_wr_ne _ _ _ _ (by omega)]
      exact ih l (by omega)
  exact key _ a (le_refl _)

theorem rd_fillRun_in (a : List Int) (i0 xl v r : Int) (h0 : 0 ≤ i0) (h1 : i0 ≤ r)
    (h2 : r < i0 + xl) (h3 : r < a.length) : rd (fillRun a i0 xl v) r = v := by
  unfold fillRun
  have key : ∀ (t : Nat) (l : List Int), r < l.length → r < i0 + t →
      rd ((List.range t).foldl (fun (l : List Int) (ii : Nat) => wr l (i0 + (ii : Int)) v) l) r
        = v := by
    intro t
    induction t with
    | zero => intro l _ h; simp at h; omega
    | succ t ih =>
      intro l hl ht
      rw [List.range_succ, List.foldl_append]
      simp only [List.foldl_cons, List.foldl_nil]
      by_cases hr : r = i0 + t
      · subst hr
        apply rd_wr_same _ _ _ (by omega)
        rw [length_foldl_wr (fun _ => v) (fun ii => i0 + (ii : Int))]
        exact hl
      · rw [rd_wr_ne _ _ _ _ (fun h => hr h.symm)]
        exact ih l hl (by push_cast at ht; omega)
  exact key _ a h3 (by omega)

theorem uhit_starts (xs : List Int) (nx : Int) (ys : List Int) (ny : Int) (unq_y : Bool)
    (mult : emult) (is js : Int) (s : JoinState) :
    (uhit xs nx ys ny unq_y mult is js s).starts
      = fillRun s.starts (rd xs is - 1) (runLen xs nx is) (startOf ys ny mult js) := by
  cases mult <;> rfl

theorem uhit_lens (xs : List Int) (nx : Int) (ys : List Int) (ny : Int) (unq_y : Bool)
    (mult : emult) (is js : Int) (s : JoinState) :
    (uhit xs nx ys ny unq_y mult is js s).lens
      = if writesLens unq_y mult then
          fillRun s.lens (rd xs is - 1) (runLen xs nx is) (runLen ys ny js)
        else s.lens := by
  cases mult <;> cases unq_y <;> rfl

theorem joinStep_none {x xs y ys : List Int} {unq_y : Bool} {mult : emult} {is : Int}
    (h : findRun (keyAt y ys) (keyAt x xs is) 0 ys.length = none) (s : JoinState) :
    joinStep x xs y ys unq_y mult s is = s := by
  simp [joinStep, stepRun, h]

theorem joinStep_some {x xs y ys : List Int} {unq_y : Bool} {mult : emult} {is js : Int}
    (h : findRun (keyAt y ys) (keyAt x xs is) 0 ys.length = some js) (s : JoinState) :
    joinStep x xs y ys unq_y mult s is = uhit xs x.length ys y.length unq_y mult is js s := by
  simp [joinStep, stepRun, h]

theorem joinStep_length (x xs y ys : List Int) (unq_y : Bool) (mult : emult) (s : JoinState)
    (is : Int) :
    (joinStep x xs y ys unq_y mult s is).starts.length = s.starts.length ∧
      (joinStep x xs y ys unq_y mult s is).lens.length = s.lens.length := by
  cases h : findRun (keyAt y ys) (keyAt x xs is) 0 ys.length with
  | none => rw [joinStep_none h]; exact ⟨rfl, rfl⟩
  | some js =>
    rw [joinStep_some h, uhit_starts, uhit_lens]
    refine ⟨length_fillRun _ _ _ _, ?_⟩
    split
    · exact length_fillRun _ _ _ _
    · rfl

theorem foldl_joinStep_length (x xs y ys : List Int) (unq_y : Bool) (mult : emult) :
    ∀ (l : List Int) (s : JoinState),
      (l.foldl (joinStep x xs y ys unq_y mult) s).starts.length = s.starts.length ∧
      (l.foldl (joinStep x xs y ys unq_y mult) s).lens.length = s.lens.length := by
  intro l
  induction l with
  | nil => intro s; exact ⟨rfl, rfl⟩
  | cons a l ih =>
    intro s
    simp only [List.foldl_cons]
    have h1 := ih (joinStep x xs y ys unq_y mult s a)
    have h2 := joinStep_length x xs y ys unq_y mult s a
    exact ⟨h1.1.trans h2.1, h1.2.trans h2.2⟩

theorem joinStep_frame (x xs y ys : List Int) (unq_y : Bool) (mult : emult) (s : JoinState)
    (is r : Int) (h : ¬ InRun xs x.length is r) :
    rd (joinStep x xs y ys unq_y mult s is).starts r = rd s.starts r ∧
      rd (joinStep x xs y ys unq_y mult s is).lens r = rd s.lens r := by
  cases hf : findRun (keyAt y ys) (keyAt x xs is) 0 ys.length with
  | none => rw [joinStep_none hf]; exact ⟨rfl, rfl⟩
  | some js =>
    rw [joinStep_some hf, uhit_starts, uhit_lens]
    refine ⟨rd_fillRun_out _ _ _ _ _ h, ?_⟩
    split
    · exact rd_fillRun_out _ _ _ _ _ h
    · rfl

theorem foldl_joinStep_frame (x xs y ys : List Int) (unq_y : Bool) (mult : emult) (r : Int) :
    ∀ (l : List Int) (s : JoinState), (∀ a ∈ l, ¬ InRun xs x.length a r) →
      rd (l.foldl (joinStep x xs y ys unq_y mult) s).starts r = rd s.starts r ∧
      rd (l.foldl (joinStep x xs y ys unq_y mult) s).lens r = rd s.lens r := by
  intro l
  induction l with
  | nil => intro s _; exact ⟨rfl, rfl⟩
  | cons a l ih =>
    intro s h
    simp only [List.foldl_cons]
    have h1 := ih (joinStep x xs y ys unq_y mult s a) (fun b hb => h b (List.mem_cons_of_mem _ hb))
    have h2 := joinStep_frame x xs y ys unq_y mult s a r (h a (List.mem_cons_self _ _))
    exact ⟨h1.1.trans h2.1, h1.2.trans h2.2⟩

theorem ValidIndex.run_end_le_start {col gs : List Int} (h : ValidIndex col gs) (a b : Nat)
    (hab : a < b) (hb : b < gs.length) :
    rd gs a - 1 + runLen gs col.length a ≤ rd gs b - 1 := by
  rw [h.run_end_next a (by omega)]
  rcases (by omega : a + 1 = b ∨ a + 1 < b) with e | e
  · subst e; push_cast; omega
  · have := h.start_lt (a + 1) b e hb
    push_cast at this
    omega

theorem ValidIndex.run_disjoint {col gs : List Int} (h : ValidIndex col gs) (a b : Int)
    (ha : 0 ≤ a) (ha' : a < gs.length) (hb : 0 ≤ b) (hb' : b < gs.length) (hab : a ≠ b) (r : Int)
    (hra : InRun gs col.length a r) : ¬ InRun gs col.length b r := by
  obtain ⟨a', rfl⟩ := Int.eq_ofNat_of_zero_le ha
  obtain ⟨b', rfl⟩ := Int.eq_ofNat_of_zero_le hb
  have ha2 : a' < gs.length := by exact_mod_cast ha'
  have hb2 : b' < gs.length := by exact_mod_cast hb'
  intro hrb
  unfold InRun at hra hrb
  rcases (by omega : a' < b' ∨ b' < a') with e | e
  · have := h.run_end_le_start a' b' e hb2; omega
  · have := h.run_end_le_start b' a' e ha2; omega

/-- Every row of a valid column lies in one of its runs. -/
theorem ValidIndex.exists_run {col gs : List Int} (h : ValidIndex col gs) (r : Nat)
    (hr : r < col.length) : ∃ k : Nat, k < gs.length ∧ InRun gs col.length k r := by
  have key : ∀ (d t : Nat), t + d + 1 = gs.length → rd gs t - 1 ≤ (r : Int) →
      ∃ k : Nat, k < gs.length ∧ InRun gs col.length k r := by
    intro d
    induction d with
    | zero =>
      intro t ht hle
      refine ⟨t, by omega, hle, ?_⟩
      rw [h.run_end_last t (by omega)]
      exact_mod_cast hr
    | succ d ih =>
      intro t ht hle
      by_cases hc : rd gs ((t : Int) + 1) - 1 ≤ (r : Int)
      · exact ih (t + 1) (by omega) (by push_cast; exact hc)
      · refine ⟨t, by omega, hle, ?_⟩
        rw [h.run_end_next t (by omega)]
        omega
  have h0 := h.2.2.1
  exact key (gs.length - 1) 0 (by have := h.2.1; omega) (by simp only [Nat.cast_zero]; omega)

/-- The key of a row is the key of its run. -/
theorem ValidIndex.key_of_row {col gs : List Int} (h : ValidIndex col gs) (k r : Nat)
    (hk : k < gs.length) (hr : InRun gs col.length k r) : rd col r = keyAt col gs k := by
  have h1 := h.run_end_le k hk
  unfold InRun at hr
  exact h.2.2.2.2.2.1 k hk r (by omega) hr.1 hr.2

theorem runsFrom_split (m is : Nat) (h : is < m) :
    runsFrom 0 m = runsFrom 0 is ++ (is : Int) :: runsFrom ((is : Int) + 1) (m - is - 1) := by
  have e : m = is + ((m - is - 1) + 1) := by omega
  conv_lhs => rw [e]
  rw [runsFrom_append]
  simp [runsFrom]

/-- Rows of a left run without a match keep their `starts` and `lens` entries. -/
theorem joinSpec_row_none {x xs y ys : List Int} (hx : ValidIndex x xs) (unq_y : Bool)
    (mult : emult) (starts lens : List Int) (is : Nat) (his : is < xs.length) (r : Int)
    (hr : InRun xs x.length is r)
    (hf : findRun (keyAt y ys) (keyAt x xs is) 0 ys.length = none) :
    rd (joinSpec x xs y ys unq_y mult starts lens).starts r = rd starts r ∧
      rd (joinSpec x xs y ys unq_y mult starts lens).lens r = rd lens r := by
  unfold joinSpec
  rw [runsFrom_split xs.length is his, List.foldl_append, List.foldl_cons, joinStep_none hf]
  have h2 := foldl_joinStep_frame x xs y ys unq_y mult r (runsFrom ((is : Int) + 1) (xs.length - is - 1))
    ((runsFrom 0 is).foldl (joinStep x xs y ys unq_y mult) ⟨starts, lens, 0, true, true, true⟩)
    (fun a ha => by
      rw [mem_runsFrom] at ha
      exact hx.run_disjoint is a (by omega) (by omega) (by omega) (by omega) (by omega) r hr)
  have h1 := foldl_joinStep_frame x xs y ys unq_y mult r (runsFrom 0 is)
    ⟨starts, lens, 0, true, true, true⟩
    (fun a ha => by
      rw [mem_runsFrom] at ha
      exact hx.run_disjoint is a (by omega) (by omega) (by omega) (by omega) (by omega) r hr)
  exact ⟨h2.1.trans h1.1, h2.2.trans h1.2⟩

/-- Rows of a left run with a match carry what the policy writes for the
matching right run. -/
theorem joinSpec_row_some {x xs y ys : List Int} (hx : ValidIndex x xs) (unq_y : Bool)
    (mult : emult) (starts lens : List Int) (hs : starts.length = x.length)
    (is : Nat) (his : is < xs.length) (r : Int)
    (hr : InRun xs x.length is r) (js : Int)
    (hf : findRun (keyAt y ys) (keyAt x xs is) 0 ys.length = some js) :
    rd (joinSpec x xs y ys unq_y mult starts lens).starts r = startOf ys y.length mult js ∧
      (writesLens unq_y mult = false →
        rd (joinSpec x xs y ys unq_y mult starts lens).lens r = rd lens r) ∧
      (writesLens unq_y mult = true → lens.length = x.length →
        rd (joinSpec x xs y ys unq_y mult starts lens).lens r = runLen ys y.length js) := by
  unfold joinSpec
  rw [runsFrom_split xs.length is his, List.foldl_append, List.foldl_cons, joinStep_some hf]
  have h2 := foldl_joinStep_frame x xs y ys unq_y mult r (runsFrom ((is : Int) + 1) (xs.length - is - 1))
    (uhit xs x.length ys y.length unq_y mult is js
      ((runsFrom 0 is).foldl (joinStep x xs y ys unq_y mult) ⟨starts, lens, 0, true, true, true⟩))
    (fun a ha => by
      rw [mem_runsFrom] at ha
      exact hx.run_disjoint is a (by omega) (by omega) (by omega) (by omega) (by omega) r hr)
  have h1 := foldl_joinStep_frame x xs y ys unq_y mult r (runsFrom 0 is)
    ⟨starts, lens, 0, true, true, true⟩
    (fun a ha => by
      rw [mem_runsFrom] at ha
      exact hx.run_disjoint is a (by omega) (by omega) (by omega) (by omega) (by omega) r hr)
  have hlen := foldl_joinStep_length x xs y ys unq_y mult (runsFrom 0 is)
    ⟨starts, lens, 0, true, true, true⟩
  have hge := hx.start_ge is his
  have hend := hx.run_end_le is his
  unfold InRun at hr
  rw [h2.1, h2.2, uhit_starts, uhit_lens]
  refine ⟨?_, ?_, ?_⟩
  · apply rd_fillRun_in _ _ _ _ _ (by omega) hr.1 hr.2
    rw [hlen.1]; simp only [hs]; omega
  · intro hw
    rw [hw]; simp only [Bool.false_eq_true, if_false]
    exact h1.2
  · intro hw hl
    rw [hw]; simp only [if_true]
    apply rd_fillRun_in _ _ _ _ _ (by omega) hr.1 hr.2
    rw [hlen.2]; simp only [hl]; omega

/-! ## The one-pass join: singleton flags -/

theorem findRun_iff {y ys : List Int} (hy : ValidIndex y ys) (k : Int) (js : Nat)
    (hjs : js < ys.length) :
    findRun (keyAt y ys) k 0 ys.length = some (js : Int) ↔ keyAt y ys js = k := by
  constructor
  · intro h; exact (findRun_some _ _ _ h).2.2
  · intro h
    apply findRun_of_some _ _ _ (by omega) (by omega) h
    intro j' a b c
    by_contra hne
    rcases lt_or_gt_of_ne hne with e | e
    · have := hy.key_mono j' js a e (by omega); omega
    · have := hy.key_mono js j' (by omega) e (by omega); omega

theorem findRun_nat {y ys : List Int} {k js : Int}
    (h : findRun (keyAt y ys) k 0 ys.length = some js) :
    ∃ j : Nat, js = (j : Int) ∧ j < ys.length ∧ keyAt y ys j = k := by
  obtain ⟨a, b, c⟩ := findRun_some _ _ _ h
  obtain ⟨j, rfl⟩ := Int.eq_ofNat_of_zero_le a
  exact ⟨j, rfl, by omega, c⟩

theorem foldl_iff {α β : Type} (f : α → β → α) (P : α → Prop) (Q : β → Prop)
    (hstep : ∀ s a, P (f s a) ↔ P s ∧ Q a) :
    ∀ (l : List β) (s : α), P (l.foldl f s) ↔ P s ∧ ∀ a ∈ l, Q a := by
  intro l
  induction l with
  | nil => intro s; simp
  | cons a l ih =>
    intro s
    simp only [List.foldl_cons, ih, hstep, List.mem_cons, forall_eq_or_imp]
    tauto

theorem uhit_flags (xs : List Int) (nx : Int) (ys : List Int) (ny : Int) (unq_y : Bool)
    (mult : emult) (is js : Int) (s : JoinState) :
    ((uhit xs nx ys ny unq_y mult is js s).xlen1 = true ↔
      s.xlen1 = true ∧ runLen xs nx is ≤ 1) ∧
    ((uhit xs nx ys ny unq_y mult is js s).ylen1 = true ↔
      s.ylen1 = true ∧ (mult = emult.ALL ∨ mult = emult.ERR → runLen ys ny js ≤ 1)) ∧
    ((uhit xs nx ys ny unq_y mult is js s).xylen1 = true ↔
      s.xylen1 = true ∧ (mult = emult.ALL ∨ mult = emult.ERR →
        ¬ (runLen xs nx is > 1 ∧ runLen ys ny js > 1))) := by
  cases mult <;> simp [uhit] <;> intro _ <;> omega

/-- The three flags of the one-pass join. -/
theorem joinSpec_flags {x xs y ys : List Int} (hy : ValidIndex y ys) (unq_y : Bool)
    (mult : emult) (starts lens : List Int) :
    ((joinSpec x xs y ys unq_y mult starts lens).xlen1 = true ↔ NoMatchedLeftDup x xs y ys) ∧
    ((joinSpec x xs y ys unq_y mult starts lens).ylen1 = true ↔
      (mult = emult.ALL ∨ mult = emult.ERR → NoMatchedRightDup x xs y ys)) ∧
    ((joinSpec x xs y ys unq_y mult starts lens).xylen1 = true ↔
      (mult = emult.ALL ∨ mult = emult.ERR → NoMatchedCrossDup x xs y ys)) := by
  have hmem : ∀ (Q : Int → Int → Prop),
      (∀ a ∈ runsFrom 0 xs.length, ∀ js,
        findRun (keyAt y ys) (keyAt x xs a) 0 ys.length = some js → Q a js) ↔
      (∀ is : Nat, is < xs.length → ∀ js : Nat, js < ys.length →
        keyAt x xs is = keyAt y ys js → Q is js) := by
    intro Q
    constructor
    · intro h is his js hjs hk
      exact h is ((mem_runsFrom _ _ _).2 (by omega)) js ((findRun_iff hy _ js hjs).2 hk.symm)
    · intro h a ha js hf
      rw [mem_runsFrom] at ha
      obtain ⟨is, rfl⟩ := Int.eq_ofNat_of_zero_le ha.1
      obtain ⟨j, rfl, hj, hk⟩ := findRun_nat hf
      exact h is (by omega) j hj hk.symm
  unfold joinSpec
  refine ⟨?_, ?_, ?_⟩
  · rw [foldl_iff (joinStep x xs y ys unq_y mult) (fun s => s.xlen1 = true)
      (fun a => ∀ js, findRun (keyAt y ys) (keyAt x xs a) 0 ys.length = some js →
        runLen xs x.length a ≤ 1)]
    · simp only [true_and]
      exact hmem (fun a _ => runLen xs x.length a ≤ 1)
    · intro s a
      cases hf : findRun (keyAt y ys) (keyAt x xs a) 0 ys.length with
      | none => rw [joinStep_none hf]; simp
      | some js =>
        rw [joinStep_some hf, (uhit_flags _ _ _ _ _ _ _ _ _).1]
        simp
  · rw [foldl_iff (joinStep x xs y ys unq_y mult) (fun s => s.ylen1 = true)
      (fun a => ∀ js, findRun (keyAt y ys) (keyAt x xs a) 0 ys.length = some js →
        (mult = emult.ALL ∨ mult = emult.ERR → runLen ys y.length js ≤ 1))]
    · simp only [true_and]
      rw [hmem (fun _ js => mult = emult.ALL ∨ mult = emult.ERR → runLen ys y.length js ≤ 1)]
      unfold NoMatchedRightDup
      constructor
      · intro h hm is his js hjs hk; exact h is his js hjs hk hm
      · intro h is his js hjs hk hm; exact h hm is his js hjs hk
    · intro s a
      cases hf : findRun (keyAt y ys) (keyAt x xs a) 0 ys.length with
      | none => rw [joinStep_none hf]; simp
      | some js =>
        rw [joinStep_some hf, (uhit_flags _ _ _ _ _ _ _ _ _).2.1]
        simp
  · rw [foldl_iff (joinStep x xs y ys unq_y mult) (fun s => s.xylen1 = true)
      (fun a => ∀ js, findRun (keyAt y ys) (keyAt x xs a) 0 ys.length = some js →
        (mult = emult.ALL ∨ mult = emult.ERR →
          ¬ (runLen xs x.length a > 1 ∧ runLen ys y.length js > 1)))]
    · simp only [true_and]
      rw [hmem (fun a js => mult = emult.ALL ∨ mult = emult.ERR →
          ¬ (runLen xs x.length a > 1 ∧ runLen ys y.length js > 1))]
      unfold NoMatchedCrossDup
      constructor
      · intro h hm is his js hjs hk; exact h is his js hjs hk hm
      · intro h is his js hjs hk hm; exact h hm is his js hjs hk
    · intro s a
      cases hf : findRun (keyAt y ys) (keyAt x xs a) 0 ys.length with
      | none => rw [joinStep_none hf]; simp
      | some js =>
        rw [joinStep_some hf, (uhit_flags _ _ _ _ _ _ _ _ _).2.2]
        simp

/-! ## The one-pass join: match count -/

theorem joinStep_cnt (x xs y ys : List Int) (unq_y : Bool) (mult : emult) (s : JoinState)
    (is : Int) (hs : s.cnt < U64) :
    (joinStep x xs y ys unq_y mult s is).cnt
      = (s.cnt + (runLen xs x.length is).toNat * rowCount y ys mult (keyAt x xs is)) % U64 := by
  cases hf : findRun (keyAt y ys) (keyAt x xs is) 0 ys.length with
  | none =>
    rw [joinStep_none hf]
    cases mult <;> simp [rowCount, matchLen, hf, Nat.mod_eq_of_lt hs]
  | some js =>
    rw [joinStep_some hf]
    cases mult <;> simp [rowCount, matchLen, hf, uhit]

theorem foldl_joinStep_cnt (x xs y ys : List Int) (unq_y : Bool) (mult : emult) :
    ∀ (n : Nat) (lo : Int) (s : JoinState), s.cnt < U64 →
      ((runsFrom lo n).foldl (joinStep x xs y ys unq_y mult) s).cnt
        = (s.cnt + ∑ t ∈ Finset.range n,
            (runLen xs x.length (lo + t)).toNat * rowCount y ys mult (keyAt x xs (lo + t))) % U64 := by
  intro n
  induction n with
  | zero => intro lo s hs; simp [runsFrom, Nat.mod_eq_of_lt hs]
  | succ n ih =>
    intro lo s hs
    have hU : 0 < U64 := by unfold U64; norm_num
    simp only [runsFrom, List.foldl_cons]
    rw [ih (lo + 1) _ (by rw [joinStep_cnt _ _ _ _ _ _ _ _ hs]; exact Nat.mod_lt _ hU),
      joinStep_cnt _ _ _ _ _ _ _ _ hs, Finset.sum_range_succ']
    have e : ∀ t : Nat, lo + 1 + (t : Int) = lo + ((t + 1 : Nat) : Int) := by
      intro t; push_cast; ring
    simp only [e, Nat.cast_zero, add_zero]
    generalize (∑ t ∈ Finset.range n, (runLen xs x.length (lo + ((t + 1 : Nat) : Int))).toNat *
      rowCount y ys mult (keyAt x xs (lo + ((t + 1 : Nat) : Int)))) = S
    generalize (runLen xs (x.length : Int) lo).toNat * rowCount y ys mult (keyAt x xs lo) = c
    unfold U64
    omega

/-- Summing over rows is summing over runs, each run weighted by its length. -/
theorem ValidIndex.sum_rows {col gs : List Int} (h : ValidIndex col gs) (g : Int → Nat) :
    ∀ t : Nat, t ≤ gs.length →
      ∑ r ∈ Finset.range (startRow gs col.length t), g (rd col r)
        = ∑ k ∈ Finset.range t, (runLen gs col.length k).toNat * g (keyAt col gs k) := by
  intro t
  induction t with
  | zero =>
    intro _
    have h0 := h.2.2.1
    have : startRow gs col.length 0 = 0 := by
      unfold startRow; rw [if_pos h.2.1]; simp only [Nat.cast_zero]; omega
    rw [this]; simp
  | succ t ih =>
    intro ht
    have ht' : t < gs.length := by omega
    have hpos := h.runLen_pos t ht'
    have hge := h.start_ge t ht'
    have hst : startRow gs col.length (t + 1)
        = startRow gs col.length t + (runLen gs col.length t).toNat := by
      unfold startRow
      rw [if_pos ht']
      by_cases hc : t + 1 < gs.length
      · rw [if_pos hc]
        have := h.run_end_next t hc
        push_cast
        omega
      · rw [if_neg hc]
        have := h.run_end_last t (by omega)
        omega
    rw [hst, Finset.sum_range_add, ih (by omega), Finset.sum_range_succ]
    congr 1
    have hconst : ∀ i ∈ Finset.range (runLen gs col.length t).toNat,
        g (rd col ((startRow gs col.length t + i : Nat) : Int)) = g (keyAt col gs t) := by
      intro i hi
      rw [Finset.mem_range] at hi
      have hs : startRow gs col.length t = (rd gs t - 1).toNat := by
        unfold startRow; rw [if_pos ht']
      rw [h.key_of_row t (startRow gs col.length t + i) ht' ?_]
      unfold InRun
      rw [hs]; push_cast
      omega
    rw [Finset.sum_congr rfl hconst]
    simp

theorem startRow_length {col gs : List Int} : startRow gs col.length gs.length = col.length := by
  unfold startRow; simp

theorem matchLen_le {y ys : List Int} (hy : ValidIndex y ys) (k : Int) :
    matchLen y ys k ≤ y.length := by
  unfold matchLen
  cases hf : findRun (keyAt y ys) k 0 ys.length with
  | none => simp
  | some js =>
    obtain ⟨j, rfl, hj, _⟩ := findRun_nat hf
    have := hy.runLen_le j hj
    simp only
    omega

theorem rowCount_le {y ys : List Int} (hy : ValidIndex y ys) (mult : emult) (k : Int) :
    rowCount y ys mult k ≤ y.length := by
  have h1 := matchLen_le hy k
  have h2 : 1 ≤ y.length := by
    have a := hy.start_ge 0 hy.2.1
    have b := hy.start_le 0 hy.2.1
    have c := hy.2.1
    simp only [Nat.cast_zero] at a b
    omega
  cases mult
  · exact h1
  · unfold rowCount; simp only; split <;> omega
  · unfold rowCount; simp only; split <;> omega
  · exact h1

/-- The match count of the one-pass join is the sum over the left rows, without
any wrap-around of the 64-bit counter. -/
theorem joinSpec_cnt {x xs y ys : List Int} (hx : ValidIndex x xs) (hy : ValidIndex y ys)
    (unq_y : Bool) (mult : emult) (starts lens : List Int) :
    (joinSpec x xs y ys unq_y mult starts lens).cnt
      = ∑ r ∈ Finset.range x.length, rowCount y ys mult (rd x r) := by
  unfold joinSpec
  rw [foldl_joinStep_cnt x xs y ys unq_y mult xs.length 0 _ (by unfold U64; norm_num)]
  simp only [zero_add]
  rw [← hx.sum_rows (rowCount y ys mult) xs.length (le_refl _), startRow_length]
  apply Nat.mod_eq_of_lt
  have hb : ∑ r ∈ Finset.range x.length, rowCount y ys mult (rd x r)
      ≤ ∑ _r ∈ Finset.range x.length, y.length :=
    Finset.sum_le_sum (fun r _ => rowCount_le hy mult _)
  simp only [Finset.sum_const, Finset.card_range, smul_eq_mul] at hb
  have h1 := hx.1
  have h2 := hy.1
  have h3 : x.length * y.length ≤ 2 ^ 31 * 2 ^ 31 := Nat.mul_le_mul (by omega) (by omega)
  unfold U64
  omega

/-! ## Run lengths and matches in terms of the columns alone -/

theorem sum_indicator_eq_count (k : Int) : ∀ l : List Int,
    ∑ r ∈ Finset.range l.length, (if rd l r = k then 1 else 0) = l.count k := by
  intro l
  induction l with
  | nil => simp
  | cons a l ih =>
    rw [List.length_cons, Finset.sum_range_succ', List.count_cons, ← ih]
    congr 1
    simp [rd]

/-- The length of the right run with key `k` is the number of rows of the
right column that carry `k`. -/
theorem matchLen_eq_count {y ys : List Int} (hy : ValidIndex y ys) (k : Int) :
    matchLen y ys k = y.count k := by
  rw [← sum_indicator_eq_count k y]
  have := hy.sum_rows (fun v => if v = k then 1 else 0) ys.length (le_refl _)
  rw [startRow_length] at this
  rw [this]
  unfold matchLen
  cases hf : findRun (keyAt y ys) k 0 ys.length with
  | none =>
    simp only
    symm
    apply Finset.sum_eq_zero
    intro js hjs
    rw [Finset.mem_range] at hjs
    have := findRun_none _ _ hf js (by omega) (by omega)
    simp [this]
  | some j0 =>
    obtain ⟨j, rfl, hj, hk⟩ := findRun_nat hf
    simp only
    rw [Finset.sum_eq_single j]
    · simp [hk]
    · intro b hb hne
      rw [Finset.mem_range] at hb
      have : keyAt y ys b ≠ k := by
        intro hkb
        have := (findRun_iff hy k b hb).2 hkb
        rw [hf] at this
        injection this with this
        exact hne (by exact_mod_cast this.symm)
      simp [this]
    · intro hn
      exact absurd (Finset.mem_range.2 hj) hn

theorem isSome_findRun_iff {y ys : List Int} (hy : ValidIndex y ys) (k : Int) :
    (findRun (keyAt y ys) k 0 ys.length).isSome = true ↔ k ∈ y := by
  rw [← List.count_pos_iff, ← matchLen_eq_count hy k]
  unfold matchLen
  cases hf : findRun (keyAt y ys) k 0 ys.length with
  | none => simp
  | some js =>
    obtain ⟨j, rfl, hj, _⟩ := findRun_nat hf
    have := hy.runLen_pos j hj
    simp only [Option.isSome_some, true_iff]
    omega

theorem rowCount_eq {y ys : List Int} (hy : ValidIndex y ys) (mult : emult) (k : Int) :
    rowCount y ys mult k = rowMatches y mult k := by
  have h1 := matchLen_eq_count hy k
  have h2 := isSome_findRun_iff hy k
  cases mult
  · exact h1
  · unfold rowCount rowMatches
    by_cases hk : k ∈ y
    · simp [hk, h2.2 hk]
    · have : (findRun (keyAt y ys) k 0 ys.length).isSome = false := by
        cases h : (findRun (keyAt y ys) k 0 ys.length).isSome
        · rfl
        · exact absurd (h2.1 h) hk
      simp [hk, this]
  · unfold rowCount rowMatches
    by_cases hk : k ∈ y
    · simp [hk, h2.2 hk]
    · have : (findRun (keyAt y ys) k 0 ys.length).isSome = false := by
        cases h : (findRun (keyAt y ys) k 0 ys.length).isSome
        · rfl
        · exact absurd (h2.1 h) hk
      simp [hk, this]
  · exact h1

/-- The length of a run is the number of rows that carry its key. -/
theorem ValidIndex.runLen_eq_count {y ys : List Int} (hy : ValidIndex y ys) (js : Nat)
    (hjs : js < ys.length) : runLen ys y.length js = y.count (keyAt y ys js) := by
  rw [← matchLen_eq_count hy]
  unfold matchLen
  rw [(findRun_iff hy _ js hjs).2 rfl]
  have := hy.runLen_pos js hjs
  simp only
  omega

/-! ## smergeC on valid input -/

theorem batchCountOK_single (nth n : Int) (hn : 1 ≤ n) (h : nth = 1 ∨ n < 1024) :
    BatchCountOK (nBatchFor nth n) n := by
  unfold nBatchFor BatchCountOK
  rw [if_pos h]
  refine ⟨le_refl _, ?_⟩
  simp only [sub_self, zero_mul]
  omega

theorem smergeC_eq {x xs y ys : List Int} (hx : ValidIndex x xs) (hy : ValidIndex y ys)
    (nth : Int) (hK : BatchCountOK (nBatchFor nth xs.length) xs.length)
    (starts lens : List Int) (mult : emult) :
    smergeC nth x x.length xs xs.length y y.length ys ys.length starts lens mult
      = if mult = emult.ERR ∧
          (joinSpec x xs y ys (decide ((ys.length : Int) = y.length)) mult starts lens).ylen1 = false
        then Except.error SmergeError.duplicateMatch
        else Except.ok (joinSpec x xs y ys (decide ((ys.length : Int) = y.length)) mult starts lens) := by
  unfold smergeC
  exact smergeCWith_eq hx hy _ hK starts lens mult

theorem smergeC_ok {x xs y ys : List Int} (hx : ValidIndex x xs) (hy : ValidIndex y ys)
    (nth : Int) (hK : BatchCountOK (nBatchFor nth xs.length) xs.length)
    (starts lens : List Int) (mult : emult)
    (h : mult = emult.ERR → NoMatchedRightDup x xs y ys) :
    smergeC nth x x.length xs xs.length y y.length ys ys.length starts lens mult
      = Except.ok (joinSpec x xs y ys (decide ((ys.length : Int) = y.length)) mult starts lens) := by
  rw [smergeC_eq hx hy nth hK]
  apply if_neg
  rintro ⟨hm, hf⟩
  have := ((@joinSpec_flags x xs y ys hy (decide ((ys.length : Int) = y.length)) mult
    starts lens).2.1).2 (fun _ => h hm)
  rw [this] at hf
  exact absurd hf (by simp)

theorem smergeC_dup {x xs y ys : List Int} (hx : ValidIndex x xs) (hy : ValidIndex y ys)
    (nth : Int) (hK : BatchCountOK (nBatchFor nth xs.length) xs.length)
    (starts lens : List Int) (h : ¬ NoMatchedRightDup x xs y ys) :
    smergeC nth x x.length xs xs.length y y.length ys ys.length starts lens emult.ERR
      = Except.error SmergeError.duplicateMatch := by
  rw [smergeC_eq hx hy nth hK]
  apply if_pos
  refine ⟨rfl, ?_⟩
  cases hf : (joinSpec x xs y ys (decide ((ys.length : Int) = y.length)) emult.ERR
    starts lens).ylen1
  · rfl
  · exact absurd (((@joinSpec_flags x xs y ys hy _ emult.ERR starts lens).2.1).1 hf
      (Or.inr rfl)) h

theorem joinSpec_lens_unchanged (x xs y ys : List Int) (unq_y : Bool) (mult : emult)
    (starts lens : List Int) (hw : writesLens unq_y mult = false) :
    (joinSpec x xs y ys unq_y mult starts lens).lens = lens := by
  unfold joinSpec
  have key : ∀ (l : List Int) (s : JoinState),
      (l.foldl (joinStep x xs y ys unq_y mult) s).lens = s.lens := by
    intro l
    induction l with
    | nil => intro s; rfl
    | cons a l ih =>
      intro s
      simp only [List.foldl_cons]
      rw [ih]
      cases hf : findRun (keyAt y ys) (keyAt x xs a) 0 ys.length with
      | none => rw [joinStep_none hf]
      | some js => rw [joinStep_some hf, uhit_lens, hw]; rfl
  exact key _ _

theorem joinSpec_err_eq_all (x xs y ys : List Int) (unq_y : Bool) (starts lens : List Int) :
    joinSpec x xs y ys unq_y emult.ERR starts lens = joinSpec x xs y ys unq_y emult.ALL starts lens := by
  rfl

/-- A left row whose key is the key of right run `js` lies in a left run whose
match is `js`. -/
theorem row_match {x xs y ys : List Int} (hx : ValidIndex x xs) (hy : ValidIndex y ys)
    (r js : Nat) (hr : r < x.length) (hjs : js < ys.length) (hk : rd x r = keyAt y ys js) :
    ∃ is : Nat, is < xs.length ∧ InRun xs x.length is r ∧
      findRun (keyAt y ys) (keyAt x xs is) 0 ys.length = some (js : Int) := by
  obtain ⟨is, his, hin⟩ := hx.exists_run r hr
  refine ⟨is, his, hin, (findRun_iff hy _ js hjs).2 ?_⟩
  rw [← hx.key_of_row is r his hin, hk]

/-- A left row whose key is the key of no right run lies in a left run without
a match. -/
theorem row_nomatch {x xs y ys : List Int} (hx : ValidIndex x xs)
    (r : Nat) (hr : r < x.length) (hno : ∀ js : Nat, js < ys.length → rd x r ≠ keyAt y ys js) :
    ∃ is : Nat, is < xs.length ∧ InRun xs x.length is r ∧
      findRun (keyAt y ys) (keyAt x xs is) 0 ys.length = none := by
  obtain ⟨is, his, hin⟩ := hx.exists_run r hr
  refine ⟨is, his, hin, ?_⟩
  apply findRun_of_none
  intro j h0 h1 h2
  obtain ⟨j', rfl⟩ := Int.eq_ofNat_of_zero_le h0
  apply hno j' (by omega)
  rw [hx.key_of_row is r his hin, h2]

theorem sum_range_rd (g : Int → Nat) : ∀ l : List Int,
    ∑ r ∈ Finset.range l.length, g (rd l r) = (l.map g).sum := by
  intro l
  induction l with
  | nil => simp
  | cons a l ih =>
    rw [List.length_cons, Finset.sum_range_succ', List.map_cons, List.sum_cons, ← ih, add_comm]
    congr 1

theorem sum_indicator_eq_countP (p : Int → Bool) : ∀ l : List Int,
    (l.map (fun k => if p k then 1 else 0)).sum = l.countP p := by
  intro l
  induction l with
  | nil => simp
  | cons a l ih =>
    rw [List.map_cons, List.sum_cons, ih, List.countP_cons]
    cases p a <;> simp [add_comm]

/-! ## The claims -/

theorem rd_replicate (n : Nat) (v : Int) (r : Nat) (h : r < n) : rd (List.replicate n v) r = v := by
  rw [rd_nat]
  simp [List.getD_eq_getElem?_getD, h]

/-- C2, restricted to the thread counts whose batch count `batching` serves:
under policy ALL, for sorted columns with valid group indices (any
uniqueness combination), `lens` pre-filled with 1 and a thread count whose batch
count `batching` serves (`BatchCountOK`), the join returns, and every
left row `r` whose key is the key of the right run `js` gets
`starts[r] = y_starts[js]`, the 1-based first row of that run, and
`lens[r]` = the number of rows of that run, which is the number of right rows
carrying the key of `r`. -/
theorem all_policy_writes_run (x xs y ys : List Int)
    (hx : ValidIndex x xs) (hy : ValidIndex y ys)
    (nth : Int) (hK : BatchCountOK (nBatchFor nth xs.length) xs.length)
    (starts : List Int) (hs : starts.length = x.length)
    (r js : Nat) (hr : r < x.length) (hjs : js < ys.length) (hk : rd x r = keyAt y ys js) :
    ∃ out, smergeC nth x x.length xs xs.length y y.length ys ys.length starts
        (List.replicate x.length 1) emult.ALL = Except.ok out ∧
      rd out.starts r = rd ys js ∧ rd out.lens r = runLen ys y.length js ∧
      runLen ys y.length js = (y.count (rd x r) : Int) := by
  refine ⟨_, smergeC_ok hx hy nth hK starts _ emult.ALL (fun h => by cases h), ?_⟩
  obtain ⟨is, his, hin, hf⟩ := row_match hx hy r js hr hjs hk
  obtain ⟨h1, h2, h3⟩ := joinSpec_row_some hx (decide ((ys.length : Int) = y.length)) emult.ALL
    starts (List.replicate x.length 1) hs is his r hin js hf
  refine ⟨h1, ?_, by rw [hk]; exact hy.runLen_eq_count js hjs⟩
  by_cases hu : (ys.length : Int) = y.length
  · have hw : writesLens (decide ((ys.length : Int) = y.length)) emult.ALL = false := by
      simp [writesLens, hu]
    rw [h2 hw, rd_replicate _ _ _ hr, hy.unique_runLen (by exact_mod_cast hu) js hjs]
  · have hw : writesLens (decide ((ys.length : Int) = y.length)) emult.ALL = true := by
      simp [writesLens, hu]
    exact h3 hw (by simp)

/-- C3, restricted to the thread counts whose batch count `batching` serves:
on a valid input (valid group indices, a thread count whose batch count
`batching` serves) under FIRST and LAST the join returns, leaves every entry of `lens` as it
was, and every left row `r` whose key is the key of the right run `js` gets
`starts[r] = j0` under FIRST and `starts[r] = j0 + Ly - 1` under LAST, where
`j0 = y_starts[js]` is the 1-based first row and `Ly` the length of that run
(`Ly = 1` when the right column is unique). -/
theorem first_last_policy_start (x xs y ys : List Int)
    (hx : ValidIndex x xs) (hy : ValidIndex y ys)
    (nth : Int) (hK : BatchCountOK (nBatchFor nth xs.length) xs.length)
    (starts lens : List Int) (hs : starts.length = x.length)
    (mult : emult) (hm : mult = emult.FIRST ∨ mult = emult.LAST) :
    ∃ out, smergeC nth x x.length xs xs.length y y.length ys ys.length starts lens mult
        = Except.ok out ∧
      out.lens = lens ∧
      ∀ r js : Nat, r < x.length → js < ys.length → rd x r = keyAt y ys js →
        rd out.starts r
          = (if mult = emult.FIRST then rd ys js else rd ys js + runLen ys y.length js - 1) ∧
        ((ys.length : Int) = y.length → runLen ys y.length js = 1) := by
  refine ⟨_, smergeC_ok hx hy nth hK starts lens mult
    (fun h => by rcases hm with e | e <;> rw [e] at h <;> cases h), ?_, ?_⟩
  · apply joinSpec_lens_unchanged
    rcases hm with e | e <;> rw [e] <;> rfl
  · intro r js hr hjs hk
    obtain ⟨is, his, hin, hf⟩ := row_match hx hy r js hr hjs hk
    obtain ⟨h1, _, _⟩ := joinSpec_row_some hx (decide ((ys.length : Int) = y.length)) mult
      starts lens hs is his r hin js hf
    refine ⟨?_, fun hu => hy.unique_runLen (by exact_mod_cast hu) js hjs⟩
    rw [h1]
    rcases hm with e | e <;> rw [e] <;> simp [startOf]

/-- C4, restricted to the thread counts whose batch count `batching` serves:
on a valid input (valid group indices, a thread count whose batch count
`batching` serves) under every policy, when the join returns (it always does except for the
duplicate-match error of ERROR_ON_DUPLICATE), every left row whose key occurs in
no right run has the same `starts` and `lens` values as before the join. -/
theorem unmatched_rows_untouched (x xs y ys : List Int)
    (hx : ValidIndex x xs) (hy : ValidIndex y ys)
    (nth : Int) (hK : BatchCountOK (nBatchFor nth xs.length) xs.length)
    (starts lens : List Int) (mult : emult) :
    (mult = emult.ERR ∧
      smergeC nth x x.length xs xs.length y y.length ys ys.length starts lens mult
        = Except.error SmergeError.duplicateMatch) ∨
    ∃ out, smergeC nth x x.length xs xs.length y y.length ys ys.length starts lens mult
        = Except.ok out ∧
      ∀ r : Nat, r < x.length → (∀ js : Nat, js < ys.length → rd x r ≠ keyAt y ys js) →
        rd out.starts r = rd starts r ∧ rd out.lens r = rd lens r := by
  by_cases hd : mult = emult.ERR ∧ ¬ NoMatchedRightDup x xs y ys
  · obtain ⟨hm, hd⟩ := hd
    subst hm
    exact Or.inl ⟨rfl, smergeC_dup hx hy nth hK starts lens hd⟩
  · right
    refine ⟨_, smergeC_ok hx hy nth hK starts lens mult
      (fun hm => by by_contra hc; exact hd ⟨hm, hc⟩), ?_⟩
    intro r hr hno
    obtain ⟨is, his, hin, hf⟩ := row_nomatch hx r hr hno
    exact joinSpec_row_none hx _ mult starts lens is his r hin hf

/-- C5, restricted to the thread counts whose batch count `batching` serves:
on a valid input (valid group indices, a thread count whose batch count
`batching` serves) the match count returned by the join is, under ALL, the sum over the left
rows of the number of right rows carrying the key of the row (the length of the
right run the row matches, nothing for a row without a match), and under FIRST
and LAST the number of left rows whose key occurs in the right column. -/
theorem match_count_sum (x xs y ys : List Int)
    (hx : ValidIndex x xs) (hy : ValidIndex y ys)
    (nth : Int) (hK : BatchCountOK (nBatchFor nth xs.length) xs.length)
    (starts lens : List Int) (mult : emult) (hm : mult ≠ emult.ERR) :
    ∃ out, smergeC nth x x.length xs xs.length y y.length ys ys.length starts lens mult
        = Except.ok out ∧
      (mult = emult.ALL → out.cnt = (x.map (fun k => y.count k)).sum) ∧
      (mult = emult.FIRST ∨ mult = emult.LAST →
        out.cnt = x.countP (fun k => decide (k ∈ y))) := by
  refine ⟨_, smergeC_ok hx hy nth hK starts lens mult (fun h => absurd h hm), ?_, ?_⟩
  · intro e
    subst e
    rw [joinSpec_cnt hx hy, ← sum_range_rd]
    apply Finset.sum_congr rfl
    intro r _
    exact rowCount_eq hy emult.ALL _
  · intro e
    rw [joinSpec_cnt hx hy, ← sum_indicator_eq_countP, ← sum_range_rd]
    apply Finset.sum_congr rfl
    intro r _
    rw [rowCount_eq hy]
    rcases e with e | e <;> subst e <;> simp [rowMatches]

/-- C7, restricted to the thread counts whose batch count `batching` serves:
on a valid input (valid group indices, a thread count whose batch count
`batching` serves) under every policy, when the join returns (it always does except for the
duplicate-match error of ERROR_ON_DUPLICATE), its leftAllSingleton flag is true
if and only if no matched left run has more than one row. -/
theorem left_singleton_flag (x xs y ys : List Int)
    (hx : ValidIndex x xs) (hy : ValidIndex y ys)
    (nth : Int) (hK : BatchCountOK (nBatchFor nth xs.length) xs.length)
    (starts lens : List Int) (mult : emult) :
    (mult = emult.ERR ∧
      smergeC nth x x.length xs xs.length y y.length ys ys.length starts lens mult
        = Except.error SmergeError.duplicateMatch) ∨
    ∃ out, smergeC nth x x.length xs xs.length y y.length ys ys.length starts lens mult
        = Except.ok out ∧
      (out.xlen1 = true ↔ NoMatchedLeftDup x xs y ys) := by
  by_cases hd : mult = emult.ERR ∧ ¬ NoMatchedRightDup x xs y ys
  · obtain ⟨hm, hd⟩ := hd
    subst hm
    exact Or.inl ⟨rfl, smergeC_dup hx hy nth hK starts lens hd⟩
  · right
    exact ⟨_, smergeC_ok hx hy nth hK starts lens mult
      (fun hm => by by_contra hc; exact hd ⟨hm, hc⟩),
      (@joinSpec_flags x xs y ys hy _ mult starts lens).1⟩

/-- C9, restricted to the thread counts whose batch count `batching` serves:
on a valid input (valid group indices, a thread count whose batch count
`batching` serves) under ERROR_ON_DUPLICATE the join fails with the duplicate-match error if
and only if some matched right run has more than one row; when none has, it
returns and its `starts`, `lens` and match count are those of the same join
under ALL. -/
theorem error_on_duplicate (x xs y ys : List Int)
    (hx : ValidIndex x xs) (hy : ValidIndex y ys)
    (nth : Int) (hK : BatchCountOK (nBatchFor nth xs.length) xs.length)
    (starts lens : List Int) :
    (smergeC nth x x.length xs xs.length y y.length ys ys.length starts lens emult.ERR
        = Except.error SmergeError.duplicateMatch ↔ ¬ NoMatchedRightDup x xs y ys) ∧
    (NoMatchedRightDup x xs y ys →
      ∃ out out', smergeC nth x x.length xs xs.length y y.length ys ys.length starts lens
          emult.ERR = Except.ok out ∧
        smergeC nth x x.length xs xs.length y y.length ys ys.length starts lens
          emult.ALL = Except.ok out' ∧
        out.starts = out'.starts ∧ out.lens = out'.lens ∧ out.cnt = out'.cnt) := by
  have hok : NoMatchedRightDup x xs y ys →
      smergeC nth x x.length xs xs.length y y.length ys ys.length starts lens emult.ERR
        = Except.ok (joinSpec x xs y ys (decide ((ys.length : Int) = y.length)) emult.ERR
            starts lens) :=
    fun h => smergeC_ok hx hy nth hK starts lens emult.ERR (fun _ => h)
  refine ⟨⟨?_, fun h => smergeC_dup hx hy nth hK starts lens h⟩, ?_⟩
  · intro he hn
    rw [hok hn] at he
    cases he
  · intro hn
    refine ⟨_, _, hok hn,
      smergeC_ok hx hy nth hK starts lens emult.ALL (fun h => by cases h), ?_, ?_, ?_⟩ <;>
    rw [joinSpec_err_eq_all]

theorem length_seqIndex (n : Nat) : (seqIndex n).length = n := by
  simp [seqIndex]

theorem rd_seqIndex (n k : Nat) (h : k < n) : rd (seqIndex n) k = (k : Int) + 1 := by
  rw [rd_nat]
  simp [seqIndex, List.getD_eq_getElem?_getD, h]

theorem pairwise_rd_lt (x : List Int) (hs : x.Pairwise (· < ·)) (a b : Nat) (hab : a < b)
    (hb : b < x.length) : rd x a < rd x b := by
  rw [rd_nat, rd_nat]
  have ha : a < x.length := by omega
  simp only [List.getD_eq_getElem?_getD, List.getElem?_eq_getElem ha,
    List.getElem?_eq_getElem hb, Option.getD_some]
  exact List.pairwise_iff_getElem.1 hs a b ha hb hab

/-- A non-empty strictly increasing column with the group index `1 .. n` is a
valid input. -/
theorem validIndex_seq (x : List Int) (h0 : x ≠ []) (hs : x.Pairwise (· < ·))
    (hl : x.length < 2 ^ 31) : ValidIndex x (seqIndex x.length) := by
  have hpos : 0 < x.length := List.length_pos.2 h0
  have hrl : ∀ k : Nat, k < x.length → runLen (seqIndex x.length) x.length k = 1 := by
    intro k hk
    unfold runLen
    rw [length_seqIndex]
    by_cases hc : k + 1 < x.length
    · have hc' : ((k : Int) + 1 < (x.length : Int)) := by exact_mod_cast hc
      rw [if_pos hc', rd_seqIndex _ _ hk]
      have := rd_seqIndex x.length (k + 1) hc
      push_cast at this
      rw [this]; ring
    · have hc' : ¬ ((k : Int) + 1 < (x.length : Int)) := by omega
      rw [if_neg hc', rd_seqIndex _ _ hk]
      omega
  have hkey : ∀ k : Nat, k < x.length → keyAt x (seqIndex x.length) k = rd x k := by
    intro k hk
    unfold keyAt
    rw [rd_seqIndex _ _ hk]
    simp
  unfold ValidIndex
  rw [length_seqIndex]
  refine ⟨hl, hpos, ?_, ?_, ?_, ?_, ?_⟩
  · have := rd_seqIndex x.length 0 hpos
    simpa using this
  · intro k hk hk1
    have := rd_seqIndex x.length (k + 1) hk1
    push_cast at this
    rw [rd_seqIndex _ _ hk, this]
    omega
  · have e : (x.length : Int) - 1 = ((x.length - 1 : Nat) : Int) := by omega
    rw [e, rd_seqIndex _ _ (by omega)]
    omega
  · intro k hk r hr h1 h2
    rw [hrl k hk, rd_seqIndex _ _ hk] at h2
    rw [rd_seqIndex _ _ hk] at h1
    have : r = k := by omega
    subst this
    exact (hkey r hk).symm
  · intro k hk hk1
    have := hkey (k + 1) hk1
    push_cast at this
    rw [hkey k hk, this]
    have := pairwise_rd_lt x hs k (k + 1) (by omega) hk1
    exact_mod_cast this

theorem card_common_keys (x y : List Int) (hx : x.Nodup) :
    (x.toFinset ∩ y.toFinset).card = x.countP (fun k => decide (k ∈ y)) := by
  have e : x.toFinset ∩ y.toFinset = (x.filter (fun k => decide (k ∈ y))).toFinset := by
    ext a
    simp [List.mem_filter]
  rw [e, List.toFinset_card_of_nodup (hx.filter _), List.countP_eq_length_filter]

theorem batching_refuses (x xs y ys : List Int) (ny : Int) (k n : Nat) (hn1 : 1 ≤ n)
    (hn : n < 2 ^ 31) (hP : k * ((n - 1) / (k + 1) + 1) = n) :
    batching ((k + 1 : Nat) : Int) x xs (n : Int) y ys ny
      = Except.error SmergeError.internalBatching := by
  unfold batching
  simp only [batchSize_eq k n hn1 hn]
  have e1 : toU64 (((k + 1 : Nat) : Int) - 1) = k := by
    have : (((k + 1 : Nat) : Int) - 1) = (k : Int) := by push_cast; ring
    rw [this]; apply toU64_natCast
    have : 1 ≤ (n - 1) / (k + 1) + 1 := Nat.le_add_left 1 _
    have : k * 1 ≤ k * ((n - 1) / (k + 1) + 1) := Nat.mul_le_mul_left _ this
    omega
  have e2 : toU64 (n : Int) = n := toU64_natCast n (by omega)
  simp only [e1, e2, hP]
  have e3 : (n + U64 - n % U64) % U64 = 0 := by unfold U64; omega
  rw [e3]
  simp

/-- C6, as the code has it: on a valid input (valid group indices, a thread count
whose batch count `batching` serves) under ALL the rightAllSingleton flag returned by the
join is true if and only if no matched right run has more than one row; under
ERROR_ON_DUPLICATE the join returns, with the flag true, when no matched right
run has more than one row and fails with the duplicate-match error otherwise;
under FIRST and LAST, which never report more than one right row per left row,
the flag is always true. -/
theorem right_singleton_flag (x xs y ys : List Int)
    (hx : ValidIndex x xs) (hy : ValidIndex y ys)
    (nth : Int) (hK : BatchCountOK (nBatchFor nth xs.length) xs.length)
    (starts lens : List Int) :
    (∃ out, smergeC nth x x.length xs xs.length y y.length ys ys.length starts lens emult.ALL
        = Except.ok out ∧ (out.ylen1 = true ↔ NoMatchedRightDup x xs y ys)) ∧
    (NoMatchedRightDup x xs y ys →
      ∃ out, smergeC nth x x.length xs xs.length y y.length ys ys.length starts lens emult.ERR
        = Except.ok out ∧ out.ylen1 = true) ∧
    (¬ NoMatchedRightDup x xs y ys →
      smergeC nth x x.length xs xs.length y y.length ys ys.length starts lens emult.ERR
        = Except.error SmergeError.duplicateMatch) ∧
    (∃ out, smergeC nth x x.length xs xs.length y y.length ys ys.length starts lens emult.FIRST
        = Except.ok out ∧ out.ylen1 = true) ∧
    (∃ out, smergeC nth x x.length xs xs.length y y.length ys ys.length starts lens emult.LAST
        = Except.ok out ∧ out.ylen1 = true) := by
  refine ⟨⟨_, smergeC_ok hx hy nth hK starts lens emult.ALL (fun h => by cases h), ?_⟩,
    fun hn => ⟨_, smergeC_ok hx hy nth hK starts lens emult.ERR (fun _ => hn), ?_⟩,
    fun hn => smergeC_dup hx hy nth hK starts lens hn,
    ⟨_, smergeC_ok hx hy nth hK starts lens emult.FIRST (fun h => by cases h), ?_⟩,
    ⟨_, smergeC_ok hx hy nth hK starts lens emult.LAST (fun h => by cases h), ?_⟩⟩
  · rw [(@joinSpec_flags x xs y ys hy _ emult.ALL starts lens).2.1]
    simp
  · exact ((@joinSpec_flags x xs y ys hy _ emult.ERR starts lens).2.1).2 (fun _ => hn)
  · exact ((@joinSpec_flags x xs y ys hy _ emult.FIRST starts lens).2.1).2
      (fun h => by rcases h with h | h <;> cases h)
  · exact ((@joinSpec_flags x xs y ys hy _ emult.LAST starts lens).2.1).2
      (fun h => by rcases h with h | h <;> cases h)

/-- C8, as the code has it: on a valid input (valid group indices, a thread count
whose batch count `batching` serves) under ALL, and under ERROR_ON_DUPLICATE when the join
returns, the crossAllSingleton flag is true if and only if there is no match in
which the left run and the right run both have more than one row; under FIRST
and LAST the flag is always true. -/
theorem cross_singleton_flag (x xs y ys : List Int)
    (hx : ValidIndex x xs) (hy : ValidIndex y ys)
    (nth : Int) (hK : BatchCountOK (nBatchFor nth xs.length) xs.length)
    (starts lens : List Int) :
    (∃ out, smergeC nth x x.length xs xs.length y y.length ys ys.length starts lens emult.ALL
        = Except.ok out ∧ (out.xylen1 = true ↔ NoMatchedCrossDup x xs y ys)) ∧
    (smergeC nth x x.length xs xs.length y y.length ys ys.length starts lens emult.ERR
        = Except.error SmergeError.duplicateMatch ∨
      ∃ out, smergeC nth x x.length xs xs.length y y.length ys ys.length starts lens emult.ERR
        = Except.ok out ∧ (out.xylen1 = true ↔ NoMatchedCrossDup x xs y ys)) ∧
    (∃ out, smergeC nth x x.length xs xs.length y y.length ys ys.length starts lens emult.FIRST
        = Except.ok out ∧ out.xylen1 = true) ∧
    (∃ out, smergeC nth x x.length xs xs.length y y.length ys ys.length starts lens emult.LAST
        = Except.ok out ∧ out.xylen1 = true) := by
  refine ⟨⟨_, smergeC_ok hx hy nth hK starts lens emult.ALL (fun h => by cases h), ?_⟩, ?_,
    ⟨_, smergeC_ok hx hy nth hK starts lens emult.FIRST (fun h => by cases h), ?_⟩,
    ⟨_, smergeC_ok hx hy nth hK starts lens emult.LAST (fun h => by cases h), ?_⟩⟩
  · rw [(@joinSpec_flags x xs y ys hy _ emult.ALL starts lens).2.2]
    simp
  · by_cases hn : NoMatchedRightDup x xs y ys
    · right
      refine ⟨_, smergeC_ok hx hy nth hK starts lens emult.ERR (fun _ => hn), ?_⟩
      rw [(@joinSpec_flags x xs y ys hy _ emult.ERR starts lens).2.2]
      simp
    · exact Or.inl (smergeC_dup hx hy nth hK starts lens hn)
  · exact ((@joinSpec_flags x xs y ys hy _ emult.FIRST starts lens).2.2).2
      (fun h => by rcases h with h | h <;> cases h)
  · exact ((@joinSpec_flags x xs y ys hy _ emult.LAST starts lens).2.2).2
      (fun h => by rcases h with h | h <;> cases h)

/-- C1, restricted to non-empty columns: for every pair of non-empty strictly increasing
integer columns `x` and `y` (so `x_starts = 1..nx`, `y_starts = 1..ny`) and
`starts` pre-filled with the sentinel, `smergeC` run as one batch returns, every
left row `i` has `starts[i] = j+1` when `y[j] = x[i]` and `starts[i]` = sentinel
when no such `j` exists, and the match count is the number of keys common to
`x` and `y`. -/
theorem unique_join_is_merge_join (x y : List Int) (sentinel : Int) (lens : List Int)
    (mult : emult) (nth : Int) (h1 : nBatchFor nth x.length = 1)
    (hx0 : x ≠ []) (hy0 : y ≠ [])
    (hxs : x.Pairwise (· < ·)) (hys : y.Pairwise (· < ·))
    (hxl : x.length < 2 ^ 31) (hyl : y.length < 2 ^ 31) :
    ∃ out, smergeC nth x x.length (seqIndex x.length) x.length y y.length
        (seqIndex y.length) y.length (List.replicate x.length sentinel) lens mult
        = Except.ok out ∧
      (∀ i j : Nat, i < x.length → j < y.length → rd y j = rd x i →
        rd out.starts i = (j : Int) + 1) ∧
      (∀ i : Nat, i < x.length → (∀ j : Nat, j < y.length → rd y j ≠ rd x i) →
        rd out.starts i = sentinel) ∧
      out.cnt = (x.toFinset ∩ y.toFinset).card := by
  have hx := validIndex_seq x hx0 hxs hxl
  have hy := validIndex_seq y hy0 hys hyl
  have hxpos : 0 < x.length := List.length_pos.2 hx0
  have hK : BatchCountOK (nBatchFor nth (seqIndex x.length).length) (seqIndex x.length).length := by
    rw [length_seqIndex, h1]
    unfold BatchCountOK
    refine ⟨le_refl _, ?_⟩
    simp only [sub_self, zero_mul]
    omega
  have huy : (seqIndex y.length).length = y.length := length_seqIndex _
  have hky : ∀ j : Nat, j < y.length → keyAt y (seqIndex y.length) j = rd y j := by
    intro j hj
    exact (hy.int_unique (by exact_mod_cast huy) j (by omega)
      (by rw [huy]; exact_mod_cast hj)).2.2
  have hdup : NoMatchedRightDup x (seqIndex x.length) y (seqIndex y.length) := by
    intro is _ js hjs _
    rw [hy.unique_runLen huy js hjs]
  have hok := smergeC_ok hx hy nth hK (List.replicate x.length sentinel) lens mult
    (fun _ => hdup)
  rw [length_seqIndex, length_seqIndex] at hok
  refine ⟨_, hok, ?_, ?_, ?_⟩
  · intro i j hi hj hk
    have hj' : j < (seqIndex y.length).length := by rw [huy]; exact hj
    obtain ⟨is, his, hin, hf⟩ := row_match hx hy i j hi hj' (by rw [hky j hj]; exact hk.symm)
    obtain ⟨h2, _, _⟩ := joinSpec_row_some hx (decide ((y.length : Int) = y.length)) mult
      (List.replicate x.length sentinel) lens (by simp) is his i hin j hf
    rw [h2]
    have e1 := rd_seqIndex y.length j hj
    have e2 := hy.unique_runLen huy j hj'
    cases mult <;> simp [startOf, e1, e2]
  · intro i hi hno
    obtain ⟨is, his, hin, hf⟩ := @row_nomatch x (seqIndex x.length) y (seqIndex y.length) hx i hi
      (fun js hjs => by
        rw [huy] at hjs
        rw [hky js hjs]
        exact fun h => hno js hjs h.symm)
    rw [(joinSpec_row_none hx _ mult _ lens is his i hin hf).1]
    exact rd_replicate _ _ _ hi
  · rw [joinSpec_cnt hx hy, card_common_keys x y hxs.nodup, ← sum_indicator_eq_countP,
      ← sum_range_rd]
    apply Finset.sum_congr rfl
    intro r _
    rw [rowCount_eq hy]
    have hc : y.count (rd x r) = if rd x r ∈ y then 1 else 0 := by
      by_cases hm : rd x r ∈ y
      · rw [if_pos hm]; exact List.count_eq_one_of_mem hys.nodup hm
      · rw [if_neg hm]; exact List.count_eq_zero_of_not_mem hm
    cases mult <;> simp [rowMatches, hc]

/-! ## The claims on concrete inputs -/

/-- C1 fails on the code: the empty left column is strictly increasing, one
thread gives one batch, and
`smergeC` does not return on it; `batching` finds a last batch of size 0 and
raises its internal error. -/
theorem unique_join_refuses_empty_left :
    List.Pairwise (· < ·) ([] : List Int) ∧ List.Pairwise (· < ·) ([1] : List Int) ∧
    smergeC 1 [] 0 (seqIndex 0) 0 [1] 1 (seqIndex 1) 1 [] [] emult.ALL
      = Except.error SmergeError.internalBatching ∧
    ¬ ∃ out, smergeC 1 [] 0 (seqIndex 0) 0 [1] 1 (seqIndex 1) 1 [] [] emult.ALL
      = Except.ok out :=
  ⟨List.Pairwise.nil, List.pairwise_singleton _ _, rfl, fun ⟨_, h⟩ => by cases h⟩

/-- Instance of the restricted C1 on `x = [1,3,5]`, `y = [3,4,5,7]`. -/
theorem unique_join_is_merge_join_witness :
    nBatchFor 1 ([1, 3, 5] : List Int).length = 1 ∧
    ([1, 3, 5] : List Int) ≠ [] ∧ ([3, 4, 5, 7] : List Int) ≠ [] ∧
    List.Pairwise (· < ·) ([1, 3, 5] : List Int) ∧
    List.Pairwise (· < ·) ([3, 4, 5, 7] : List Int) ∧
    ∃ out, smergeC 1 [1, 3, 5] ([1, 3, 5] : List Int).length
        (seqIndex ([1, 3, 5] : List Int).length) ([1, 3, 5] : List Int).length [3, 4, 5, 7]
        ([3, 4, 5, 7] : List Int).length (seqIndex ([3, 4, 5, 7] : List Int).length)
        ([3, 4, 5, 7] : List Int).length
        (List.replicate ([1, 3, 5] : List Int).length NA_INTEGER) [1, 1, 1] emult.ALL
        = Except.ok out ∧
      (∀ i j : Nat, i < ([1, 3, 5] : List Int).length → j < ([3, 4, 5, 7] : List Int).length →
        rd [3, 4, 5, 7] j = rd [1, 3, 5] i → rd out.starts i = (j : Int) + 1) ∧
      (∀ i : Nat, i < ([1, 3, 5] : List Int).length →
        (∀ j : Nat, j < ([3, 4, 5, 7] : List Int).length → rd [3, 4, 5, 7] j ≠ rd [1, 3, 5] i) →
        rd out.starts i = NA_INTEGER) ∧
      out.cnt = (([1, 3, 5] : List Int).toFinset ∩ ([3, 4, 5, 7] : List Int).toFinset).card :=
  ⟨by decide, by decide, by decide, by decide, by decide,
    unique_join_is_merge_join [1, 3, 5] [3, 4, 5, 7] NA_INTEGER [1, 1, 1] emult.ALL 1
      (by decide) (by decide) (by decide) (by decide) (by decide) (by decide) (by decide)⟩

/-- Instance of the restricted C2 on the worked scenario: row 2 (key 2) against the right run of key 2. -/
theorem all_policy_writes_run_witness :
    ValidIndex exX exXs ∧ ValidIndex exY exYs ∧
    BatchCountOK (nBatchFor 1 exXs.length) exXs.length ∧
    rd exX ((1 : Nat) : Int) = keyAt exY exYs ((0 : Nat) : Int) ∧
    ∃ out, smergeC 1 exX exX.length exXs exXs.length exY exY.length exYs exYs.length exStarts
        (List.replicate exX.length 1) emult.ALL = Except.ok out ∧
      rd out.starts ((1 : Nat) : Int) = rd exYs ((0 : Nat) : Int) ∧
      rd out.lens ((1 : Nat) : Int) = runLen exYs exY.length ((0 : Nat) : Int) ∧
      runLen exYs exY.length ((0 : Nat) : Int) = (exY.count (rd exX ((1 : Nat) : Int)) : Int) :=
  ⟨by decide, by decide, by decide, by decide,
    all_policy_writes_run exX exXs exY exYs (by decide) (by decide) 1 (by decide) exStarts
      (by decide) 1 0 (by decide) (by decide) (by decide)⟩

/-- Instance of the restricted C3 on the worked scenario under LAST. -/
theorem first_last_policy_start_witness :
    ValidIndex exX exXs ∧ ValidIndex exY exYs ∧
    BatchCountOK (nBatchFor 1 exXs.length) exXs.length ∧
    ∃ out, smergeC 1 exX exX.length exXs exXs.length exY exY.length exYs exYs.length exStarts
        exLens emult.LAST = Except.ok out ∧
      out.lens = exLens ∧
      ∀ r js : Nat, r < exX.length → js < exYs.length → rd exX r = keyAt exY exYs js →
        rd out.starts r
          = (if emult.LAST = emult.FIRST then rd exYs js
              else rd exYs js + runLen exYs exY.length js - 1) ∧
        ((exYs.length : Int) = exY.length → runLen exYs exY.length js = 1) :=
  ⟨by decide, by decide, by decide,
    first_last_policy_start exX exXs exY exYs (by decide) (by decide) 1 (by decide) exStarts
      exLens (by decide) emult.LAST (by decide)⟩

/-- Instance of the restricted C4 on the worked scenario under ALL. -/
theorem unmatched_rows_untouched_witness :
    ValidIndex exX exXs ∧ ValidIndex exY exYs ∧
    BatchCountOK (nBatchFor 1 exXs.length) exXs.length ∧
    ((emult.ALL = emult.ERR ∧
      smergeC 1 exX exX.length exXs exXs.length exY exY.length exYs exYs.length exStarts exLens
        emult.ALL = Except.error SmergeError.duplicateMatch) ∨
    ∃ out, smergeC 1 exX exX.length exXs exXs.length exY exY.length exYs exYs.length exStarts
        exLens emult.ALL = Except.ok out ∧
      ∀ r : Nat, r < exX.length → (∀ js : Nat, js < exYs.length → rd exX r ≠ keyAt exY exYs js) →
        rd out.starts r = rd exStarts r ∧ rd out.lens r = rd exLens r) :=
  ⟨by decide, by decide, by decide,
    unmatched_rows_untouched exX exXs exY exYs (by decide) (by decide) 1 (by decide) exStarts
      exLens emult.ALL⟩

/-- Instance of the restricted C5 on the worked scenario under ALL. -/
theorem match_count_sum_witness :
    ValidIndex exX exXs ∧ ValidIndex exY exYs ∧
    BatchCountOK (nBatchFor 1 exXs.length) exXs.length ∧
    ∃ out, smergeC 1 exX exX.length exXs exXs.length exY exY.length exYs exYs.length exStarts
        exLens emult.ALL = Except.ok out ∧
      (emult.ALL = emult.ALL → out.cnt = (exX.map (fun k => exY.count k)).sum) ∧
      (emult.ALL = emult.FIRST ∨ emult.ALL = emult.LAST →
        out.cnt = exX.countP (fun k => decide (k ∈ exY))) :=
  ⟨by decide, by decide, by decide,
    match_count_sum exX exXs exY exYs (by decide) (by decide) 1 (by decide) exStarts exLens
      emult.ALL (by decide)⟩

/-- C6 fails as stated: in the worked scenario under FIRST the matched right run
of key 2 has two rows, and the flag returned is true. -/
theorem right_singleton_flag_true_under_first :
    ValidIndex exX exXs ∧ ValidIndex exY exYs ∧
    ∃ out, smergeC 1 exX exX.length exXs exXs.length exY exY.length exYs exYs.length exStarts
        exLens emult.FIRST = Except.ok out ∧
      out.ylen1 = true ∧ ¬ NoMatchedRightDup exX exXs exY exYs ∧
      ¬ (out.ylen1 = true ↔ NoMatchedRightDup exX exXs exY exYs) :=
  ⟨by decide, by decide, _, rfl, by decide, by decide, by decide⟩

/-- Witness of C6 (amended) on the worked scenario. -/
theorem right_singleton_flag_witness :
    ValidIndex exX exXs ∧ ValidIndex exY exYs ∧
    BatchCountOK (nBatchFor 1 exXs.length) exXs.length ∧
    ((∃ out, smergeC 1 exX exX.length exXs exXs.length exY exY.length exYs exYs.length exStarts
        exLens emult.ALL = Except.ok out ∧
        (out.ylen1 = true ↔ NoMatchedRightDup exX exXs exY exYs)) ∧
    (NoMatchedRightDup exX exXs exY exYs →
      ∃ out, smergeC 1 exX exX.length exXs exXs.length exY exY.length exYs exYs.length exStarts
        exLens emult.ERR = Except.ok out ∧ out.ylen1 = true) ∧
    (¬ NoMatchedRightDup exX exXs exY exYs →
      smergeC 1 exX exX.length exXs exXs.length exY exY.length exYs exYs.length exStarts
        exLens emult.ERR = Except.error SmergeError.duplicateMatch) ∧
    (∃ out, smergeC 1 exX exX.length exXs exXs.length exY exY.length exYs exYs.length exStarts
        exLens emult.FIRST = Except.ok out ∧ out.ylen1 = true) ∧
    (∃ out, smergeC 1 exX exX.length exXs exXs.length exY exY.length exYs exYs.length exStarts
        exLens emult.LAST = Except.ok out ∧ out.ylen1 = true)) :=
  ⟨by decide, by decide, by decide,
    right_singleton_flag exX exXs exY exYs (by decide) (by decide) 1 (by decide) exStarts exLens⟩

/-- Instance of the restricted C7 on the worked scenario under FIRST. -/
theorem left_singleton_flag_witness :
    ValidIndex exX exXs ∧ ValidIndex exY exYs ∧
    BatchCountOK (nBatchFor 1 exXs.length) exXs.length ∧
    ((emult.FIRST = emult.ERR ∧
      smergeC 1 exX exX.length exXs exXs.length exY exY.length exYs exYs.length exStarts exLens
        emult.FIRST = Except.error SmergeError.duplicateMatch) ∨
    ∃ out, smergeC 1 exX exX.length exXs exXs.length exY exY.length exYs exYs.length exStarts
        exLens emult.FIRST = Except.ok out ∧
      (out.xlen1 = true ↔ NoMatchedLeftDup exX exXs exY exYs)) :=
  ⟨by decide, by decide, by decide,
    left_singleton_flag exX exXs exY exYs (by decide) (by decide) 1 (by decide) exStarts exLens
      emult.FIRST⟩

/-- C8 fails as stated: in the worked scenario under LAST the match on key 2 has
two rows on both sides, and the flag returned is true. -/
theorem cross_singleton_flag_true_under_last :
    ValidIndex exX exXs ∧ ValidIndex exY exYs ∧
    ∃ out, smergeC 1 exX exX.length exXs exXs.length exY exY.length exYs exYs.length exStarts
        exLens emult.LAST = Except.ok out ∧
      out.xylen1 = true ∧ ¬ NoMatchedCrossDup exX exXs exY exYs ∧
      ¬ (out.xylen1 = true ↔ NoMatchedCrossDup exX exXs exY exYs) :=
  ⟨by decide, by decide, _, rfl, by decide, by decide, by decide⟩

/-- Witness of C8 (amended) on the worked scenario. -/
theorem cross_singleton_flag_witness :
    ValidIndex exX exXs ∧ ValidIndex exY exYs ∧
    BatchCountOK (nBatchFor 1 exXs.length) exXs.length ∧
    ((∃ out, smergeC 1 exX exX.length exXs exXs.length exY exY.length exYs exYs.length exStarts
        exLens emult.ALL = Except.ok out ∧
        (out.xylen1 = true ↔ NoMatchedCrossDup exX exXs exY exYs)) ∧
    (smergeC 1 exX exX.length exXs exXs.length exY exY.length exYs exYs.length exStarts
        exLens emult.ERR = Except.error SmergeError.duplicateMatch ∨
      ∃ out, smergeC 1 exX exX.length exXs exXs.length exY exY.length exYs exYs.length exStarts
        exLens emult.ERR = Except.ok out ∧
        (out.xylen1 = true ↔ NoMatchedCrossDup exX exXs exY exYs)) ∧
    (∃ out, smergeC 1 exX exX.length exXs exXs.length exY exY.length exYs exYs.length exStarts
        exLens emult.FIRST = Except.ok out ∧ out.xylen1 = true) ∧
    (∃ out, smergeC 1 exX exX.length exXs exXs.length exY exY.length exYs exYs.length exStarts
        exLens emult.LAST = Except.ok out ∧ out.xylen1 = true)) :=
  ⟨by decide, by decide, by decide,
    cross_singleton_flag exX exXs exY exYs (by decide) (by decide) 1 (by decide) exStarts exLens⟩

/-- Instance of the restricted C9 on the worked scenario. -/
theorem error_on_duplicate_witness :
    ValidIndex exX exXs ∧ ValidIndex exY exYs ∧
    BatchCountOK (nBatchFor 1 exXs.length) exXs.length ∧
    ((smergeC 1 exX exX.length exXs exXs.length exY exY.length exYs exYs.length exStarts exLens
        emult.ERR = Except.error SmergeError.duplicateMatch ↔
        ¬ NoMatchedRightDup exX exXs exY exYs) ∧
    (NoMatchedRightDup exX exXs exY exYs →
      ∃ out out', smergeC 1 exX exX.length exXs exXs.length exY exY.length exYs exYs.length
          exStarts exLens emult.ERR = Except.ok out ∧
        smergeC 1 exX exX.length exXs exXs.length exY exY.length exYs exYs.length exStarts exLens
          emult.ALL = Except.ok out' ∧
        out.starts = out'.starts ∧ out.lens = out'.lens ∧ out.cnt = out'.cnt)) :=
  ⟨by decide, by decide, by decide,
    error_on_duplicate exX exXs exY exYs (by decide) (by decide) 1 (by decide) exStarts exLens⟩

/-- C13: the worked scenario, left `x = [1,2,2,3]` with `x_starts = [1,2,4]`, right
`y = [2,2,4]` with `y_starts = [1,3]`, outputs seeded (sentinel, 1), for every
thread count: under ALL the join returns `starts = [sentinel,1,1,sentinel]`,
`lens = [1,2,2,1]`, match count 4; under FIRST it returns
`starts = [sentinel,1,1,sentinel]`, `lens = [1,1,1,1]`, match count 2; under
ERROR_ON_DUPLICATE it fails with the duplicate-match error. -/
theorem worked_scenario (nth : Int) :
    (∃ out, smergeC nth [1, 2, 2, 3] 4 [1, 2, 4] 3 [2, 2, 4] 3 [1, 3] 2
        [NA_INTEGER, NA_INTEGER, NA_INTEGER, NA_INTEGER] [1, 1, 1, 1] emult.ALL = Except.ok out ∧
      out.starts = [NA_INTEGER, 1, 1, NA_INTEGER] ∧ out.lens = [1, 2, 2, 1] ∧ out.cnt = 4) ∧
    (∃ out, smergeC nth [1, 2, 2, 3] 4 [1, 2, 4] 3 [2, 2, 4] 3 [1, 3] 2
        [NA_INTEGER, NA_INTEGER, NA_INTEGER, NA_INTEGER] [1, 1, 1, 1] emult.FIRST = Except.ok out ∧
      out.starts = [NA_INTEGER, 1, 1, NA_INTEGER] ∧ out.lens = [1, 1, 1, 1] ∧ out.cnt = 2) ∧
    smergeC nth [1, 2, 2, 3] 4 [1, 2, 4] 3 [2, 2, 4] 3 [1, 3] 2
        [NA_INTEGER, NA_INTEGER, NA_INTEGER, NA_INTEGER] [1, 1, 1, 1] emult.ERR
      = Except.error SmergeError.duplicateMatch := by
  have h1 : nBatchFor nth 3 = 1 := by
    unfold nBatchFor
    rw [if_pos (Or.inr (by decide))]
  unfold smergeC
  rw [h1]
  exact ⟨⟨_, rfl, rfl, rfl, rfl⟩, ⟨_, rfl, rfl, rfl, rfl⟩, rfl⟩

theorem KeysNonDecreasing.mono {x ix : List Int} {nix : Int} (h : KeysNonDecreasing x ix nix) :
    ∀ a b : Int, 0 ≤ a → a ≤ b → b < nix → keyAt x ix a ≤ keyAt x ix b := by
  have key : ∀ (d a : Nat), a + d < nix.toNat →
      keyAt x ix a ≤ keyAt x ix ((a + d : Nat) : Int) := by
    intro d
    induction d with
    | zero => intro a _; simp
    | succ d ih =>
      intro a ha
      have h1 := ih a (by omega)
      have h2 := h (a + d) (by omega) (by omega)
      have e : (((a + d : Nat) : Int) + 1) = ((a + (d + 1) : Nat) : Int) := by push_cast; ring
      rw [e] at h2
      omega
  intro a b h0 hab hb
  obtain ⟨a', rfl⟩ := Int.eq_ofNat_of_zero_le h0
  obtain ⟨b', rfl⟩ := Int.eq_ofNat_of_zero_le (by omega : 0 ≤ b)
  have := key (b' - a') a' (by omega)
  have e : a' + (b' - a') = b' := by omega
  rw [e] at this
  exact this

/-- C14: for keys `x[ix[k]-1]` non-decreasing over `k = 0 .. nix-1`, `nix >= 1`, a
target `val` and either side (`-1` or `1`), if some `k` in `0 .. nix-1` has key
`val` then `rollbs` returns an index `r` in `0 .. nix-1` with key `val`. -/
theorem rollbs_exact_hit (x ix : List Int) (nix val side : Int) (hn : 1 ≤ nix)
    (hside : side = -1 ∨ side = 1) (hmono : KeysNonDecreasing x ix nix)
    (k : Int) (hk0 : 0 ≤ k) (hk1 : k < nix) (hk : keyAt x ix k = val) :
    0 ≤ rollbs x ix nix val side ∧ rollbs x ix nix val side < nix ∧
      keyAt x ix (rollbs x ix nix val side) = val := by
  have hm := hmono.mono
  rcases hside with e | e <;> subst e
  · rcases rollbs_lower x ix nix val hn hm with h | ⟨_, q⟩ | ⟨p, q, r, t⟩
    · exact h
    · have := hm k (nix - 1) hk0 (by omega) (by omega); omega
    · rcases lt_or_ge k (rollbs x ix nix val (-1)) with c | c
      · have := t k hk0 c; omega
      · have := hm _ k p c hk1; omega
  · rcases rollbs_upper x ix nix val hn hm with h | ⟨_, q⟩ | ⟨p, q, r, t⟩
    · exact h
    · have := hm 0 k (le_refl _) hk0 hk1; omega
    · rcases lt_or_ge (rollbs x ix nix val 1) k with c | c
      · have := t k c hk1; omega
      · have := hm k _ hk0 c q; omega

/-- C15: for keys non-decreasing over `nix >= 1` runs and a target `val` equal to
no key, `rollbs` with `side = -1` returns `-1` when the last key is less than
`val`, and otherwise returns the least index `r` with `key[r] >= val` (all
smaller indices have keys below `val`), which is `0` when the first key
exceeds `val`. -/
theorem rollbs_lower_bound_on_miss (x ix : List Int) (nix val : Int) (hn : 1 ≤ nix)
    (hmono : KeysNonDecreasing x ix nix) (hmiss : NoKeyIs x ix nix val) :
    (keyAt x ix (nix - 1) < val → rollbs x ix nix val (-1) = -1) ∧
    (¬ keyAt x ix (nix - 1) < val →
      0 ≤ rollbs x ix nix val (-1) ∧ rollbs x ix nix val (-1) < nix ∧
      val ≤ keyAt x ix (rollbs x ix nix val (-1)) ∧
      ∀ k : Int, 0 ≤ k → k < rollbs x ix nix val (-1) → keyAt x ix k < val) ∧
    (val < keyAt x ix 0 → rollbs x ix nix val (-1) = 0) := by
  have hm := hmono.mono
  have hne : ∀ j : Int, 0 ≤ j → j < nix → keyAt x ix j ≠ val := by
    intro j h0 h1
    obtain ⟨j', rfl⟩ := Int.eq_ofNat_of_zero_le h0
    exact hmiss j' (by omega)
  rcases rollbs_lower x ix nix val hn hm with ⟨p, q, r⟩ | ⟨p, q⟩ | ⟨p, q, r, t⟩
  · exact absurd r (hne _ p q)
  · refine ⟨fun _ => p, fun h => absurd q h, fun h => ?_⟩
    have := hm 0 (nix - 1) (le_refl _) (by omega) (by omega)
    omega
  · refine ⟨fun h => ?_, fun _ => ⟨p, q, le_of_lt r, t⟩, fun h => ?_⟩
    · have := hm _ (nix - 1) p (by omega) (by omega); omega
    · by_contra hc
      have := t 0 (le_refl _) (by omega)
      omega

/-- C16: for keys non-decreasing over `nix >= 1` runs and a target `val` equal to
no key, `rollbs` with `side = 1` returns `-1` when the first key exceeds `val`,
and otherwise returns the greatest index `r` with `key[r] <= val` (all larger
indices have keys above `val`), which is `nix-1` when the last key is less
than `val`. -/
theorem rollbs_upper_bound_on_miss (x ix : List Int) (nix val : Int) (hn : 1 ≤ nix)
    (hmono : KeysNonDecreasing x ix nix) (hmiss : NoKeyIs x ix nix val) :
    (val < keyAt x ix 0 → rollbs x ix nix val 1 = -1) ∧
    (¬ val < keyAt x ix 0 →
      0 ≤ rollbs x ix nix val 1 ∧ rollbs x ix nix val 1 < nix ∧
      keyAt x ix (rollbs x ix nix val 1) ≤ val ∧
      ∀ k : Int, rollbs x ix nix val 1 < k → k < nix → val < keyAt x ix k) ∧
    (keyAt x ix (nix - 1) < val → rollbs x ix nix val 1 = nix - 1) := by
  have hm := hmono.mono
  have hne : ∀ j : Int, 0 ≤ j → j < nix → keyAt x ix j ≠ val := by
    intro j h0 h1
    obtain ⟨j', rfl⟩ := Int.eq_ofNat_of_zero_le h0
    exact hmiss j' (by omega)
  rcases rollbs_upper x ix nix val hn hm with ⟨p, q, r⟩ | ⟨p, q⟩ | ⟨p, q, r, t⟩
  · exact absurd r (hne _ p q)
  · refine ⟨fun _ => p, fun h => absurd q h, fun h => ?_⟩
    have := hm 0 (nix - 1) (le_refl _) (by omega) (by omega)
    omega
  · refine ⟨fun h => ?_, fun _ => ⟨p, q, le_of_lt r, t⟩, fun h => ?_⟩
    · have := hm 0 _ (le_refl _) p q; omega
    · by_contra hc
      have := t (nix - 1) (by omega) (by omega)
      omega

/-- Witness of C14: keys `10, 20, 20, 40`, target 20, lower side. -/
theorem rollbs_exact_hit_witness :
    (1 : Int) ≤ 4 ∧ KeysNonDecreasing [10, 20, 20, 40] [1, 2, 3, 4] 4 ∧
    keyAt [10, 20, 20, 40] [1, 2, 3, 4] 1 = 20 ∧
    (0 ≤ rollbs [10, 20, 20, 40] [1, 2, 3, 4] 4 20 (-1) ∧
      rollbs [10, 20, 20, 40] [1, 2, 3, 4] 4 20 (-1) < 4 ∧
      keyAt [10, 20, 20, 40] [1, 2, 3, 4] (rollbs [10, 20, 20, 40] [1, 2, 3, 4] 4 20 (-1)) = 20) :=
  ⟨by decide, by decide, by decide,
    rollbs_exact_hit [10, 20, 20, 40] [1, 2, 3, 4] 4 20 (-1) (by decide) (Or.inl rfl) (by decide)
      1 (by decide) (by decide) (by decide)⟩

/-- Witness of C15: keys `10, 20, 20, 40`, target 30. -/
theorem rollbs_lower_bound_on_miss_witness :
    (1 : Int) ≤ 4 ∧ KeysNonDecreasing [10, 20, 20, 40] [1, 2, 3, 4] 4 ∧
    NoKeyIs [10, 20, 20, 40] [1, 2, 3, 4] 4 30 ∧
    ((keyAt [10, 20, 20, 40] [1, 2, 3, 4] (4 - 1) < 30 →
      rollbs [10, 20, 20, 40] [1, 2, 3, 4] 4 30 (-1) = -1) ∧
    (¬ keyAt [10, 20, 20, 40] [1, 2, 3, 4] (4 - 1) < 30 →
      0 ≤ rollbs [10, 20, 20, 40] [1, 2, 3, 4] 4 30 (-1) ∧
      rollbs [10, 20, 20, 40] [1, 2, 3, 4] 4 30 (-1) < 4 ∧
      30 ≤ keyAt [10, 20, 20, 40] [1, 2, 3, 4] (rollbs [10, 20, 20, 40] [1, 2, 3, 4] 4 30 (-1)) ∧
      ∀ k : Int, 0 ≤ k → k < rollbs [10, 20, 20, 40] [1, 2, 3, 4] 4 30 (-1) →
        keyAt [10, 20, 20, 40] [1, 2, 3, 4] k < 30) ∧
    (30 < keyAt [10, 20, 20, 40] [1, 2, 3, 4] 0 →
      rollbs [10, 20, 20, 40] [1, 2, 3, 4] 4 30 (-1) = 0)) :=
  ⟨by decide, by decide, by decide,
    rollbs_lower_bound_on_miss [10, 20, 20, 40] [1, 2, 3, 4] 4 30 (by decide) (by decide)
      (by decide)⟩

/-- Witness of C16: keys `10, 20, 20, 40`, target 30. -/
theorem rollbs_upper_bound_on_miss_witness :
    (1 : Int) ≤ 4 ∧ KeysNonDecreasing [10, 20, 20, 40] [1, 2, 3, 4] 4 ∧
    NoKeyIs [10, 20, 20, 40] [1, 2, 3, 4] 4 30 ∧
    ((30 < keyAt [10, 20, 20, 40] [1, 2, 3, 4] 0 →
      rollbs [10, 20, 20, 40] [1, 2, 3, 4] 4 30 1 = -1) ∧
    (¬ 30 < keyAt [10, 20, 20, 40] [1, 2, 3, 4] 0 →
      0 ≤ rollbs [10, 20, 20, 40] [1, 2, 3, 4] 4 30 1 ∧
      rollbs [10, 20, 20, 40] [1, 2, 3, 4] 4 30 1 < 4 ∧
      keyAt [10, 20, 20, 40] [1, 2, 3, 4] (rollbs [10, 20, 20, 40] [1, 2, 3, 4] 4 30 1) ≤ 30 ∧
      ∀ k : Int, rollbs [10, 20, 20, 40] [1, 2, 3, 4] 4 30 1 < k → k < 4 →
        30 < keyAt [10, 20, 20, 40] [1, 2, 3, 4] k) ∧
    (keyAt [10, 20, 20, 40] [1, 2, 3, 4] (4 - 1) < 30 →
      rollbs [10, 20, 20, 40] [1, 2, 3, 4] 4 30 1 = 4 - 1)) :=
  ⟨by decide, by decide, by decide,
    rollbs_upper_bound_on_miss [10, 20, 20, 40] [1, 2, 3, 4] 4 30 (by decide) (by decide)
      (by decide)⟩

/-! ## Claim C17: run lengths -/

theorem rd_grpLens_seed (gs : List Int) (n : Int) (lens0 : List Int)
    (hl : lens0.length = gs.length) (k : Nat) (hk : k < gs.length) :
    rd (grpLens gs gs.length n lens0) k = runLen gs n k := by
  unfold grpLens runLen
  have hlen : ((List.range ((gs.length : Int) - 1).toNat).foldl
      (fun (l : List Int) (i : Nat) => wr l (i : Int) (rd gs ((i : Int) + 1) - rd gs (i : Int)))
      lens0).length = gs.length := by
    rw [length_foldl_wr (fun i => rd gs ((i : Int) + 1) - rd gs (i : Int)) (fun i => (i : Int))]
    exact hl
  by_cases hc : k + 1 < gs.length
  · have hc' : ((k : Int) + 1 < gs.length) := by exact_mod_cast hc
    rw [if_pos hc', rd_wr_ne _ _ _ _ (by omega)]
    rw [rd_foldl_wr (fun i => rd gs ((i : Int) + 1) - rd gs (i : Int)) _ _ k (by omega)]
    have : k < ((gs.length : Int) - 1).toNat := by omega
    rw [if_pos this]
  · have hc' : ¬ ((k : Int) + 1 < gs.length) := by omega
    have e : (gs.length : Int) - 1 = (k : Int) := by omega
    rw [if_neg hc', e, rd_wr_same _ _ _ (by omega)]
    rw [← e, hlen]; omega

theorem length_grpLens (gs : List Int) (m n : Int) (lens0 : List Int) :
    (grpLens gs m n lens0).length = lens0.length := by
  unfold grpLens
  rw [length_wr,
    length_foldl_wr (fun i => rd gs ((i : Int) + 1) - rd gs (i : Int)) (fun i => (i : Int))]

theorem sum_eq_sum_range_rd : ∀ l : List Int,
    l.sum = ∑ r ∈ Finset.range l.length, rd l r := by
  intro l
  induction l with
  | nil => simp
  | cons a l ih =>
    rw [List.length_cons, Finset.sum_range_succ', List.sum_cons, ih, add_comm]
    congr 1

theorem ValidIndex.sum_runLen {col gs : List Int} (h : ValidIndex col gs) :
    ∑ k ∈ Finset.range gs.length, runLen gs col.length k = col.length := by
  have h1 := h.sum_rows (fun _ => 1) gs.length (le_refl _)
  rw [startRow_length] at h1
  simp only [Finset.sum_const, Finset.card_range, smul_eq_mul, mul_one] at h1
  have h2 : ∑ k ∈ Finset.range gs.length, runLen gs col.length k
      = ∑ k ∈ Finset.range gs.length, (((runLen gs col.length k).toNat : Nat) : Int) := by
    apply Finset.sum_congr rfl
    intro k hk
    have := h.runLen_pos k (Finset.mem_range.mp hk)
    omega
  rw [h2, ← Nat.cast_sum, ← h1]

/-- Claim C17: on a sorted column with its group index, `grpLens` (whatever the
receiving array held before) writes `lens[k] = starts[k+1] - starts[k]` for
`k < n_starts-1` and `lens[n_starts-1] = n - starts[n_starts-1] + 1`; every
`lens[k]` is the number of rows of the column that carry the key of run `k`, is
at least one, and the entries sum to the number of rows. -/
theorem grpLens_counts_rows (col gs lens0 : List Int)
    (h : ValidIndex col gs) (hl : lens0.length = gs.length) :
    (grpLens gs gs.length col.length lens0).length = gs.length ∧
    (∀ k : Nat, k + 1 < gs.length →
      rd (grpLens gs gs.length col.length lens0) k = rd gs ((k : Int) + 1) - rd gs k) ∧
    rd (grpLens gs gs.length col.length lens0) ((gs.length : Int) - 1)
      = (col.length : Int) - rd gs ((gs.length : Int) - 1) + 1 ∧
    (∀ k : Nat, k < gs.length →
      rd (grpLens gs gs.length col.length lens0) k = (col.count (keyAt col gs k) : Int) ∧
      1 ≤ rd (grpLens gs gs.length col.length lens0) k) ∧
    (grpLens gs gs.length col.length lens0).sum = (col.length : Int) := by
  have hm : 0 < gs.length := h.2.1
  refine ⟨by rw [length_grpLens, hl], ?_, ?_, ?_, ?_⟩
  · intro k hk
    rw [rd_grpLens_seed gs _ lens0 hl k (by omega)]
    unfold runLen
    have : ((k : Int) + 1 < gs.length) := by exact_mod_cast hk
    rw [if_pos this]
  · have e : ((gs.length : Int) - 1) = ((gs.length - 1 : Nat) : Int) := by omega
    rw [e, rd_grpLens_seed gs _ lens0 hl (gs.length - 1) (by omega)]
    unfold runLen
    have : ¬ (((gs.length - 1 : Nat) : Int) + 1 < gs.length) := by omega
    rw [if_neg this]
  · intro k hk
    rw [rd_grpLens_seed gs _ lens0 hl k hk]
    exact ⟨h.runLen_eq_count k hk, h.runLen_pos k hk⟩
  · rw [sum_eq_sum_range_rd, length_grpLens, hl]
    refine Eq.trans ?_ h.sum_runLen
    apply Finset.sum_congr rfl
    intro k hk
    exact rd_grpLens_seed gs _ lens0 hl k (Finset.mem_range.mp hk)

/-- Witness of C17: the left column of the worked scenario, the receiving array
holding arbitrary values. -/
theorem grpLens_counts_rows_witness :
    ValidIndex exX exXs ∧ [7, 8, 9].length = exXs.length ∧
    ((grpLens exXs exXs.length exX.length [7, 8, 9]).length = exXs.length ∧
    (∀ k : Nat, k + 1 < exXs.length →
      rd (grpLens exXs exXs.length exX.length [7, 8, 9]) k = rd exXs ((k : Int) + 1) - rd exXs k) ∧
    rd (grpLens exXs exXs.length exX.length [7, 8, 9]) ((exXs.length : Int) - 1)
      = (exX.length : Int) - rd exXs ((exXs.length : Int) - 1) + 1 ∧
    (∀ k : Nat, k < exXs.length →
      rd (grpLens exXs exXs.length exX.length [7, 8, 9]) k = (exX.count (keyAt exX exXs k) : Int) ∧
      1 ≤ rd (grpLens exXs exXs.length exX.length [7, 8, 9]) k) ∧
    (grpLens exXs exXs.length exX.length [7, 8, 9]).sum = (exX.length : Int)) :=
  ⟨by decide, by decide, grpLens_counts_rows exX exXs [7, 8, 9] (by decide) (by decide)⟩

/-! ## Claim C18: the right range of a batch -/

theorem batching_mem {K : Int} {x xs : List Int} {n : Int} {y ys : List Int} {ny : Int}
    {bs : List Batch} (hbs : batching K x xs n y ys ny = Except.ok bs) {b : Batch} (hb : b ∈ bs) :
    ∃ (sz lsz : Nat) (i : Int), b = batchOf K sz lsz x xs n y ys ny i := by
  unfold batching at hbs
  simp only at hbs
  split at hbs
  · cases hbs
  · injection hbs with hbs
    subst hbs
    obtain ⟨i, _, hi⟩ := List.mem_map.mp hb
    exact ⟨_, _, i, hi.symm⟩

theorem batchOf_y_fields (K : Int) (sz lsz : Nat) (x xs : List Int) (n : Int) (y ys : List Int)
    (ny i : Int) :
    (batchOf K sz lsz x xs n y ys ny i).y_off
      = (if (decide (rollbs y ys ny (rd x (rd xs (batchOf K sz lsz x xs n y ys ny i).x_off - 1)) (-1) ≥ 0)
          && decide (rollbs y ys ny (rd x (rd xs ((batchOf K sz lsz x xs n y ys ny i).x_off
            + ((batchOf K sz lsz x xs n y ys ny i).nx - 1)) - 1)) 1 ≥ 0)) = true
        then rollbs y ys ny (rd x (rd xs (batchOf K sz lsz x xs n y ys ny i).x_off - 1)) (-1) else 0) ∧
    (batchOf K sz lsz x xs n y ys ny i).ny
      = (if (decide (rollbs y ys ny (rd x (rd xs (batchOf K sz lsz x xs n y ys ny i).x_off - 1)) (-1) ≥ 0)
          && decide (rollbs y ys ny (rd x (rd xs ((batchOf K sz lsz x xs n y ys ny i).x_off
            + ((batchOf K sz lsz x xs n y ys ny i).nx - 1)) - 1)) 1 ≥ 0)) = true
        then rollbs y ys ny (rd x (rd xs ((batchOf K sz lsz x xs n y ys ny i).x_off
            + ((batchOf K sz lsz x xs n y ys ny i).nx - 1)) - 1)) 1
          - rollbs y ys ny (rd x (rd xs (batchOf K sz lsz x xs n y ys ny i).x_off - 1)) (-1) + 1
        else 0) :=
  ⟨rfl, rfl⟩

/-- The two bounds found for a non-empty range of left runs are at most one
apart in the wrong order: the right range they delimit has a length `>= 0`. -/
theorem yrange_nonneg {x xs y ys : List Int} (hx : ValidIndex x xs) (hy : ValidIndex y ys)
    (off cnt : Int) (h0 : 0 ≤ off) (h1 : 1 ≤ cnt) (h2 : off + cnt ≤ xs.length)
    (hlo : 0 ≤ rollbs y ys ys.length (rd x (rd xs off - 1)) (-1))
    (hhi : 0 ≤ rollbs y ys ys.length (rd x (rd xs (off + (cnt - 1)) - 1)) 1) :
    0 ≤ rollbs y ys ys.length (rd x (rd xs (off + (cnt - 1)) - 1)) 1
      - rollbs y ys ys.length (rd x (rd xs off - 1)) (-1) + 1 := by
  have hny : (1 : Int) ≤ ys.length := by have := hy.2.1; omega
  have hmono := fun a b h0 h1 h2 => hy.key_mono_le a b h0 h1 h2
  have hL := rollbs_lower y ys ys.length (keyAt x xs off) hny hmono
  have hU := rollbs_upper y ys ys.length (keyAt x xs (off + (cnt - 1))) hny hmono
  have e1 : rd x (rd xs off - 1) = keyAt x xs off := rfl
  have e2 : rd x (rd xs (off + (cnt - 1)) - 1) = keyAt x xs (off + (cnt - 1)) := rfl
  rw [e1] at hlo ⊢
  rw [e2] at hhi ⊢
  generalize rollbs y ys ys.length (keyAt x xs off) (-1) = lo at hL hlo ⊢
  generalize rollbs y ys ys.length (keyAt x xs (off + (cnt - 1))) 1 = hi at hU hhi ⊢
  have hk : keyAt x xs off ≤ keyAt x xs (off + (cnt - 1)) :=
    hx.key_mono_le off _ h0 (by omega) (by omega)
  by_contra hc
  have hlo_lt : lo < ys.length := by
    rcases hL with ⟨_, q, _⟩ | ⟨p, _⟩ | ⟨_, q, _, _⟩ <;> omega
  -- the run `hi + 1` lies strictly between the two bounds
  have hA : keyAt y ys (hi + 1) < keyAt x xs off := by
    rcases hL with ⟨_, _, r⟩ | ⟨p, _⟩ | ⟨_, _, _, t⟩
    · have := hy.key_mono (hi + 1) lo (by omega) (by omega) hlo_lt
      omega
    · omega
    · exact t (hi + 1) (by omega) (by omega)
  have hB : keyAt x xs (off + (cnt - 1)) < keyAt y ys (hi + 1) := by
    rcases hU with ⟨_, _, r⟩ | ⟨p, _⟩ | ⟨_, _, _, t⟩
    · have := hy.key_mono hi (hi + 1) hhi (by omega) (by omega)
      omega
    · omega
    · exact t (hi + 1) (by omega) (by omega)
  omega

/-- One `smerge` call on ranges inside the two indices is a fold over the left
runs of the batch; each step looks for the right run of the same key inside
the right range of the batch. -/
theorem smerge_fold {x xs y ys : List Int} (hx : ValidIndex x xs) (hy : ValidIndex y ys)
    (bx_off bnx by_off bny : Int) (x_lens y_lens : List Int) (unq_x unq_y : Bool)
    (starts lens : List Int) (mult : emult)
    (hbx : 0 ≤ bx_off) (hbx' : bx_off + bnx ≤ xs.length)
    (hby : 0 ≤ by_off) (hby' : by_off + bny ≤ ys.length)
    (hux : unq_x = true ↔ xs.length = x.length)
    (huy : unq_y = true ↔ ys.length = y.length)
    (hxl : unq_x = false → ∀ k : Nat, k < xs.length → rd x_lens k = runLen xs x.length k)
    (hyl : unq_y = false → mult ≠ emult.FIRST →
      ∀ k : Nat, k < ys.length → rd y_lens k = runLen ys y.length k) :
    smerge bx_off bnx by_off bny x xs x_lens unq_x y ys y_lens unq_y starts lens mult
      = (runsFrom bx_off bnx.toNat).foldl
          (stepRun (keyAt x xs) (keyAt y ys) by_off bny.toNat
            (uhit xs x.length ys y.length unq_y mult))
          ⟨starts, lens, 0, true, true, true⟩ := by
  rw [smerge_eq_uscan hx hy bx_off bnx by_off bny x_lens y_lens unq_x unq_y starts lens mult
    hbx hbx' hby hby' (by rw [hux]; exact Nat.cast_inj.symm) (by rw [huy]; exact Nat.cast_inj.symm)
    (fun hu i h0 h1 => by
      obtain ⟨k, rfl⟩ := Int.eq_ofNat_of_zero_le h0
      exact hxl hu k (by exact_mod_cast h1))
    (fun hu hm j h0 h1 => by
      obtain ⟨k, rfl⟩ := Int.eq_ofNat_of_zero_le h0
      exact hyl hu hm k (by exact_mod_cast h1))]
  rw [scan_eq_foldl (bx_off + bnx) (by_off + bny) bx_off by_off (keyAt x xs) (keyAt y ys) _
    (fun a b h1 h2 h3 => hx.key_mono a b (by omega) h2 (by omega))
    (fun a b h1 h2 h3 => hy.key_mono a b (by omega) h2 (by omega))
    _ bx_off by_off _ (le_refl _) (le_refl _) (fun j' h1 h2 => by omega) (by omega)]
  have e1 : (bx_off + bnx - bx_off).toNat = bnx.toNat := by congr 1; omega
  have e2 : (by_off + bny - by_off).toNat = bny.toNat := by congr 1; omega
  rw [e1, e2]

theorem stepRun_uhit_frame (kx ky : Int → Int) (lo : Int) (n : Nat)
    (xs : List Int) (nx : Int) (ys : List Int) (ny : Int) (unq_y : Bool) (mult : emult)
    (s : JoinState) (is : Int) :
    (stepRun kx ky lo n (uhit xs nx ys ny unq_y mult) s is).starts.length = s.starts.length ∧
    (stepRun kx ky lo n (uhit xs nx ys ny unq_y mult) s is).lens.length = s.lens.length ∧
    ∀ r : Int, ¬ InRun xs nx is r →
      rd (stepRun kx ky lo n (uhit xs nx ys ny unq_y mult) s is).starts r = rd s.starts r ∧
      rd (stepRun kx ky lo n (uhit xs nx ys ny unq_y mult) s is).lens r = rd s.lens r := by
  unfold stepRun
  cases findRun ky (kx is) lo n with
  | none => exact ⟨rfl, rfl, fun _ _ => ⟨rfl, rfl⟩⟩
  | some js =>
    simp only
    rw [uhit_starts, uhit_lens]
    refine ⟨length_fillRun _ _ _ _, ?_, ?_⟩
    · split
      · exact length_fillRun _ _ _ _
      · rfl
    · intro r h
      refine ⟨rd_fillRun_out _ _ _ _ _ h, ?_⟩
      split
      · exact rd_fillRun_out _ _ _ _ _ h
      · rfl

theorem foldl_stepRun_uhit_frame (kx ky : Int → Int) (lo : Int) (n : Nat)
    (xs : List Int) (nx : Int) (ys : List Int) (ny : Int) (unq_y : Bool) (mult : emult) :
    ∀ (l : List Int) (s : JoinState),
      (l.foldl (stepRun kx ky lo n (uhit xs nx ys ny unq_y mult)) s).starts.length
        = s.starts.length ∧
      (l.foldl (stepRun kx ky lo n (uhit xs nx ys ny unq_y mult)) s).lens.length
        = s.lens.length ∧
      ∀ r : Int, (∀ a ∈ l, ¬ InRun xs nx a r) →
        rd (l.foldl (stepRun kx ky lo n (uhit xs nx ys ny unq_y mult)) s).starts r
          = rd s.starts r ∧
        rd (l.foldl (stepRun kx ky lo n (uhit xs nx ys ny unq_y mult)) s).lens r
          = rd s.lens r := by
  intro l
  induction l with
  | nil => intro s; exact ⟨rfl, rfl, fun _ _ => ⟨rfl, rfl⟩⟩
  | cons a l ih =>
    intro s
    simp only [List.foldl_cons]
    obtain ⟨p1, p2, p3⟩ := ih (stepRun kx ky lo n (uhit xs nx ys ny unq_y mult) s a)
    obtain ⟨q1, q2, q3⟩ := stepRun_uhit_frame kx ky lo n xs nx ys ny unq_y mult s a
    refine ⟨p1.trans q1, p2.trans q2, ?_⟩
    intro r h
    have h1 := p3 r (fun b hb => h b (List.mem_cons_of_mem _ hb))
    have h2 := q3 r (h a (List.mem_cons_self _ _))
    exact ⟨h1.1.trans h2.1, h1.2.trans h2.2⟩

/-- A row before the first row of the first run of a range of runs, or after
the last row of its last run, lies in no run of the range. -/
theorem ValidIndex.not_inRun_outside {col gs : List Int} (h : ValidIndex col gs)
    (off cnt : Int) (h0 : 0 ≤ off) (h1 : off + cnt ≤ gs.length) (r : Int)
    (hr : r < rd gs off - 1 ∨
      rd gs (off + cnt - 1) - 1 + runLen gs col.length (off + cnt - 1) ≤ r)
    (a : Int) (ha0 : off ≤ a) (ha1 : a < off + cnt) : ¬ InRun gs col.length a r := by
  obtain ⟨o, rfl⟩ := Int.eq_ofNat_of_zero_le h0
  obtain ⟨a', rfl⟩ := Int.eq_ofNat_of_zero_le (by omega : 0 ≤ a)
  obtain ⟨e, he⟩ := Int.eq_ofNat_of_zero_le (by omega : 0 ≤ (o : Int) + cnt - 1)
  rw [he] at hr
  have hoa : o ≤ a' := by exact_mod_cast ha0
  have hae : a' ≤ e := by omega
  have hel : e < gs.length := by omega
  intro hin
  unfold InRun at hin
  rcases hr with hr | hr
  · rcases (by omega : o = a' ∨ o < a') with c | c
    · subst c; omega
    · have := h.start_lt o a' c (by omega); omega
  · rcases (by omega : a' = e ∨ a' < e) with c | c
    · subst c; omega
    · have h3 := h.run_end_le_start a' e c hel
      have h4 := h.runLen_pos e hel
      omega

/-- Claim C19: on valid input, for every policy and every batch whose ranges lie
inside the two group indices, one `smerge` call keeps the sizes of `starts` and
`lens` and changes no entry outside the rows of the left runs
`bx_off .. bx_off+bnx-1`, that is no row before `x_starts[bx_off]-1` and no row
after the last row of run `bx_off+bnx-1`; so a row changed by the call for one
batch is left alone by the call for a batch with a disjoint left range. -/
theorem batch_local_writes (x xs y ys : List Int)
    (hx : ValidIndex x xs) (hy : ValidIndex y ys)
    (x_lens y_lens : List Int) (unq_x unq_y : Bool) (mult : emult)
    (hux : unq_x = true ↔ xs.length = x.length)
    (huy : unq_y = true ↔ ys.length = y.length)
    (hxl : unq_x = false → ∀ k : Nat, k < xs.length → rd x_lens k = runLen xs x.length k)
    (hyl : unq_y = false → mult ≠ emult.FIRST →
      ∀ k : Nat, k < ys.length → rd y_lens k = runLen ys y.length k)
    (b : Batch) (hb0 : 0 ≤ b.x_off) (hb1 : b.x_off + b.nx ≤ xs.length)
    (hb2 : 0 ≤ b.y_off) (hb3 : b.y_off + b.ny ≤ ys.length)
    (starts lens : List Int) :
    (smerge b.x_off b.nx b.y_off b.ny x xs x_lens unq_x y ys y_lens unq_y starts lens
      mult).starts.length = starts.length ∧
    (smerge b.x_off b.nx b.y_off b.ny x xs x_lens unq_x y ys y_lens unq_y starts lens
      mult).lens.length = lens.length ∧
    (∀ r : Int,
      (∀ is : Int, b.x_off ≤ is → is < b.x_off + b.nx → ¬ InRun xs x.length is r) →
      rd (smerge b.x_off b.nx b.y_off b.ny x xs x_lens unq_x y ys y_lens unq_y starts lens
        mult).starts r = rd starts r ∧
      rd (smerge b.x_off b.nx b.y_off b.ny x xs x_lens unq_x y ys y_lens unq_y starts lens
        mult).lens r = rd lens r) ∧
    (∀ r : Int,
      (r < rd xs b.x_off - 1 ∨
        rd xs (b.x_off + b.nx - 1) - 1 + runLen xs x.length (b.x_off + b.nx - 1) ≤ r) →
      rd (smerge b.x_off b.nx b.y_off b.ny x xs x_lens unq_x y ys y_lens unq_y starts lens
        mult).starts r = rd starts r ∧
      rd (smerge b.x_off b.nx b.y_off b.ny x xs x_lens unq_x y ys y_lens unq_y starts lens
        mult).lens r = rd lens r) ∧
    (∀ c : Batch, 0 ≤ c.x_off → c.x_off + c.nx ≤ xs.length →
      0 ≤ c.y_off → c.y_off + c.ny ≤ ys.length →
      (b.x_off + b.nx ≤ c.x_off ∨ c.x_off + c.nx ≤ b.x_off) →
      ∀ (starts2 lens2 : List Int) (r : Int),
        (rd (smerge b.x_off b.nx b.y_off b.ny x xs x_lens unq_x y ys y_lens unq_y starts lens
            mult).starts r ≠ rd starts r ∨
          rd (smerge b.x_off b.nx b.y_off b.ny x xs x_lens unq_x y ys y_lens unq_y starts lens
            mult).lens r ≠ rd lens r) →
        rd (smerge c.x_off c.nx c.y_off c.ny x xs x_lens unq_x y ys y_lens unq_y starts2 lens2
          mult).starts r = rd starts2 r ∧
        rd (smerge c.x_off c.nx c.y_off c.ny x xs x_lens unq_x y ys y_lens unq_y starts2 lens2
          mult).lens r = rd lens2 r) := by
  have frame : ∀ (c : Batch), 0 ≤ c.x_off → c.x_off + c.nx ≤ xs.length →
      0 ≤ c.y_off → c.y_off + c.ny ≤ ys.length → ∀ (st ln : List Int),
      (smerge c.x_off c.nx c.y_off c.ny x xs x_lens unq_x y ys y_lens unq_y st ln
        mult).starts.length = st.length ∧
      (smerge c.x_off c.nx c.y_off c.ny x xs x_lens unq_x y ys y_lens unq_y st ln
        mult).lens.length = ln.length ∧
      ∀ r : Int,
        (∀ is : Int, c.x_off ≤ is → is < c.x_off + c.nx → ¬ InRun xs x.length is r) →
        rd (smerge c.x_off c.nx c.y_off c.ny x xs x_lens unq_x y ys y_lens unq_y st ln
          mult).starts r = rd st r ∧
        rd (smerge c.x_off c.nx c.y_off c.ny x xs x_lens unq_x y ys y_lens unq_y st ln
          mult).lens r = rd ln r := by
    intro c c0 c1 c2 c3 st ln
    rw [smerge_fold hx hy c.x_off c.nx c.y_off c.ny x_lens y_lens unq_x unq_y st ln mult
      c0 c1 c2 c3 hux huy hxl hyl]
    obtain ⟨p1, p2, p3⟩ := foldl_stepRun_uhit_frame (keyAt x xs) (keyAt y ys) c.y_off c.ny.toNat
      xs x.length ys y.length unq_y mult (runsFrom c.x_off c.nx.toNat)
      ⟨st, ln, 0, true, true, true⟩
    refine ⟨p1, p2, ?_⟩
    intro r h
    apply p3 r
    intro a ha
    rw [mem_runsFrom] at ha
    exact h a ha.1 (by omega)
  obtain ⟨f1, f2, f3⟩ := frame b hb0 hb1 hb2 hb3 starts lens
  refine ⟨f1, f2, f3, ?_, ?_⟩
  · intro r hr
    apply f3 r
    intro is h1 h2
    exact hx.not_inRun_outside b.x_off b.nx hb0 hb1 r hr is h1 h2
  · intro c c0 c1 c2 c3 hdis st ln r hch
    apply (frame c c0 c1 c2 c3 st ln).2.2 r
    intro is2 h1 h2 hin2
    apply hch.elim <;> intro hne <;> apply hne
    · apply (f3 r _).1
      intro is h3 h4 hin
      exact hx.run_disjoint is is2 (by omega) (by omega) (by omega) (by omega) (by omega) r
        hin hin2
    · apply (f3 r _).2
      intro is h3 h4 hin
      exact hx.run_disjoint is is2 (by omega) (by omega) (by omega) (by omega) (by omega) r
        hin hin2

/-- Witness of C19: the worked scenario under ALL, the batch of the left run with
key 2 (rows 1 and 2) against the right run with key 2. -/
theorem batch_local_writes_witness :
    ValidIndex exX exXs ∧ ValidIndex exY exYs ∧
    (false = true ↔ exXs.length = exX.length) ∧ (false = true ↔ exYs.length = exY.length) ∧
    (false = false → ∀ k : Nat, k < exXs.length → rd [1, 2, 1] k = runLen exXs exX.length k) ∧
    (false = false → emult.ALL ≠ emult.FIRST →
      ∀ k : Nat, k < exYs.length → rd [2, 1] k = runLen exYs exY.length k) ∧
    ((smerge 1 1 0 1 exX exXs [1, 2, 1] false exY exYs [2, 1] false exStarts exLens
      emult.ALL).starts.length = exStarts.length ∧
    (smerge 1 1 0 1 exX exXs [1, 2, 1] false exY exYs [2, 1] false exStarts exLens
      emult.ALL).lens.length = exLens.length ∧
    (∀ r : Int,
      (∀ is : Int, 1 ≤ is → is < 1 + 1 → ¬ InRun exXs exX.length is r) →
      rd (smerge 1 1 0 1 exX exXs [1, 2, 1] false exY exYs [2, 1] false exStarts exLens
        emult.ALL).starts r = rd exStarts r ∧
      rd (smerge 1 1 0 1 exX exXs [1, 2, 1] false exY exYs [2, 1] false exStarts exLens
        emult.ALL).lens r = rd exLens r) ∧
    (∀ r : Int,
      (r < rd exXs 1 - 1 ∨ rd exXs (1 + 1 - 1) - 1 + runLen exXs exX.length (1 + 1 - 1) ≤ r) →
      rd (smerge 1 1 0 1 exX exXs [1, 2, 1] false exY exYs [2, 1] false exStarts exLens
        emult.ALL).starts r = rd exStarts r ∧
      rd (smerge 1 1 0 1 exX exXs [1, 2, 1] false exY exYs [2, 1] false exStarts exLens
        emult.ALL).lens r = rd exLens r) ∧
    (∀ c : Batch, 0 ≤ c.x_off → c.x_off + c.nx ≤ exXs.length →
      0 ≤ c.y_off → c.y_off + c.ny ≤ exYs.length →
      (1 + 1 ≤ c.x_off ∨ c.x_off + c.nx ≤ 1) →
      ∀ (starts2 lens2 : List Int) (r : Int),
        (rd (smerge 1 1 0 1 exX exXs [1, 2, 1] false exY exYs [2, 1] false exStarts exLens
            emult.ALL).starts r ≠ rd exStarts r ∨
          rd (smerge 1 1 0 1 exX exXs [1, 2, 1] false exY exYs [2, 1] false exStarts exLens
            emult.ALL).lens r ≠ rd exLens r) →
        rd (smerge c.x_off c.nx c.y_off c.ny exX exXs [1, 2, 1] false exY exYs [2, 1] false
          starts2 lens2 emult.ALL).starts r = rd starts2 r ∧
        rd (smerge c.x_off c.nx c.y_off c.ny exX exXs [1, 2, 1] false exY exYs [2, 1] false
          starts2 lens2 emult.ALL).lens r = rd lens2 r)) :=
  ⟨by decide, by decide, by decide, by decide, by decide, by decide,
    batch_local_writes exX exXs exY exYs (by decide) (by decide) [1, 2, 1] [2, 1] false false
      emult.ALL (by decide) (by decide) (by decide) (by decide) ⟨1, 1, 0, 1⟩
      (by decide) (by decide) (by decide) (by decide) exStarts exLens⟩

/-! ## Claim C20: the specialised scans against the both-grouped scan -/

theorem wr_same_value (a : List Int) (i v : Int) (h : 0 ≤ i → i < a.length → rd a i = v) :
    wr a i v = a := by
  apply list_ext_rd _ _ (length_wr a i v)
  intro k _
  by_cases hk : i = (k : Int)
  · by_cases hr : 0 ≤ i ∧ i < a.length
    · rw [← hk, rd_wr_same a i v hr.1 hr.2, h hr.1 hr.2]
    · subst hk
      unfold wr
      rw [if_neg (by omega)]
      congr 1
      apply List.set_eq_of_length_le
      omega
  · rw [rd_wr_ne a i k v hk]

theorem fillRun_ones (n : Nat) (i0 xl : Int) :
    fillRun (List.replicate n 1) i0 xl 1 = List.replicate n 1 := by
  unfold fillRun
  generalize xl.toNat = t
  induction t with
  | zero => rfl
  | succ t ih =>
    rw [List.range_succ, List.foldl_append, ih]
    simp only [List.foldl_cons, List.foldl_nil]
    apply wr_same_value
    intro h0 h1
    obtain ⟨k, hk⟩ := Int.eq_ofNat_of_zero_le h0
    rw [hk]
    rw [hk, List.length_replicate] at h1
    exact rd_replicate n 1 k (by exact_mod_cast h1)

theorem scan_congr_inv (ni nj i0 j0 : Int) (kx ky : Int → Int)
    (hit hit' : Int → Int → JoinState → JoinState) (P : JoinState → Prop)
    (hP : ∀ i j s, P s → P (hit i j s))
    (hh : ∀ i j s, i0 ≤ i → i < ni → j0 ≤ j → j < nj → P s → hit i j s = hit' i j s) :
    ∀ (fuel : Nat) (i j : Int) (s : JoinState), i0 ≤ i → j0 ≤ j → P s →
      scan ni nj kx ky hit fuel i j s = scan ni nj kx ky hit' fuel i j s := by
  intro fuel
  induction fuel with
  | zero => intro i j s _ _ _; rfl
  | succ fuel ih =>
    intro i j s hi hj hs
    unfold scan
    by_cases hc : i < ni ∧ j < nj
    · rw [if_pos hc, if_pos hc, ← hh i j s hi hc.1 hj hc.2 hs,
        ih (i + 1) j _ (by omega) hj (hP i j s hs), ih (i + 1) j s (by omega) hj hs,
        ih i (j + 1) s hi (by omega) hs, ih i j s hi hj hs]
    · rw [if_neg hc, if_neg hc]

theorem uhit_unq_irrelevant {y ys : List Int} (hy : ValidIndex y ys)
    (hu : (ys.length : Int) = y.length) (xs : List Int) (nx : Int) (n : Nat) (mult : emult)
    (is js : Int) (h0 : 0 ≤ js) (h1 : js < ys.length) (s : JoinState)
    (hs : s.lens = List.replicate n 1) :
    uhit xs nx ys y.length true mult is js s = uhit xs nx ys y.length false mult is js s := by
  obtain ⟨_, uy2, _⟩ := hy.int_unique hu js h0 h1
  have e : fillRun s.lens (rd xs is - 1) (runLen xs nx is) (runLen ys y.length js) = s.lens := by
    rw [uy2, hs, fillRun_ones]
  cases mult
  · simp only [uhit, e, if_true, Bool.false_eq_true, if_false]
  · rfl
  · rfl
  · simp only [uhit, e, if_true, Bool.false_eq_true, if_false]

/-- Claim C20: on valid input with `lens` seeded with ones, for every policy and
every batch inside the two indices, `smerge` called with the uniqueness flags
of the input (the specialised branch when a side is unique) returns the same
`starts`, `lens`, match count and three flags as `smerge` called with both
flags off (the both-grouped branch) and the run lengths of each unique side
given as all ones. -/
theorem specializations_agree (x xs y ys : List Int)
    (hx : ValidIndex x xs) (hy : ValidIndex y ys)
    (x_lens y_lens : List Int) (unq_x unq_y : Bool) (mult : emult)
    (hux : unq_x = true ↔ xs.length = x.length)
    (huy : unq_y = true ↔ ys.length = y.length)
    (hxl : unq_x = false → ∀ k : Nat, k < xs.length → rd x_lens k = runLen xs x.length k)
    (hyl : unq_y = false → mult ≠ emult.FIRST →
      ∀ k : Nat, k < ys.length → rd y_lens k = runLen ys y.length k)
    (b : Batch) (hb0 : 0 ≤ b.x_off) (hb1 : b.x_off + b.nx ≤ xs.length)
    (hb2 : 0 ≤ b.y_off) (hb3 : b.y_off + b.ny ≤ ys.length)
    (starts : List Int) :
    smerge b.x_off b.nx b.y_off b.ny x xs x_lens unq_x y ys y_lens unq_y
        starts (List.replicate x.length 1) mult
      = smerge b.x_off b.nx b.y_off b.ny
          x xs (if unq_x then List.replicate xs.length 1 else x_lens) false
          y ys (if unq_y then List.replicate ys.length 1 else y_lens) false
          starts (List.replicate x.length 1) mult := by
  have hux' : unq_x = true → (xs.length : Int) = x.length := fun h => by
    exact_mod_cast hux.mp h
  have huy' : unq_y = true → (ys.length : Int) = y.length := fun h => by
    exact_mod_cast huy.mp h
  rw [smerge_eq_uscan_of hx hy b.x_off b.nx b.y_off b.ny x_lens y_lens unq_x unq_y starts _ mult
    hb0 hb1 hb2 hb3 hux' huy'
    (fun hu i h0 h1 => by
      obtain ⟨k, rfl⟩ := Int.eq_ofNat_of_zero_le h0
      exact hxl hu k (by exact_mod_cast h1))
    (fun hu hm j h0 h1 => by
      obtain ⟨k, rfl⟩ := Int.eq_ofNat_of_zero_le h0
      exact hyl hu hm k (by exact_mod_cast h1))]
  rw [smerge_eq_uscan_of hx hy b.x_off b.nx b.y_off b.ny _ _ false false starts _ mult
    hb0 hb1 hb2 hb3 (fun h => by cases h) (fun h => by cases h)
    (fun _ i h0 h1 => by
      obtain ⟨k, rfl⟩ := Int.eq_ofNat_of_zero_le h0
      have hk : k < xs.length := by exact_mod_cast h1
      cases hc : unq_x
      · simp only [Bool.false_eq_true, if_false]
        exact hxl hc k hk
      · simp only [if_true]
        rw [rd_replicate _ _ _ hk, (hx.int_unique (hux' hc) k h0 h1).2.1])
    (fun _ hm j h0 h1 => by
      obtain ⟨k, rfl⟩ := Int.eq_ofNat_of_zero_le h0
      have hk : k < ys.length := by exact_mod_cast h1
      cases hc : unq_y
      · simp only [Bool.false_eq_true, if_false]
        exact hyl hc hm k hk
      · simp only [if_true]
        rw [rd_replicate _ _ _ hk, (hy.int_unique (huy' hc) k h0 h1).2.1])]
  cases hc : unq_y
  · rfl
  · apply scan_congr_inv (b.x_off + b.nx) (b.y_off + b.ny) b.x_off b.y_off _ _ _ _
      (fun s => s.lens = List.replicate x.length 1)
    · intro i j s hs
      rw [uhit_lens]
      have : writesLens true mult = false := by cases mult <;> rfl
      rw [this]
      exact hs
    · intro i j s _ _ h3 h4 hs
      exact uhit_unq_irrelevant hy (huy' hc) xs x.length x.length mult i j (by omega) (by omega)
        s hs
    · exact le_refl _
    · exact le_refl _
    · rfl

/-- Witness of C20: a left column with a duplicate key against a unique right
column, under LAST. -/
theorem specializations_agree_witness :
    ValidIndex exX exXs ∧ ValidIndex [2, 3, 5] [1, 2, 3] ∧
    (false = true ↔ exXs.length = exX.length) ∧
    (true = true ↔ [1, 2, 3].length = [2, 3, 5].length) ∧
    (false = false → ∀ k : Nat, k < exXs.length → rd [1, 2, 1] k = runLen exXs exX.length k) ∧
    (true = false → emult.LAST ≠ emult.FIRST →
      ∀ k : Nat, k < [1, 2, 3].length → rd [] k = runLen [1, 2, 3] [2, 3, 5].length k) ∧
    smerge 0 3 0 3 exX exXs [1, 2, 1] false [2, 3, 5] [1, 2, 3] [] true
        exStarts (List.replicate exX.length 1) emult.LAST
      = smerge 0 3 0 3
          exX exXs (if false then List.replicate exXs.length 1 else [1, 2, 1]) false
          [2, 3, 5] [1, 2, 3] (if true then List.replicate [1, 2, 3].length 1 else []) false
          exStarts (List.replicate exX.length 1) emult.LAST :=
  ⟨by decide, by decide, by decide, by decide, by decide, by decide,
    specializations_agree exX exXs [2, 3, 5] [1, 2, 3] (by decide) (by decide) [1, 2, 1] []
      false true emult.LAST (by decide) (by decide) (by decide) (by decide) ⟨0, 3, 0, 3⟩
      (by decide) (by decide) (by decide) (by decide) exStarts⟩

/-! ## Claims C11 and C12: batch counts that `batching` cannot serve -/

/-- When the first `nBatch-1` balanced batches hold more runs than there are,
the `size_t` subtraction for the last batch wraps, the test
`(nBatch-1)*batchSize + lastBatchSize != nx_starts` compares `nx_starts` with
itself modulo `2^64`, and `batching` returns its batches without an error. -/
theorem batching_wraps (x xs y ys : List Int) (ny : Int) (k n : Nat) (hn1 : 1 ≤ n)
    (hn : n < 2 ^ 31) (hP : n < k * ((n - 1) / (k + 1) + 1))
    (hk : k * ((n - 1) / (k + 1) + 1) < 2 ^ 63) :
    batching ((k + 1 : Nat) : Int) x xs (n : Int) y ys ny
      = Except.ok ((List.range (k + 1)).map (fun (b : Nat) =>
          batchOf ((k + 1 : Nat) : Int) ((n - 1) / (k + 1) + 1)
            (U64 - (k * ((n - 1) / (k + 1) + 1) - n)) x xs n y ys ny (b : Int))) := by
  unfold batching
  simp only [batchSize_eq k n hn1 hn]
  have e1 : toU64 (((k + 1 : Nat) : Int) - 1) = k := by
    have : (((k + 1 : Nat) : Int) - 1) = (k : Int) := by push_cast; ring
    rw [this]; apply toU64_natCast
    have : 1 ≤ (n - 1) / (k + 1) + 1 := Nat.le_add_left 1 _
    have : k * 1 ≤ k * ((n - 1) / (k + 1) + 1) := Nat.mul_le_mul_left _ this
    omega
  have e2 : toU64 (n : Int) = n := toU64_natCast n (by omega)
  simp only [e1, e2]
  generalize k * ((n - 1) / (k + 1) + 1) = P at hP hk
  have e3 : (n + U64 - P % U64) % U64 = U64 - (P - n) := by unfold U64; omega
  rw [e3]
  have e4 : ¬ (U64 - (P - n) = 0 ∨ (P % U64 + (U64 - (P - n))) % U64 ≠ n) := by
    unfold U64; omega
  rw [if_neg e4]
  simp

theorem batchOf_x_fields (K : Int) (sz lsz : Nat) (x xs : List Int) (n : Int) (y ys : List Int)
    (ny i : Int) :
    (batchOf K sz lsz x xs n y ys ny i).x_off
      = (if i < K - 1 then toInt32 ((toU64 i * sz) % U64)
          else toInt32 ((toU64 n + U64 - lsz) % U64)) ∧
    (batchOf K sz lsz x xs n y ys ny i).nx
      = (if i < K - 1 then toInt32 sz else toInt32 lsz) :=
  ⟨rfl, rfl⟩

theorem pairwise_seqIndex (n : Nat) : (seqIndex n).Pairwise (· < ·) := by
  unfold seqIndex
  rw [List.pairwise_map]
  apply List.Pairwise.imp _ (List.pairwise_lt_range n)
  intro a b h
  omega

/-- C11 fails on the code: with 32 threads and 1025 left runs `smergeC` asks for
64 batches; the batch size is 17, the first 63 batches would hold 1071 runs, the
subtraction for the last batch wraps, and `batching` returns without an error a
"partition" whose last batch has size `-46` and starts at run 1071, and whose
batches 60 to 62 reach past the last run. -/
theorem batching_silent_wrap :
    nBatchFor 32 1025 = 64 ∧
    ∃ bs, batching 64 (seqIndex 1025) (seqIndex 1025) 1025 [1] [1] 1 = Except.ok bs ∧
      bs.map Batch.nx = List.replicate 63 17 ++ [-46] ∧
      bs.map Batch.x_off = (List.range 63).map (fun (b : Nat) => 17 * (b : Int)) ++ [1071] := by
  have h : batching 64 (seqIndex 1025) (seqIndex 1025) 1025 [1] [1] 1
      = Except.ok ((List.range 64).map (fun (b : Nat) =>
          batchOf 64 17 (U64 - 46) (seqIndex 1025) (seqIndex 1025) 1025 [1] [1] 1 (b : Int))) :=
    batching_wraps (seqIndex 1025) (seqIndex 1025) [1] [1] 1 63 1025 (by norm_num) (by norm_num)
      (by norm_num) (by norm_num)
  refine ⟨by decide, _, h, ?_, ?_⟩
  · rw [List.map_map]
    decide
  · rw [List.map_map]
    decide

/-- C12 fails on the code: with 17 threads and 1056 left runs `smergeC` asks for
34 batches; the batch size is 32, the first 33 batches use up the 1056 runs, the
last batch would be empty, and the call ends in the internal error of
`batching`, while the same valid input with one thread returns the join. -/
theorem worker_budget_internal_error :
    ValidIndex (seqIndex 1056) (seqIndex 1056) ∧ ValidIndex [1] [1] ∧
    nBatchFor 17 1056 = 34 ∧
    smergeC 17 (seqIndex 1056) 1056 (seqIndex 1056) 1056 [1] 1 [1] 1
        (List.replicate 1056 NA_INTEGER) (List.replicate 1056 1) emult.ALL
      = Except.error SmergeError.internalBatching ∧
    ∃ out, smergeC 1 (seqIndex 1056) 1056 (seqIndex 1056) 1056 [1] 1 [1] 1
        (List.replicate 1056 NA_INTEGER) (List.replicate 1056 1) emult.ALL
      = Except.ok out := by
  have hv : ValidIndex (seqIndex 1056) (seqIndex 1056) := by
    have h := validIndex_seq (seqIndex 1056)
      (by intro h; have := congrArg List.length h; rw [length_seqIndex] at this; cases this)
      (pairwise_seqIndex 1056) (by rw [length_seqIndex]; norm_num)
    rw [length_seqIndex] at h
    exact h
  have hy : ValidIndex [1] [1] := by decide
  have hK : nBatchFor 17 1056 = 34 := by decide
  refine ⟨hv, hy, hK, ?_, ?_⟩
  · unfold smergeC smergeCWith
    rw [hK]
    have hb : batching 34 (seqIndex 1056) (seqIndex 1056) 1056 [1] [1] 1
        = Except.error SmergeError.internalBatching :=
      batching_refuses (seqIndex 1056) (seqIndex 1056) [1] [1] 1 33 1056 (by norm_num)
        (by norm_num) (by norm_num)
    simp only [hb]
  · have h := smergeC_ok hv hy 1
      (batchCountOK_single 1 _ (by rw [length_seqIndex]; norm_num) (Or.inl rfl))
      (List.replicate 1056 NA_INTEGER) (List.replicate 1056 1) emult.ALL (fun h => by cases h)
    rw [length_seqIndex] at h
    exact ⟨_, h⟩

/-! ## Claim C21: the match counter is exact -/

/-- A batch count that `batching` serves: `batching` returns, each batch is
good, and the batches taken in order hold the left runs `0 .. n-1`. -/
theorem batching_good {x xs y ys : List Int} (hx : ValidIndex x xs) (hy : ValidIndex y ys)
    (K : Int) (hK : BatchCountOK K xs.length) :
    ∃ bs, batching K x xs xs.length y ys ys.length = Except.ok bs ∧
      (∀ b ∈ bs, GoodBatch x xs y ys b) ∧ allRuns bs = runsFrom 0 xs.length := by
  obtain ⟨hK1, hK2⟩ := hK
  have hn1 : 1 ≤ xs.length := hx.2.1
  have hsz : xs.length < 2 ^ 31 := by
    have h1 := hx.start_le 0 hx.2.1
    have h2 := hx.2.2.1
    have h3 := hx.1
    simp only [Nat.cast_zero] at h1
    omega
  obtain ⟨k, rfl⟩ : ∃ k : Nat, K = ((k + 1 : Nat) : Int) := ⟨(K - 1).toNat, by omega⟩
  have hP : k * ((xs.length - 1) / (k + 1) + 1) < xs.length := by
    have e1 : (((k + 1 : Nat) : Int) - 1) = (k : Int) := by push_cast; ring
    have e2 : ((xs.length : Int) - 1) = ((xs.length - 1 : Nat) : Int) := by omega
    rw [e1, e2] at hK2
    exact_mod_cast hK2
  refine ⟨_, batching_eq x xs y ys ys.length k xs.length hsz hP, ?_, ?_⟩
  · intro b hb
    rw [List.mem_map] at hb
    obtain ⟨b', hb', rfl⟩ := hb
    rw [List.mem_range] at hb'
    exact (batchOf_good hx hy k hP b' (by omega)).1
  · exact allRuns_partition _ k xs.length _ hP
      (fun b hb => (batchOf_good hx hy k hP b hb).2.1)
      (fun b hb => (batchOf_good hx hy k hP b hb).2.2)

/-- The exact count over all left rows is at most `nx * ny`, which fits the
64-bit counter. -/
theorem total_count_le {x xs y ys : List Int} (hx : ValidIndex x xs) (hy : ValidIndex y ys)
    (mult : emult) :
    ∑ r ∈ Finset.range x.length, rowMatches y mult (rd x r) ≤ x.length * y.length ∧
    x.length * y.length < 2 ^ 64 := by
  constructor
  · have hb : ∑ r ∈ Finset.range x.length, rowMatches y mult (rd x r)
        ≤ ∑ _r ∈ Finset.range x.length, y.length :=
      Finset.sum_le_sum (fun r _ => by rw [← rowCount_eq hy]; exact rowCount_le hy mult _)
    simpa only [Finset.sum_const, Finset.card_range, smul_eq_mul] using hb
  · have h1 := hx.1
    have h2 := hy.1
    have h3 : x.length * y.length ≤ 2 ^ 31 * 2 ^ 31 := Nat.mul_le_mul (by omega) (by omega)
    omega

/-- The exact count over the left runs of a range of runs, in terms of the
columns alone, is at most the exact count over all left rows. -/
theorem range_count_le {x xs y ys : List Int} (hx : ValidIndex x xs) (hy : ValidIndex y ys)
    (mult : emult) (lo : Int) (n : Nat) (h0 : 0 ≤ lo) (h1 : lo + n ≤ xs.length) :
    ∑ t ∈ Finset.range n,
        (runLen xs x.length (lo + t)).toNat * rowCount y ys mult (keyAt x xs (lo + t))
      = ∑ t ∈ Finset.range n,
        x.count (keyAt x xs (lo + t)) * rowMatches y mult (keyAt x xs (lo + t)) ∧
    ∑ t ∈ Finset.range n,
        x.count (keyAt x xs (lo + t)) * rowMatches y mult (keyAt x xs (lo + t))
      ≤ ∑ r ∈ Finset.range x.length, rowMatches y mult (rd x r) := by
  obtain ⟨l, rfl⟩ := Int.eq_ofNat_of_zero_le h0
  have hl : l + n ≤ xs.length := by exact_mod_cast h1
  have e : ∀ t ∈ Finset.range n,
      (runLen xs x.length ((l : Int) + t)).toNat * rowCount y ys mult (keyAt x xs ((l : Int) + t))
        = x.count (keyAt x xs ((l : Int) + t))
          * rowMatches y mult (keyAt x xs ((l : Int) + t)) := by
    intro t ht
    have ht' : l + t < xs.length := by have := Finset.mem_range.mp ht; omega
    have h := hx.runLen_eq_count (l + t) ht'
    push_cast at h
    rw [h, rowCount_eq hy]
    simp
  refine ⟨Finset.sum_congr rfl e, ?_⟩
  rw [← Finset.sum_congr rfl e]
  have hs := hx.sum_rows (rowCount y ys mult) xs.length (le_refl _)
  rw [startRow_length] at hs
  have hr : ∑ r ∈ Finset.range x.length, rowMatches y mult (rd x r)
      = ∑ r ∈ Finset.range x.length, rowCount y ys mult (rd x r) :=
    Finset.sum_congr rfl (fun r _ => (rowCount_eq hy mult _).symm)
  rw [hr, hs]
  have hsub : ∑ k ∈ Finset.range (l + n),
        (runLen xs x.length k).toNat * rowCount y ys mult (keyAt x xs k)
      ≤ ∑ k ∈ Finset.range xs.length,
        (runLen xs x.length k).toNat * rowCount y ys mult (keyAt x xs k) :=
    Finset.sum_le_sum_of_subset (Finset.range_mono hl)
  rw [Finset.sum_range_add] at hsub
  have e2 : ∀ t : Nat, (((l + t : Nat) : Int)) = (l : Int) + t := fun t => by push_cast; rfl
  simp only [e2] at hsub
  omega

/-- C21, restricted to the batch counts that `batching` serves: on valid input
(sizes below `2^31`, a batch count that `batching`
serves) the 64-bit counter never wraps: the count returned by `smerge` for each
batch is the exact count of the matches of the left runs of the batch, the sum
that `smergeC` accumulates over the batches modulo `2^64` is the exact count over
all left rows, and that count is at most `nx * ny < 2^64`. -/
theorem match_counter_exact (x xs y ys : List Int)
    (hx : ValidIndex x xs) (hy : ValidIndex y ys)
    (K : Int) (hK : BatchCountOK K xs.length)
    (x_lens y_lens : List Int) (unq_x unq_y : Bool) (mult : emult)
    (hux : unq_x = true ↔ xs.length = x.length)
    (huy : unq_y = true ↔ ys.length = y.length)
    (hxl : unq_x = false → ∀ k : Nat, k < xs.length → rd x_lens k = runLen xs x.length k)
    (hyl : unq_y = false → mult ≠ emult.FIRST →
      ∀ k : Nat, k < ys.length → rd y_lens k = runLen ys y.length k) :
    (∑ r ∈ Finset.range x.length, rowMatches y mult (rd x r) ≤ x.length * y.length ∧
      x.length * y.length < 2 ^ 64) ∧
    ∃ bs, batching K x xs xs.length y ys ys.length = Except.ok bs ∧
      (∀ b ∈ bs, ∀ starts lens : List Int,
        (smerge b.x_off b.nx b.y_off b.ny x xs x_lens unq_x y ys y_lens unq_y starts lens
          mult).cnt
          = ∑ t ∈ Finset.range b.nx.toNat,
              x.count (keyAt x xs (b.x_off + t)) * rowMatches y mult (keyAt x xs (b.x_off + t))) ∧
      (∀ starts lens : List Int,
        (runBatches x xs x_lens unq_x y ys y_lens unq_y mult bs
          ⟨starts, lens, 0, true, true, true⟩).cnt
          = ∑ r ∈ Finset.range x.length, rowMatches y mult (rd x r)) := by
  have hux' : unq_x = true ↔ (xs.length : Int) = x.length := by
    rw [hux]; exact Nat.cast_inj.symm
  have huy' : unq_y = true ↔ (ys.length : Int) = y.length := by
    rw [huy]; exact Nat.cast_inj.symm
  have hxl' : unq_x = false → ∀ i : Int, 0 ≤ i → i < xs.length →
      rd x_lens i = runLen xs x.length i := fun hu i h0 h1 => by
    obtain ⟨k, rfl⟩ := Int.eq_ofNat_of_zero_le h0
    exact hxl hu k (by exact_mod_cast h1)
  have hyl' : unq_y = false → mult ≠ emult.FIRST → ∀ j : Int, 0 ≤ j → j < ys.length →
      rd y_lens j = runLen ys y.length j := fun hu hm j h0 h1 => by
    obtain ⟨k, rfl⟩ := Int.eq_ofNat_of_zero_le h0
    exact hyl hu hm k (by exact_mod_cast h1)
  have hU : (0 : Nat) < U64 := by unfold U64; norm_num
  obtain ⟨hle, hlt⟩ := total_count_le hx hy mult
  obtain ⟨bs, hbs, hgood, hall⟩ := batching_good hx hy K hK
  refine ⟨⟨hle, hlt⟩, bs, hbs, ?_, ?_⟩
  · intro b hb starts lens
    obtain ⟨g1, g2, g3, g4, g5⟩ := hgood b hb
    rw [smerge_batch hx hy b.x_off b.nx b.y_off b.ny x_lens y_lens unq_x unq_y starts lens mult
      g1 g2 g3 g4 g5 hux' huy' hxl' hyl']
    rw [foldl_joinStep_cnt x xs y ys unq_y mult b.nx.toNat b.x_off _ hU]
    simp only [zero_add]
    by_cases hnx : 0 ≤ b.nx
    · obtain ⟨e1, e2⟩ := range_count_le hx hy mult b.x_off b.nx.toNat g1 (by omega)
      rw [e1]
      apply Nat.mod_eq_of_lt
      unfold U64
      omega
    · have e0 : b.nx.toNat = 0 := by omega
      rw [e0]
      simp
  · intro starts lens
    rw [runBatches_eq hx hy x_lens y_lens unq_x unq_y mult hux' huy' hxl' hyl' bs _ hgood hU,
      hall]
    have h := joinSpec_cnt hx hy unq_y mult starts lens
    unfold joinSpec at h
    rw [h]
    exact Finset.sum_congr rfl (fun r _ => rowCount_eq hy mult _)

/-- Instance of the restricted C21: the worked scenario under ALL, cut into two batches. -/
theorem match_counter_exact_witness :
    ValidIndex exX exXs ∧ ValidIndex exY exYs ∧ BatchCountOK 2 exXs.length ∧
    (false = true ↔ exXs.length = exX.length) ∧ (false = true ↔ exYs.length = exY.length) ∧
    (false = false → ∀ k : Nat, k < exXs.length → rd [1, 2, 1] k = runLen exXs exX.length k) ∧
    (false = false → emult.ALL ≠ emult.FIRST →
      ∀ k : Nat, k < exYs.length → rd [2, 1] k = runLen exYs exY.length k) ∧
    ((∑ r ∈ Finset.range exX.length, rowMatches exY emult.ALL (rd exX r)
        ≤ exX.length * exY.length ∧ exX.length * exY.length < 2 ^ 64) ∧
    ∃ bs, batching 2 exX exXs exXs.length exY exYs exYs.length = Except.ok bs ∧
      (∀ b ∈ bs, ∀ starts lens : List Int,
        (smerge b.x_off b.nx b.y_off b.ny exX exXs [1, 2, 1] false exY exYs [2, 1] false
          starts lens emult.ALL).cnt
          = ∑ t ∈ Finset.range b.nx.toNat,
              exX.count (keyAt exX exXs (b.x_off + t))
                * rowMatches exY emult.ALL (keyAt exX exXs (b.x_off + t))) ∧
      (∀ starts lens : List Int,
        (runBatches exX exXs [1, 2, 1] false exY exYs [2, 1] false emult.ALL bs
          ⟨starts, lens, 0, true, true, true⟩).cnt
          = ∑ r ∈ Finset.range exX.length, rowMatches exY emult.ALL (rd exX r))) :=
  ⟨by decide, by decide, by decide, by decide, by decide, by decide, by decide,
    match_counter_exact exX exXs exY exYs (by decide) (by decide) 2 (by decide) [1, 2, 1] [2, 1]
      false false emult.ALL (by decide) (by decide) (by decide) (by decide)⟩

/-! ## Claim C22: absent run lengths are never read -/

/-- The result of `smerge` does not depend on `x_lens` when `unq_x` is set, nor
on `y_lens` when `unq_y` is set or the policy is FIRST. -/
theorem smerge_lens_irrelevant (bx_off bnx by_off bny : Int)
    (x x_starts x_lens x_lens2 : List Int) (unq_x : Bool)
    (y y_starts y_lens y_lens2 : List Int) (unq_y : Bool)
    (starts lens : List Int) (mult : emult)
    (hxl : unq_x = false → x_lens2 = x_lens)
    (hyl : unq_y = false → mult ≠ emult.FIRST → y_lens2 = y_lens) :
    smerge bx_off bnx by_off bny x x_starts x_lens unq_x y y_starts y_lens unq_y starts lens mult
      = smerge bx_off bnx by_off bny x x_starts x_lens2 unq_x y y_starts y_lens2 unq_y
          starts lens mult := by
  have hx2 : unq_x = true ∨ x_lens2 = x_lens := by
    cases unq_x
    · exact Or.inr (hxl rfl)
    · exact Or.inl rfl
  have hy2 : unq_y = true ∨ mult = emult.FIRST ∨ y_lens2 = y_lens := by
    cases unq_y
    · by_cases hm : mult = emult.FIRST
      · exact Or.inr (Or.inl hm)
      · exact Or.inr (Or.inr (hyl rfl hm))
    · exact Or.inl rfl
  rcases hx2 with h1 | h1
  · subst h1
    rcases hy2 with h2 | h2 | h2
    · subst h2; cases mult <;> rfl
    · subst h2; cases unq_y <;> rfl
    · subst h2; cases unq_y <;> cases mult <;> rfl
  · subst h1
    rcases hy2 with h2 | h2 | h2
    · subst h2; cases unq_x <;> cases mult <;> rfl
    · subst h2; cases unq_x <;> cases unq_y <;> rfl
    · subst h2; rfl

theorem runBatches_lens_irrelevant (x x_starts x_lens x_lens2 : List Int) (unq_x : Bool)
    (y y_starts y_lens y_lens2 : List Int) (unq_y : Bool) (mult : emult)
    (hxl : unq_x = false → x_lens2 = x_lens)
    (hyl : unq_y = false → mult ≠ emult.FIRST → y_lens2 = y_lens) :
    ∀ (bs : List Batch) (acc : JoinState),
      runBatches x x_starts x_lens unq_x y y_starts y_lens unq_y mult bs acc
        = runBatches x x_starts x_lens2 unq_x y y_starts y_lens2 unq_y mult bs acc := by
  intro bs
  induction bs with
  | nil => intro acc; rfl
  | cons b bs ih =>
    intro acc
    simp only [runBatches]
    rw [smerge_lens_irrelevant b.x_off b.nx b.y_off b.ny x x_starts x_lens x_lens2 unq_x
      y y_starts y_lens y_lens2 unq_y acc.starts acc.lens mult hxl hyl, ih]

theorem scanChecked_total (ni nj : Int) (kx ky : Int → Int)
    (hit : Int → Int → JoinState → JoinState)
    (hitC : Int → Int → JoinState → Option JoinState)
    (h : ∀ i j s, hitC i j s = some (hit i j s)) :
    ∀ (fuel : Nat) (i j : Int) (s : JoinState),
      scanChecked ni nj kx ky hitC fuel i j s = some (scan ni nj kx ky hit fuel i j s) := by
  intro fuel
  induction fuel with
  | zero => intro i j s; rfl
  | succ fuel ih =>
    intro i j s
    unfold scanChecked scan
    by_cases hc : i < ni ∧ j < nj
    · rw [if_pos hc, if_pos hc, h i j s]
      simp only [ih]
      split_ifs <;> rfl
    · rw [if_neg hc, if_neg hc]

/-- With `x_lens` present whenever `unq_x` is off and `y_lens` present whenever
`unq_y` is off and the policy is not FIRST, `smerge` reads no absent array,
and returns what the unchecked embedding returns. -/
theorem smergeChecked_eq (bx_off bnx by_off bny : Int)
    (x x_starts : List Int) (x_lens : Option (List Int)) (unq_x : Bool)
    (y y_starts : List Int) (y_lens : Option (List Int)) (unq_y : Bool)
    (starts lens : List Int) (mult : emult)
    (hxl : unq_x = false → x_lens.isSome = true)
    (hyl : unq_y = false → mult ≠ emult.FIRST → y_lens.isSome = true) :
    smergeChecked bx_off bnx by_off bny x x_starts x_lens unq_x y y_starts y_lens unq_y
        starts lens mult
      = some (smerge bx_off bnx by_off bny x x_starts (x_lens.getD []) unq_x
          y y_starts (y_lens.getD []) unq_y starts lens mult) := by
  have hx2 : unq_x = true ∨ ∃ xl, x_lens = some xl := by
    cases unq_x
    · right
      cases x_lens with
      | none => exact absurd (hxl rfl) (by simp)
      | some xl => exact ⟨xl, rfl⟩
    · exact Or.inl rfl
  have hy2 : unq_y = true ∨ mult = emult.FIRST ∨ ∃ yl, y_lens = some yl := by
    cases unq_y
    · by_cases hm : mult = emult.FIRST
      · exact Or.inr (Or.inl hm)
      · right; right
        cases y_lens with
        | none => exact absurd (hyl rfl hm) (by simp)
        | some yl => exact ⟨yl, rfl⟩
    · exact Or.inl rfl
  rcases hx2 with h1 | ⟨xl, h1⟩
  · subst h1
    rcases hy2 with h2 | h2 | ⟨yl, h2⟩
    · subst h2
      exact scanChecked_total _ _ _ _ _ _ (fun _ _ _ => rfl) _ _ _ _
    · subst h2
      cases unq_y <;> exact scanChecked_total _ _ _ _ _ _ (fun _ _ _ => rfl) _ _ _ _
    · subst h2
      cases unq_y <;> cases mult <;>
        exact scanChecked_total _ _ _ _ _ _ (fun _ _ _ => rfl) _ _ _ _
  · subst h1
    rcases hy2 with h2 | h2 | ⟨yl, h2⟩
    · subst h2
      cases unq_x <;> exact scanChecked_total _ _ _ _ _ _ (fun _ _ _ => rfl) _ _ _ _
    · subst h2
      cases unq_x <;> cases unq_y <;>
        exact scanChecked_total _ _ _ _ _ _ (fun _ _ _ => rfl) _ _ _ _
    · subst h2
      cases unq_x <;> cases unq_y <;> cases mult <;>
        exact scanChecked_total _ _ _ _ _ _ (fun _ _ _ => rfl) _ _ _ _

theorem xLensOf_getD (x_starts : List Int) (nx_starts nx : Int) :
    (xLensOf x_starts nx_starts nx).getD []
      = if (!decide (nx_starts = nx)) = true then
          grpLens x_starts nx_starts nx (List.replicate nx_starts.toNat 0)
        else [] := by
  unfold xLensOf
  by_cases h : nx_starts = nx <;> simp [h]

theorem yLensOf_getD (y_starts : List Int) (ny_starts ny : Int) (mult : emult) :
    (yLensOf y_starts ny_starts ny mult).getD []
      = if (!(decide (ny_starts = ny) || decide (mult = emult.FIRST))) = true then
          grpLens y_starts ny_starts ny (List.replicate ny_starts.toNat 0)
        else [] := by
  unfold yLensOf
  by_cases h : ny_starts = ny <;> by_cases hm : mult = emult.FIRST <;> simp [h, hm]

/-- Claim C22: with a read of an absent run-length array made observable (the
result `none` of `smergeChecked`), `smerge` reads `x_lens` only when `unq_x` is
off and `y_lens` only when `unq_y` is off and the policy is not FIRST: whenever
the arrays these two conditions call for are present, the call reads no absent
array and returns the result of `smerge`.  `smergeC` leaves `x_lens` null exactly
for a unique left column and `y_lens` null exactly for a unique right column or
under FIRST (`xLensOf`, `yLensOf`), so no `smerge` call it makes, for whatever
batch and output arrays, reads an absent array. -/
theorem absent_lens_never_read (bx_off bnx by_off bny : Int)
    (x x_starts : List Int) (x_lens : Option (List Int)) (unq_x : Bool)
    (y y_starts : List Int) (y_lens : Option (List Int)) (unq_y : Bool)
    (starts lens : List Int) (mult : emult)
    (hxl : unq_x = false → x_lens.isSome = true)
    (hyl : unq_y = false → mult ≠ emult.FIRST → y_lens.isSome = true) :
    smergeChecked bx_off bnx by_off bny x x_starts x_lens unq_x y y_starts y_lens unq_y
        starts lens mult
      = some (smerge bx_off bnx by_off bny x x_starts (x_lens.getD []) unq_x
          y y_starts (y_lens.getD []) unq_y starts lens mult) ∧
    ∀ (nx nx_starts ny ny_starts : Int) (b : Batch) (st ln : List Int),
      smergeChecked b.x_off b.nx b.y_off b.ny
          x x_starts (xLensOf x_starts nx_starts nx) (decide (nx_starts = nx))
          y y_starts (yLensOf y_starts ny_starts ny mult) (decide (ny_starts = ny))
          st ln mult
        = some (smerge b.x_off b.nx b.y_off b.ny
            x x_starts
            (if (!decide (nx_starts = nx)) = true then
              grpLens x_starts nx_starts nx (List.replicate nx_starts.toNat 0) else [])
            (decide (nx_starts = nx))
            y y_starts
            (if (!(decide (ny_starts = ny) || decide (mult = emult.FIRST))) = true then
              grpLens y_starts ny_starts ny (List.replicate ny_starts.toNat 0) else [])
            (decide (ny_starts = ny))
            st ln mult) := by
  refine ⟨smergeChecked_eq bx_off bnx by_off bny x x_starts x_lens unq_x y y_starts y_lens
    unq_y starts lens mult hxl hyl, ?_⟩
  intro nx nx_starts ny ny_starts b st ln
  rw [← xLensOf_getD, ← yLensOf_getD]
  apply smergeChecked_eq
  · intro h
    have h2 : ¬ nx_starts = nx := by simpa using h
    simp [xLensOf, h2]
  · intro h hm
    have h2 : ¬ ny_starts = ny := by simpa using h
    simp [yLensOf, h2, hm]

/-- Witness of C22: a unique left column under FIRST, neither run-length array
allocated: the call reads no absent array.  The check is not vacuous: on the
worked scenario under ALL, with the left column grouped and `x_lens` absent,
the first match reads the absent array. -/
theorem absent_lens_never_read_witness :
    (true = false → (none : Option (List Int)).isSome = true) ∧
    (false = false → emult.FIRST ≠ emult.FIRST → (none : Option (List Int)).isSome = true) ∧
    smergeChecked 0 3 0 2 [2, 3, 5] [1, 2, 3] none true exY exYs none false
        [NA_INTEGER, NA_INTEGER, NA_INTEGER] [1, 1, 1] emult.FIRST
      = some (smerge 0 3 0 2 [2, 3, 5] [1, 2, 3] [] true exY exYs [] false
        [NA_INTEGER, NA_INTEGER, NA_INTEGER] [1, 1, 1] emult.FIRST) ∧
    smergeChecked 0 3 0 2 exX exXs none false exY exYs (some [2, 1]) false
        exStarts exLens emult.ALL = none :=
  ⟨by decide, by decide,
    (absent_lens_never_read 0 3 0 2 [2, 3, 5] [1, 2, 3] none true exY exYs none false
      [NA_INTEGER, NA_INTEGER, NA_INTEGER] [1, 1, 1] emult.FIRST (by decide) (by decide)).1,
    rfl⟩

/-! ## Claim C23: the probes of rollbs -/

/-- Between cursors that bracket `val` the loop of `rollbs` ends within
`upper - lower + 1` iterations, leaves the value of `rollbsLoop`, and probes only
positions `0 .. nix-1`. -/
theorem rollbsLoopProbes_spec (x ix : List Int) (nix val side : Int)
    (hmono : ∀ a b : Int, 0 ≤ a → a ≤ b → b < nix → keyAt x ix a ≤ keyAt x ix b)
    (hlast : val < keyAt x ix (nix - 1)) (hn : 1 ≤ nix) :
    ∀ (fuel : Nat) (lower upper : Int), 0 ≤ lower → upper ≤ nix →
      (∀ k, 0 ≤ k → k < lower → k < nix → keyAt x ix k < val) →
      (∀ k, upper < k → k < nix → val < keyAt x ix k) →
      (upper - lower + 1).toNat ≤ fuel →
      ∃ probes, rollbsLoopProbes x ix val side fuel lower upper
          = some (rollbsLoop x ix val side fuel lower upper, probes) ∧
        probes.length ≤ (upper - lower + 1).toNat ∧
        ∀ i ∈ probes, 0 ≤ i ∧ i ≤ nix - 1 := by
  intro fuel
  induction fuel with
  | zero =>
    intro lower upper h0 h1 hlo hup hf
    have hlu : ¬ lower ≤ upper := by omega
    refine ⟨[], ?_, by simp, by simp⟩
    simp only [rollbsLoopProbes, rollbsLoop, if_neg hlu]
  | succ fuel ih =>
    intro lower upper h0 h1 hlo hup hf
    unfold rollbsLoopProbes rollbsLoop
    by_cases hlu : lower ≤ upper
    · rw [if_pos hlu, if_pos hlu]
      have hdiv : Int.tdiv (upper - lower) 2 = (upper - lower) / 2 :=
        Int.tdiv_eq_ediv (by omega) (by omega)
      simp only [hdiv]
      have hl : lower < nix := by
        by_contra hc
        have := hlo (nix - 1) (by omega) (by omega) (by omega)
        omega
      have hi0 : lower ≤ lower + (upper - lower) / 2 := by omega
      have hi1 : lower + (upper - lower) / 2 ≤ upper := by omega
      have hi2 : lower + (upper - lower) / 2 < nix := by omega
      generalize lower + (upper - lower) / 2 = i at hi0 hi1 hi2
      have hkey : rd x (rd ix i - 1) = keyAt x ix i := rfl
      rw [hkey]
      by_cases heq : keyAt x ix i = val
      · rw [if_pos heq, if_pos heq]
        refine ⟨[i], rfl, ?_, ?_⟩
        · simp only [List.length_singleton]; omega
        · intro j hj
          rw [List.mem_singleton] at hj
          omega
      · rw [if_neg heq, if_neg heq]
        by_cases hlt : keyAt x ix i < val
        · rw [if_pos hlt, if_pos hlt]
          obtain ⟨p, hp, hpl, hpb⟩ := ih (i + 1) upper (by omega) h1
            (fun k hk0 hk1 hk2 => by
              have := hmono k i hk0 (by omega) hi2
              omega) hup (by omega)
          refine ⟨i :: p, by rw [hp]; rfl, ?_, ?_⟩
          · simp only [List.length_cons]; omega
          · intro j hj
            rcases List.mem_cons.mp hj with e | e
            · omega
            · exact hpb j e
        · rw [if_neg hlt, if_neg hlt]
          have hgt : keyAt x ix i > val := by omega
          rw [if_pos hgt, if_pos hgt]
          obtain ⟨p, hp, hpl, hpb⟩ := ih lower (i - 1) h0 (by omega) hlo
            (fun k hk0 hk1 => by
              have := hmono i k (by omega) (by omega) hk1
              omega) (by omega)
          refine ⟨i :: p, by rw [hp]; rfl, ?_, ?_⟩
          · simp only [List.length_cons]; omega
          · intro j hj
            rcases List.mem_cons.mp hj with e | e
            · omega
            · exact hpb j e
    · rw [if_neg hlu, if_neg hlu]
      exact ⟨[], rfl, by simp, by simp⟩

/-- Claim C23: for an index of `nix >= 1` valid 1-based entries with
non-decreasing keys, every target and either side, the binary search of `rollbs`,
although it starts with `upper = nix`, ends (within `nix + 1` iterations), probes
only positions `i` with `0 <= i <= nix-1` (so `x[ix[i]-1]` is a row of `x`), and
`rollbs` returns a value in `-1 .. nix-1`. -/
theorem rollbs_probes_in_bounds (x ix : List Int) (nix val side : Int) (hn : 1 ≤ nix)
    (hside : side = -1 ∨ side = 1) (hmono : KeysNonDecreasing x ix nix)
    (hix : IndexEntriesValid x ix nix) :
    ∃ probes, rollbsProbes x ix nix val side = some (rollbs x ix nix val side, probes) ∧
      probes.length ≤ nix.toNat + 1 ∧
      (∀ i ∈ probes, 0 ≤ i ∧ i ≤ nix - 1 ∧ 0 ≤ rd ix i - 1 ∧ rd ix i - 1 < x.length) ∧
      -1 ≤ rollbs x ix nix val side ∧ rollbs x ix nix val side ≤ nix - 1 := by
  have hm := hmono.mono
  have hrange : -1 ≤ rollbs x ix nix val side ∧ rollbs x ix nix val side ≤ nix - 1 := by
    rcases hside with rfl | rfl
    · rcases rollbs_lower x ix nix val hn hm with ⟨a, b, _⟩ | ⟨a, _⟩ | ⟨a, b, _, _⟩ <;> omega
    · rcases rollbs_upper x ix nix val hn hm with ⟨a, b, _⟩ | ⟨a, _⟩ | ⟨a, b, _, _⟩ <;> omega
  have hrow : ∀ i : Int, 0 ≤ i ∧ i ≤ nix - 1 → 0 ≤ rd ix i - 1 ∧ rd ix i - 1 < x.length := by
    intro i hi
    obtain ⟨k, rfl⟩ := Int.eq_ofNat_of_zero_le hi.1
    have := hix k (by omega)
    omega
  have e0 : rd x (rd ix 0 - 1) = keyAt x ix 0 := rfl
  have e1 : rd x (rd ix (nix - 1) - 1) = keyAt x ix (nix - 1) := rfl
  unfold rollbsProbes
  rw [e0, e1]
  by_cases c1 : keyAt x ix 0 = val
  · have er : rollbs x ix nix val side = 0 := by
      unfold rollbs; rw [e0, if_pos c1]
    rw [if_pos c1]; exact ⟨[], by rw [er], by simp, by simp, hrange⟩
  rw [if_neg c1]
  by_cases c2 : keyAt x ix (nix - 1) = val
  · have er : rollbs x ix nix val side = nix - 1 := by
      unfold rollbs; rw [e0, e1, if_neg c1, if_pos c2]
    rw [if_pos c2]; exact ⟨[], by rw [er], by simp, by simp, hrange⟩
  rw [if_neg c2]
  by_cases c3 : side < 0 ∧ keyAt x ix (nix - 1) < val
  · have er : rollbs x ix nix val side = -1 := by
      unfold rollbs; rw [e0, e1, if_neg c1, if_neg c2, if_pos c3]
    rw [if_pos c3]; exact ⟨[], by rw [er], by simp, by simp, hrange⟩
  rw [if_neg c3]
  by_cases c4 : side < 0 ∧ keyAt x ix 0 > val
  · have er : rollbs x ix nix val side = 0 := by
      unfold rollbs; rw [e0, e1, if_neg c1, if_neg c2, if_neg c3, if_pos c4]
    rw [if_pos c4]; exact ⟨[], by rw [er], by simp, by simp, hrange⟩
  rw [if_neg c4]
  by_cases c5 : ¬ side < 0 ∧ side > 0 ∧ keyAt x ix 0 > val
  · have er : rollbs x ix nix val side = -1 := by
      unfold rollbs; rw [e0, e1, if_neg c1, if_neg c2, if_neg c3, if_neg c4, if_pos c5]
    rw [if_pos c5]; exact ⟨[], by rw [er], by simp, by simp, hrange⟩
  rw [if_neg c5]
  by_cases c6 : ¬ side < 0 ∧ side > 0 ∧ keyAt x ix (nix - 1) < val
  · have er : rollbs x ix nix val side = nix - 1 := by
      unfold rollbs
      rw [e0, e1, if_neg c1, if_neg c2, if_neg c3, if_neg c4, if_neg c5, if_pos c6]
    rw [if_pos c6]; exact ⟨[], by rw [er], by simp, by simp, hrange⟩
  rw [if_neg c6]
  have er : rollbs x ix nix val side = rollbsLoop x ix val side (nix.toNat + 2) 0 nix := by
    unfold rollbs
    rw [e0, e1, if_neg c1, if_neg c2, if_neg c3, if_neg c4, if_neg c5, if_neg c6]
  have hlast : val < keyAt x ix (nix - 1) := by
    rcases hside with rfl | rfl
    · have : ¬ keyAt x ix (nix - 1) < val := fun h => c3 ⟨by decide, h⟩
      omega
    · have : ¬ keyAt x ix (nix - 1) < val := fun h => c6 ⟨by decide, by decide, h⟩
      omega
  have hfirst : keyAt x ix 0 < val := by
    rcases hside with rfl | rfl
    · have : ¬ keyAt x ix 0 > val := fun h => c4 ⟨by decide, h⟩
      omega
    · have : ¬ keyAt x ix 0 > val := fun h => c5 ⟨by decide, by decide, h⟩
      omega
  obtain ⟨p, hp, hpl, hpb⟩ := rollbsLoopProbes_spec x ix nix val side hm hlast hn
    (nix.toNat + 2) 0 nix (le_refl _) (le_refl _) (fun k h0 h1 _ => by omega)
    (fun k h0 h1 => by omega) (by omega)
  refine ⟨p, by rw [hp, er], by omega, ?_, hrange⟩
  intro i hi
  have := hpb i hi
  exact ⟨this.1, this.2, hrow i this⟩

/-- Witness of C23: keys `10, 20, 20, 40`, target 30, upper side. -/
theorem rollbs_probes_in_bounds_witness :
    (1 : Int) ≤ 4 ∧ KeysNonDecreasing [10, 20, 20, 40] [1, 2, 3, 4] 4 ∧
    IndexEntriesValid [10, 20, 20, 40] [1, 2, 3, 4] 4 ∧
    ∃ probes, rollbsProbes [10, 20, 20, 40] [1, 2, 3, 4] 4 30 1
        = some (rollbs [10, 20, 20, 40] [1, 2, 3, 4] 4 30 1, probes) ∧
      probes.length ≤ (4 : Int).toNat + 1 ∧
      (∀ i ∈ probes, 0 ≤ i ∧ i ≤ 4 - 1 ∧ 0 ≤ rd [1, 2, 3, 4] i - 1 ∧
        rd [1, 2, 3, 4] i - 1 < ([10, 20, 20, 40] : List Int).length) ∧
      -1 ≤ rollbs [10, 20, 20, 40] [1, 2, 3, 4] 4 30 1 ∧
      rollbs [10, 20, 20, 40] [1, 2, 3, 4] 4 30 1 ≤ 4 - 1 :=
  ⟨by decide, by decide, by decide,
    rollbs_probes_in_bounds [10, 20, 20, 40] [1, 2, 3, 4] 4 30 1 (by decide) (Or.inr rfl)
      (by decide) (by decide)⟩

/-! ## Claim C24: invariance under every valid partition -/

theorem partitionEnd_append : ∀ (l1 l2 : List Batch) (o : Int),
    partitionEnd o (l1 ++ l2) = (partitionEnd o l1).bind (fun e => partitionEnd e l2) := by
  intro l1
  induction l1 with
  | nil => intro l2 o; rfl
  | cons b l1 ih =>
    intro l2 o
    simp only [List.cons_append, partitionEnd]
    by_cases h : b.x_off = o ∧ 1 ≤ b.nx
    · rw [if_pos h, if_pos h]; exact ih l2 (o + b.nx)
    · rw [if_neg h, if_neg h]; rfl

theorem partitionEnd_single (o : Int) (b : Batch) (e : Int)
    (h : partitionEnd o [b] = some e) : b.x_off = o ∧ 1 ≤ b.nx ∧ e = o + b.nx := by
  simp only [partitionEnd] at h
  by_cases c : b.x_off = o ∧ 1 ≤ b.nx
  · rw [if_pos c] at h
    injection h with h
    exact ⟨c.1, c.2, h.symm⟩
  · rw [if_neg c] at h
    cases h

/-- Batches of one size `s`: a valid walk over the first `j` of them ends at `j * s`. -/
theorem partitionEnd_prefix (f : Nat → Batch) (k : Nat) (s : Int)
    (hnx : ∀ b, b < k → (f b).nx = s) :
    ∀ j, j ≤ k → ∀ e, partitionEnd 0 ((List.range j).map f) = some e → e = j * s := by
  intro j
  induction j with
  | zero =>
    intro _ e h
    simp only [List.range_zero, List.map_nil, partitionEnd] at h
    injection h with h
    simp [← h]
  | succ j ih =>
    intro hj e h
    rw [List.range_succ, List.map_append, partitionEnd_append] at h
    cases hp : partitionEnd 0 ((List.range j).map f) with
    | none => rw [hp] at h; cases h
    | some e1 =>
      rw [hp] at h
      have h1 := ih (by omega) e1 hp
      obtain ⟨_, _, h3⟩ := partitionEnd_single e1 (f j) e h
      rw [h3, h1, hnx j (by omega)]
      push_cast; ring

/-- Batches of one size `s >= 1` placed one after the other: the walk over the
first `j` of them is valid and ends at `j * s`. -/
theorem partitionEnd_prefix_ok (f : Nat → Batch) (k : Nat) (s : Int) (hs : 1 ≤ s)
    (hoff : ∀ b, b < k → (f b).x_off = b * s)
    (hnx : ∀ b, b < k → (f b).nx = s) :
    ∀ j, j ≤ k → partitionEnd 0 ((List.range j).map f) = some (j * s) := by
  intro j
  induction j with
  | zero => intro _; simp [partitionEnd]
  | succ j ih =>
    intro hj
    rw [List.range_succ, List.map_append, partitionEnd_append, ih (by omega)]
    simp only [Option.some_bind, List.map_cons, List.map_nil, partitionEnd]
    rw [if_pos ⟨hoff j (by omega), by rw [hnx j (by omega)]; exact hs⟩, hnx j (by omega)]
    congr 1
    push_cast; ring

theorem batching_shape {K : Int} {x xs : List Int} {n : Int} {y ys : List Int} {ny : Int}
    {bs : List Batch} (hbs : batching K x xs n y ys ny = Except.ok bs) :
    ∃ lsz : Nat, bs = (List.range K.toNat).map (fun (b : Nat) =>
      batchOf K (toU64 (Int.tdiv (n - 1) K + 1)) lsz x xs n y ys ny (b : Int)) := by
  unfold batching at hbs
  simp only at hbs
  split at hbs
  · cases hbs
  · injection hbs with hbs
    exact ⟨_, hbs.symm⟩

/-- A valid partition returned by `batching` comes from a batch count that
leaves a non-empty last batch. -/
theorem validPartition_batchCountOK {x xs y ys : List Int} (hx : ValidIndex x xs)
    (K ny : Int) (bs : List Batch)
    (hbs : batching K x xs xs.length y ys ny = Except.ok bs)
    (hvp : ValidPartition bs xs.length) : BatchCountOK K xs.length := by
  have hn1 : 1 ≤ xs.length := hx.2.1
  have hsz : xs.length < 2 ^ 31 := by
    have h1 := hx.start_le 0 hx.2.1
    have h2 := hx.2.2.1
    have h3 := hx.1
    simp only [Nat.cast_zero] at h1
    omega
  obtain ⟨lsz, rfl⟩ := batching_shape hbs
  unfold ValidPartition at hvp
  by_cases hK : 1 ≤ K
  · obtain ⟨k, rfl⟩ : ∃ k : Nat, K = ((k + 1 : Nat) : Int) := ⟨(K - 1).toNat, by omega⟩
    rw [batchSize_eq k xs.length hn1 hsz, Int.toNat_ofNat, List.range_succ, List.map_append,
      partitionEnd_append] at hvp
    have hdiv : (xs.length - 1) / (k + 1) ≤ xs.length - 1 := Nat.div_le_self _ _
    generalize hs : (xs.length - 1) / (k + 1) + 1 = s at hvp
    have hnx : ∀ b, b < k →
        (batchOf ((k + 1 : Nat) : Int) s lsz x xs xs.length y ys ny (b : Int)).nx = (s : Int) := by
      intro b hb
      rw [(batchOf_x_fields _ _ _ _ _ _ _ _ _ _).2, if_pos (by push_cast; omega),
        toInt32_small s (by omega)]
    cases hp : partitionEnd 0 ((List.range k).map (fun (b : Nat) =>
        batchOf ((k + 1 : Nat) : Int) s lsz x xs xs.length y ys ny (b : Int))) with
    | none => rw [hp] at hvp; cases hvp
    | some e1 =>
      rw [hp] at hvp
      have h1 := partitionEnd_prefix _ k (s : Int) hnx k (le_refl _) e1 hp
      obtain ⟨_, h2, h3⟩ := partitionEnd_single e1 _ _ hvp
      have hP : k * s < xs.length := by
        have : ((k * s : Nat) : Int) < (xs.length : Int) := by push_cast; omega
        exact_mod_cast this
      refine ⟨hK, ?_⟩
      have e1' : (((k + 1 : Nat) : Int) - 1) = (k : Int) := by push_cast; ring
      have e2' : ((xs.length : Int) - 1) = ((xs.length - 1 : Nat) : Int) := by omega
      rw [e1', e2']
      rw [← hs] at hP
      exact_mod_cast hP
  · have hK0 : K.toNat = 0 := by omega
    rw [hK0] at hvp
    simp only [List.range_zero, List.map_nil, partitionEnd] at hvp
    injection hvp with hvp
    omega

/-- A batch count that leaves a non-empty last batch makes `batching` return a
valid partition. -/
theorem batchCountOK_validPartition {x xs y ys : List Int} (hx : ValidIndex x xs)
    (hy : ValidIndex y ys) (K : Int) (hK : BatchCountOK K xs.length) :
    ∃ bs, batching K x xs xs.length y ys ys.length = Except.ok bs ∧
      ValidPartition bs xs.length := by
  obtain ⟨hK1, hK2⟩ := hK
  have hn1 : 1 ≤ xs.length := hx.2.1
  have hsz : xs.length < 2 ^ 31 := by
    have h1 := hx.start_le 0 hx.2.1
    have h2 := hx.2.2.1
    have h3 := hx.1
    simp only [Nat.cast_zero] at h1
    omega
  obtain ⟨k, rfl⟩ : ∃ k : Nat, K = ((k + 1 : Nat) : Int) := ⟨(K - 1).toNat, by omega⟩
  have hP : k * ((xs.length - 1) / (k + 1) + 1) < xs.length := by
    have e1 : (((k + 1 : Nat) : Int) - 1) = (k : Int) := by push_cast; ring
    have e2 : ((xs.length : Int) - 1) = ((xs.length - 1 : Nat) : Int) := by omega
    rw [e1, e2] at hK2
    exact_mod_cast hK2
  refine ⟨_, batching_eq x xs y ys ys.length k xs.length hsz hP, ?_⟩
  unfold ValidPartition
  have hoff := fun b hb => (batchOf_good hx hy k hP b hb).2.1
  have hnx := fun b hb => (batchOf_good hx hy k hP b hb).2.2
  have hs1 : 1 ≤ (xs.length - 1) / (k + 1) + 1 := Nat.le_add_left 1 _
  generalize (xs.length - 1) / (k + 1) + 1 = s at hP hoff hnx hs1
  rw [List.range_succ, List.map_append, partitionEnd_append,
    partitionEnd_prefix_ok _ k (s : Int) (by exact_mod_cast hs1)
      (fun b hb => by rw [hoff b (by omega)]; push_cast; rfl)
      (fun b hb => by rw [hnx b (by omega), if_pos hb]) k (le_refl _)]
  simp only [Option.some_bind, List.map_cons, List.map_nil, partitionEnd]
  have h1 := hoff k (le_refl _)
  have h2 := hnx k (le_refl _)
  rw [if_neg (by omega : ¬ k < k)] at h2
  have h3 : ((xs.length - k * s : Nat) : Int) = (xs.length : Int) - (k : Int) * (s : Int) := by
    have : k * s ≤ xs.length := by omega
    push_cast [Nat.cast_sub this]
    rfl
  rw [h3] at h2
  have hP' : (k : Int) * (s : Int) < (xs.length : Int) := by exact_mod_cast hP
  rw [if_pos ⟨by rw [h1]; push_cast; rfl, by rw [h2]; omega⟩, h2]
  congr 1
  ring

/-- One batch, one batch per run, and every batch count dividing the number of
runs leave a non-empty last batch. -/
theorem batchCountOK_special (K n : Int) (hn : 1 ≤ n)
    (h : K = 1 ∨ K = n ∨ (1 ≤ K ∧ K ∣ n)) : BatchCountOK K n := by
  unfold BatchCountOK
  rcases h with rfl | rfl | ⟨hK, q, rfl⟩
  · refine ⟨le_refl _, ?_⟩
    simp only [sub_self, zero_mul]
    omega
  · refine ⟨hn, ?_⟩
    rw [Int.ediv_eq_zero_of_lt (by omega) (by omega)]
    omega
  · refine ⟨hK, ?_⟩
    have hq : 1 ≤ q := by
      by_contra hc
      have : K * q ≤ 0 := Int.mul_nonpos_of_nonneg_of_nonpos (by omega) (by omega)
      omega
    have e : K * q - 1 = (K - 1) + K * (q - 1) := by ring
    rw [e, Int.add_mul_ediv_left _ _ (by omega : K ≠ 0),
      Int.ediv_eq_zero_of_lt (by omega) (by omega)]
    have e2 : (K - 1) * (0 + (q - 1) + 1) = K * q - q := by ring
    rw [e2]
    omega

theorem validIndex_seqIndex (n : Nat) (h0 : 0 < n) (hl : n < 2 ^ 31) :
    ValidIndex (seqIndex n) (seqIndex n) := by
  have h := validIndex_seq (seqIndex n)
    (by intro h; have := congrArg List.length h; rw [length_seqIndex] at this; simp at this; omega)
    (pairwise_seqIndex n) (by rw [length_seqIndex]; exact hl)
  rw [length_seqIndex] at h
  exact h

/-- With 17 threads and 1056 left runs `smergeC` asks for 34 batches of 32
runs; the last batch would be empty and `batching` raises its internal error,
whatever the columns hold. -/
theorem smergeC_refuses_17 (x xs : List Int) (nx : Int) (y : List Int) (ny : Int)
    (ys : List Int) (nys : Int) (starts lens : List Int) (mult : emult) :
    smergeC 17 x nx xs 1056 y ny ys nys starts lens mult
      = Except.error SmergeError.internalBatching := by
  have hK : nBatchFor 17 1056 = 34 := by decide
  unfold smergeC smergeCWith
  rw [hK]
  have hb : batching 34 x xs 1056 y ys nys = Except.error SmergeError.internalBatching :=
    batching_refuses x xs y ys nys 33 1056 (by norm_num) (by norm_num) (by norm_num)
  simp only [hb]

theorem scan_done (ni nj : Int) (kx ky : Int → Int)
    (hit : Int → Int → JoinState → JoinState) (fuel : Nat) (i j : Int) (s : JoinState)
    (h : ¬ (i < ni ∧ j < nj)) : scan ni nj kx ky hit fuel i j s = s := by
  cases fuel with
  | zero => rfl
  | succ fuel => unfold scan; rw [if_neg h]

/-- A batch with an empty left or right range leaves the outputs as they are
and reports no match. -/
theorem smerge_empty_range (bx_off bnx by_off bny : Int)
    (x x_starts x_lens : List Int) (unq_x : Bool)
    (y y_starts y_lens : List Int) (unq_y : Bool)
    (starts lens : List Int) (mult : emult) (h : bnx ≤ 0 ∨ bny ≤ 0) :
    smerge bx_off bnx by_off bny x x_starts x_lens unq_x y y_starts y_lens unq_y starts lens mult
      = ⟨starts, lens, 0, true, true, true⟩ := by
  have hd : ¬ (bx_off < bx_off + bnx ∧ by_off < by_off + bny) := fun hc => by omega
  unfold smerge
  cases unq_x <;> cases unq_y <;> cases mult <;> exact scan_done _ _ _ _ _ _ _ _ _ hd

theorem runBatches_empty_range (x x_starts x_lens : List Int) (unq_x : Bool)
    (y y_starts y_lens : List Int) (unq_y : Bool) (mult : emult) :
    ∀ (bs : List Batch) (starts lens : List Int), (∀ b ∈ bs, b.nx ≤ 0 ∨ b.ny ≤ 0) →
      runBatches x x_starts x_lens unq_x y y_starts y_lens unq_y mult bs
          ⟨starts, lens, 0, true, true, true⟩
        = ⟨starts, lens, 0, true, true, true⟩ := by
  intro bs
  induction bs with
  | nil => intro starts lens _; rfl
  | cons b bs ih =>
    intro starts lens h
    simp only [runBatches]
    rw [smerge_empty_range _ _ _ _ _ _ _ _ _ _ _ _ _ _ _ (h b (List.mem_cons_self _ _))]
    exact ih starts lens (fun c hc => h c (List.mem_cons_of_mem _ hc))

/-- With 32 threads and the 1025 left runs of `exWrap`, `smergeC` asks for 64
batches of 17 runs; the subtraction for the last batch wraps and `batching`
returns its batches without an error. -/
theorem batching_wrap_32 (y ys : List Int) (nys : Int) :
    batching 64 exWrap exWrap 1025 y ys nys
      = Except.ok ((List.range 64).map (fun (b : Nat) =>
          batchOf 64 17 (U64 - 46) exWrap exWrap 1025 y ys nys (b : Int))) :=
  batching_wraps exWrap exWrap y ys nys 63 1025 (by norm_num) (by norm_num) (by norm_num)
    (by norm_num)

set_option maxRecDepth 1000000 in
/-- Against the right column `1025, 1025` every one of these 64 batches has an
empty right range, or (the last one) a negative size. -/
theorem batches_32_empty_range :
    ∀ b ∈ (List.range 64).map (fun (b : Nat) =>
        batchOf 64 17 (U64 - 46) exWrap exWrap 1025 [1025, 1025] [1] 1 (b : Int)),
      b.nx ≤ 0 ∨ b.ny ≤ 0 := by
  decide

/-- With 32 threads the join of `exWrap` with the right column `1025, 1025`
returns with nothing written and no match counted, under every policy. -/
theorem smergeC_32_misses (starts lens : List Int) (mult : emult) :
    smergeC 32 exWrap 1025 exWrap 1025 [1025, 1025] 2 [1] 1 starts lens mult
      = Except.ok ⟨starts, lens, 0, true, true, true⟩ := by
  have hK : nBatchFor 32 1025 = 64 := by decide
  unfold smergeC smergeCWith
  rw [hK]
  simp only [batching_wrap_32]
  rw [runBatches_empty_range _ _ _ _ _ _ _ _ _ _ _ _ batches_32_empty_range]
  simp

theorem length_exWrap : exWrap.length = 1025 := length_seqIndex 1025

theorem validIndex_exWrap : ValidIndex exWrap exWrap :=
  validIndex_seqIndex 1025 (by norm_num) (by norm_num)

theorem validIndex_exWide : ValidIndex exWide exWide :=
  validIndex_seqIndex 1056 (by norm_num) (by norm_num)

theorem rd_exWrap_last : rd exWrap 1024 = 1025 := by
  have h := rd_seqIndex 1025 1024 (by norm_num)
  norm_num at h
  exact h

theorem rd_exWide_1024 : rd exWide 1024 = 1025 := by
  have h := rd_seqIndex 1056 1024 (by norm_num)
  norm_num at h
  exact h

theorem batchCountOK_one_exWrap : BatchCountOK (nBatchFor 1 exWrap.length) exWrap.length :=
  batchCountOK_single 1 _ (by rw [length_exWrap]; norm_num) (Or.inl rfl)

/-! ## Claims C2 to C5, C7, C9 and C21 on thread counts that `batching` cannot serve -/

/-- C2 fails on the code.  The right column `1025, 1025` is one run of two rows
starting at row 1, and the left row 1024 carries its key, so under ALL the claim
asks for `starts[1024] = 1` and `lens[1024] = 2`.  With 17 threads and the 1056
left runs of `exWide` the join ends in the internal error of `batching` and
writes nothing; with 32 threads and the 1025 left runs of `exWrap` it returns
with `starts` and `lens` as seeded (reads past the end of an array taken as 0);
with one thread it writes the two values. -/
theorem all_policy_lost_with_many_threads :
    ValidIndex exWide exWide ∧ ValidIndex exWrap exWrap ∧ ValidIndex [1025, 1025] [1] ∧
    rd exWide 1024 = keyAt [1025, 1025] [1] 0 ∧ rd exWrap 1024 = keyAt [1025, 1025] [1] 0 ∧
    smergeC 17 exWide 1056 exWide 1056 [1025, 1025] 2 [1] 1
        (List.replicate 1056 NA_INTEGER) (List.replicate 1056 1) emult.ALL
      = Except.error SmergeError.internalBatching ∧
    smergeC 32 exWrap 1025 exWrap 1025 [1025, 1025] 2 [1] 1
        (List.replicate 1025 NA_INTEGER) (List.replicate 1025 1) emult.ALL
      = Except.ok ⟨List.replicate 1025 NA_INTEGER, List.replicate 1025 1, 0, true, true, true⟩ ∧
    ∃ out, smergeC 1 exWrap 1025 exWrap 1025 [1025, 1025] 2 [1] 1
        (List.replicate 1025 NA_INTEGER) (List.replicate 1025 1) emult.ALL = Except.ok out ∧
      rd out.starts 1024 = 1 ∧ rd out.lens 1024 = 2 := by
  have hy : ValidIndex [1025, 1025] [1] := by decide
  have hk : rd exWrap ((1024 : Nat) : Int) = keyAt [1025, 1025] [1] ((0 : Nat) : Int) :=
    rd_exWrap_last
  refine ⟨validIndex_exWide, validIndex_exWrap, hy, rd_exWide_1024, rd_exWrap_last,
    smergeC_refuses_17 _ _ _ _ _ _ _ _ _ _, smergeC_32_misses _ _ _, ?_⟩
  obtain ⟨out, h1, h2, h3, _⟩ := all_policy_writes_run exWrap exWrap [1025, 1025] [1]
    validIndex_exWrap hy 1 batchCountOK_one_exWrap (List.replicate 1025 NA_INTEGER)
    (by rw [length_exWrap, List.length_replicate]) 1024 0 (by rw [length_exWrap]; norm_num) (by decide) hk
  rw [length_exWrap] at h1
  exact ⟨out, h1, h2, h3⟩

theorem length_exWide : exWide.length = 1056 := length_seqIndex 1056

theorem batchCountOK_one_exWide : BatchCountOK (nBatchFor 1 exWide.length) exWide.length :=
  batchCountOK_single 1 _ (by rw [length_exWide]; norm_num) (Or.inl rfl)

/-- C3 fails on the code.  The left row 1024 carries the key of the right run
`1025, 1025` (first row 1, two rows), so the claim asks for `starts[1024] = 1`
under FIRST and `starts[1024] = 2` under LAST.  With 17 threads (1056 left runs)
the join ends in the internal error of `batching` under both policies; with 32
threads (1025 left runs) it returns with `starts` as seeded (reads past the end
of an array taken as 0); with one thread it writes 1 and 2, and leaves `lens`. -/
theorem first_last_lost_with_many_threads :
    ValidIndex exWide exWide ∧ ValidIndex exWrap exWrap ∧ ValidIndex [1025, 1025] [1] ∧
    rd exWide 1024 = keyAt [1025, 1025] [1] 0 ∧ rd exWrap 1024 = keyAt [1025, 1025] [1] 0 ∧
    smergeC 17 exWide 1056 exWide 1056 [1025, 1025] 2 [1] 1
        (List.replicate 1056 NA_INTEGER) (List.replicate 1056 1) emult.FIRST
      = Except.error SmergeError.internalBatching ∧
    smergeC 17 exWide 1056 exWide 1056 [1025, 1025] 2 [1] 1
        (List.replicate 1056 NA_INTEGER) (List.replicate 1056 1) emult.LAST
      = Except.error SmergeError.internalBatching ∧
    smergeC 32 exWrap 1025 exWrap 1025 [1025, 1025] 2 [1] 1
        (List.replicate 1025 NA_INTEGER) (List.replicate 1025 1) emult.FIRST
      = Except.ok ⟨List.replicate 1025 NA_INTEGER, List.replicate 1025 1, 0, true, true, true⟩ ∧
    smergeC 32 exWrap 1025 exWrap 1025 [1025, 1025] 2 [1] 1
        (List.replicate 1025 NA_INTEGER) (List.replicate 1025 1) emult.LAST
      = Except.ok ⟨List.replicate 1025 NA_INTEGER, List.replicate 1025 1, 0, true, true, true⟩ ∧
    (∃ out, smergeC 1 exWrap 1025 exWrap 1025 [1025, 1025] 2 [1] 1
        (List.replicate 1025 NA_INTEGER) (List.replicate 1025 1) emult.FIRST = Except.ok out ∧
      rd out.starts 1024 = 1 ∧ out.lens = List.replicate 1025 1) ∧
    (∃ out, smergeC 1 exWrap 1025 exWrap 1025 [1025, 1025] 2 [1] 1
        (List.replicate 1025 NA_INTEGER) (List.replicate 1025 1) emult.LAST = Except.ok out ∧
      rd out.starts 1024 = 2 ∧ out.lens = List.replicate 1025 1) := by
  have hy : ValidIndex [1025, 1025] [1] := by decide
  have hk : rd exWrap ((1024 : Nat) : Int) = keyAt [1025, 1025] [1] ((0 : Nat) : Int) :=
    rd_exWrap_last
  refine ⟨validIndex_exWide, validIndex_exWrap, hy, rd_exWide_1024, rd_exWrap_last,
    smergeC_refuses_17 _ _ _ _ _ _ _ _ _ _, smergeC_refuses_17 _ _ _ _ _ _ _ _ _ _,
    smergeC_32_misses _ _ _, smergeC_32_misses _ _ _, ?_, ?_⟩
  · obtain ⟨out, h1, h2, h3⟩ := first_last_policy_start exWrap exWrap [1025, 1025] [1]
      validIndex_exWrap hy 1 batchCountOK_one_exWrap (List.replicate 1025 NA_INTEGER)
      (List.replicate 1025 1) (by rw [length_exWrap, List.length_replicate]) emult.FIRST
      (Or.inl rfl)
    rw [length_exWrap] at h1
    have h4 := (h3 1024 0 (by rw [length_exWrap]; norm_num) (by decide) hk).1
    exact ⟨out, h1, h4, h2⟩
  · obtain ⟨out, h1, h2, h3⟩ := first_last_policy_start exWrap exWrap [1025, 1025] [1]
      validIndex_exWrap hy 1 batchCountOK_one_exWrap (List.replicate 1025 NA_INTEGER)
      (List.replicate 1025 1) (by rw [length_exWrap, List.length_replicate]) emult.LAST
      (Or.inr rfl)
    rw [length_exWrap] at h1
    have h4 := (h3 1024 0 (by rw [length_exWrap]; norm_num) (by decide) hk).1
    exact ⟨out, h1, h4, h2⟩

set_option maxRecDepth 1000000 in
theorem exWrap_count_sum : (exWrap.map (fun k => ([1025, 1025] : List Int).count k)).sum = 2 := by
  decide

set_option maxRecDepth 1000000 in
theorem exWrap_countP : exWrap.countP (fun k => decide (k ∈ ([1025, 1025] : List Int))) = 1 := by
  decide

/-- C5 fails on the code.  One left row of `exWrap` (key 1025) has a match, the
right run `1025, 1025` of two rows, so the claim asks for a match count of 2
under ALL and of 1 under FIRST.  With 17 threads (1056 left runs) the join ends
in the internal error of `batching` and returns no count; with 32 threads (1025
left runs) it returns the count 0 (reads past the end of an array taken as 0);
with one thread it returns 2 and 1. -/
theorem match_count_lost_with_many_threads :
    ValidIndex exWide exWide ∧ ValidIndex exWrap exWrap ∧ ValidIndex [1025, 1025] [1] ∧
    smergeC 17 exWide 1056 exWide 1056 [1025, 1025] 2 [1] 1
        (List.replicate 1056 NA_INTEGER) (List.replicate 1056 1) emult.ALL
      = Except.error SmergeError.internalBatching ∧
    (∃ out, smergeC 32 exWrap 1025 exWrap 1025 [1025, 1025] 2 [1] 1
        (List.replicate 1025 NA_INTEGER) (List.replicate 1025 1) emult.ALL = Except.ok out ∧
      out.cnt = 0) ∧
    (∃ out, smergeC 32 exWrap 1025 exWrap 1025 [1025, 1025] 2 [1] 1
        (List.replicate 1025 NA_INTEGER) (List.replicate 1025 1) emult.FIRST = Except.ok out ∧
      out.cnt = 0) ∧
    (∃ out, smergeC 1 exWrap 1025 exWrap 1025 [1025, 1025] 2 [1] 1
        (List.replicate 1025 NA_INTEGER) (List.replicate 1025 1) emult.ALL = Except.ok out ∧
      out.cnt = 2 ∧ out.cnt = (exWrap.map (fun k => ([1025, 1025] : List Int).count k)).sum) ∧
    (∃ out, smergeC 1 exWrap 1025 exWrap 1025 [1025, 1025] 2 [1] 1
        (List.replicate 1025 NA_INTEGER) (List.replicate 1025 1) emult.FIRST = Except.ok out ∧
      out.cnt = 1 ∧
      out.cnt = exWrap.countP (fun k => decide (k ∈ ([1025, 1025] : List Int)))) := by
  have hy : ValidIndex [1025, 1025] [1] := by decide
  refine ⟨validIndex_exWide, validIndex_exWrap, hy, smergeC_refuses_17 _ _ _ _ _ _ _ _ _ _,
    ⟨_, smergeC_32_misses _ _ _, rfl⟩, ⟨_, smergeC_32_misses _ _ _, rfl⟩, ?_, ?_⟩
  · obtain ⟨out, h1, h2, _⟩ := match_count_sum exWrap exWrap [1025, 1025] [1]
      validIndex_exWrap hy 1 batchCountOK_one_exWrap (List.replicate 1025 NA_INTEGER)
      (List.replicate 1025 1) emult.ALL (by decide)
    rw [length_exWrap] at h1
    exact ⟨out, h1, by rw [h2 rfl, exWrap_count_sum], h2 rfl⟩
  · obtain ⟨out, h1, _, h3⟩ := match_count_sum exWrap exWrap [1025, 1025] [1]
      validIndex_exWrap hy 1 batchCountOK_one_exWrap (List.replicate 1025 NA_INTEGER)
      (List.replicate 1025 1) emult.FIRST (by decide)
    rw [length_exWrap] at h1
    exact ⟨out, h1, by rw [h3 (Or.inl rfl), exWrap_countP], h3 (Or.inl rfl)⟩

/-- C7 fails on the code.  The left column `exWide` is unique, so no matched left
run has more than one row and the claim asks for a leftAllSingleton flag that is
true.  With 17 threads the join ends in the internal error of `batching`, under
every policy, and returns no flag; with one thread it returns the flag true. -/
theorem left_flag_lost_with_17_threads :
    ValidIndex exWide exWide ∧ ValidIndex [1025, 1025] [1] ∧
    NoMatchedLeftDup exWide exWide [1025, 1025] [1] ∧
    (∀ mult : emult, smergeC 17 exWide 1056 exWide 1056 [1025, 1025] 2 [1] 1
        (List.replicate 1056 NA_INTEGER) (List.replicate 1056 1) mult
      = Except.error SmergeError.internalBatching) ∧
    ∃ out, smergeC 1 exWide 1056 exWide 1056 [1025, 1025] 2 [1] 1
        (List.replicate 1056 NA_INTEGER) (List.replicate 1056 1) emult.ALL = Except.ok out ∧
      out.xlen1 = true := by
  have hy : ValidIndex [1025, 1025] [1] := by decide
  have hn : NoMatchedLeftDup exWide exWide [1025, 1025] [1] := by
    intro is his js _ _
    rw [validIndex_exWide.unique_runLen rfl is his]
  refine ⟨validIndex_exWide, hy, hn, fun mult => smergeC_refuses_17 _ _ _ _ _ _ _ _ _ _, ?_⟩
  rcases left_singleton_flag exWide exWide [1025, 1025] [1] validIndex_exWide hy 1
    batchCountOK_one_exWide (List.replicate 1056 NA_INTEGER) (List.replicate 1056 1)
    emult.ALL with h | ⟨out, h1, h2⟩
  · exact absurd h.1 (by decide)
  · rw [length_exWide] at h1
    exact ⟨out, h1, h2.2 hn⟩

/-- C9 fails on the code.  The left row 1024 matches the right run `1025, 1025`
of two rows, so under ERROR_ON_DUPLICATE the claim asks for the duplicate-match
error.  With 17 threads (1056 left runs) the join fails, but with the internal
error of `batching`, and it fails the same way against the unique right column
`1025`, where the claim asks for the result of ALL; with 32 threads (1025 left
runs) it returns without any error (reads past the end of an array taken as 0);
with one thread it raises the duplicate-match error. -/
theorem duplicate_error_lost_with_many_threads :
    ValidIndex exWide exWide ∧ ValidIndex exWrap exWrap ∧ ValidIndex [1025, 1025] [1] ∧
    ValidIndex [1025] [1] ∧
    rd exWide 1024 = keyAt [1025, 1025] [1] 0 ∧ rd exWrap 1024 = keyAt [1025, 1025] [1] 0 ∧
    runLen [1] 2 0 = 2 ∧
    smergeC 17 exWide 1056 exWide 1056 [1025, 1025] 2 [1] 1
        (List.replicate 1056 NA_INTEGER) (List.replicate 1056 1) emult.ERR
      = Except.error SmergeError.internalBatching ∧
    smergeC 17 exWide 1056 exWide 1056 [1025] 1 [1] 1
        (List.replicate 1056 NA_INTEGER) (List.replicate 1056 1) emult.ERR
      = Except.error SmergeError.internalBatching ∧
    smergeC 32 exWrap 1025 exWrap 1025 [1025, 1025] 2 [1] 1
        (List.replicate 1025 NA_INTEGER) (List.replicate 1025 1) emult.ERR
      = Except.ok ⟨List.replicate 1025 NA_INTEGER, List.replicate 1025 1, 0, true, true, true⟩ ∧
    smergeC 1 exWrap 1025 exWrap 1025 [1025, 1025] 2 [1] 1
        (List.replicate 1025 NA_INTEGER) (List.replicate 1025 1) emult.ERR
      = Except.error SmergeError.duplicateMatch := by
  have hy : ValidIndex [1025, 1025] [1] := by decide
  have hk : rd exWrap ((1024 : Nat) : Int) = keyAt [1025, 1025] [1] ((0 : Nat) : Int) :=
    rd_exWrap_last
  have hd : ¬ NoMatchedRightDup exWrap exWrap [1025, 1025] [1] := by
    intro h
    have hk2 : keyAt exWrap exWrap ((1024 : Nat) : Int)
        = keyAt [1025, 1025] [1] ((0 : Nat) : Int) := by
      have e : keyAt exWrap exWrap ((1024 : Nat) : Int) = rd exWrap (1025 - 1) := by
        unfold keyAt
        rw [hk]
        rfl
      rw [e]
      exact rd_exWrap_last
    have h1 := h 1024 (by rw [length_exWrap]; norm_num) 0 (by decide) hk2
    exact absurd h1 (by decide)
  have h := smergeC_dup validIndex_exWrap hy 1 batchCountOK_one_exWrap
    (List.replicate 1025 NA_INTEGER) (List.replicate 1025 1) hd
  rw [length_exWrap] at h
  exact ⟨validIndex_exWide, validIndex_exWrap, hy, by decide, rd_exWide_1024, rd_exWrap_last,
    by decide, smergeC_refuses_17 _ _ _ _ _ _ _ _ _ _, smergeC_refuses_17 _ _ _ _ _ _ _ _ _ _,
    smergeC_32_misses _ _ _, h⟩

set_option maxRecDepth 1000000 in
theorem batch_62_of_32 :
    batchOf 64 17 (U64 - 46) exWrap exWrap 1025 [0, 1] [1, 2] 2 62 = ⟨1054, 17, 0, 1⟩ := by
  decide

set_option maxRecDepth 1000000 in
theorem smerge_batch_62_hits :
    (smerge 1054 17 0 1 exWrap exWrap [] true [0, 1] [1, 2] [] true
      (List.replicate 1025 NA_INTEGER) (List.replicate 1025 1) emult.ALL).cnt = 17 := by
  decide

set_option maxRecDepth 1000000 in
theorem smergeC_32_overcounts :
    ∃ out, smergeC 32 exWrap 1025 exWrap 1025 [0, 1] 2 [1, 2] 2
        (List.replicate 1025 NA_INTEGER) (List.replicate 1025 1) emult.ALL = Except.ok out ∧
      out.cnt = 35 :=
  ⟨_, rfl, rfl⟩

set_option maxRecDepth 1000000 in
theorem exWrap_count_sum_01 : (exWrap.map (fun k => ([0, 1] : List Int).count k)).sum = 1 := by
  decide

/-- C21 fails on the code.  Joined with the right column `0, 1`, one left row of
`exWrap` (key 1) has a match, one right row: the exact count is 1, far below
`nx * ny = 2050 < 2^64`.  With 32 threads (1025 left runs) `smergeC` returns the
count 35: each of the batches 61 and 62, whose left runs do not exist, adds 17
(reads past the end of an array taken as 0).  With 17 threads (1056 left runs)
the join ends in the internal error of `batching` and returns no count; with one
thread it returns the exact count 1. -/
theorem exact_count_lost_with_many_threads :
    ValidIndex exWide exWide ∧ ValidIndex exWrap exWrap ∧ ValidIndex [0, 1] [1, 2] ∧
    (exWrap.map (fun k => ([0, 1] : List Int).count k)).sum = 1 ∧
    (∃ out, smergeC 32 exWrap 1025 exWrap 1025 [0, 1] 2 [1, 2] 2
        (List.replicate 1025 NA_INTEGER) (List.replicate 1025 1) emult.ALL = Except.ok out ∧
      out.cnt = 35) ∧
    smergeC 17 exWide 1056 exWide 1056 [0, 1] 2 [1, 2] 2
        (List.replicate 1056 NA_INTEGER) (List.replicate 1056 1) emult.ALL
      = Except.error SmergeError.internalBatching ∧
    ∃ out, smergeC 1 exWrap 1025 exWrap 1025 [0, 1] 2 [1, 2] 2
        (List.replicate 1025 NA_INTEGER) (List.replicate 1025 1) emult.ALL = Except.ok out ∧
      out.cnt = 1 := by
  have hy : ValidIndex [0, 1] [1, 2] := by decide
  refine ⟨validIndex_exWide, validIndex_exWrap, hy, exWrap_count_sum_01, smergeC_32_overcounts,
    smergeC_refuses_17 _ _ _ _ _ _ _ _ _ _, ?_⟩
  obtain ⟨out, h1, h2, _⟩ := match_count_sum exWrap exWrap [0, 1] [1, 2]
    validIndex_exWrap hy 1 batchCountOK_one_exWrap (List.replicate 1025 NA_INTEGER)
    (List.replicate 1025 1) emult.ALL (by decide)
  rw [length_exWrap] at h1
  exact ⟨out, h1, by rw [h2 rfl, exWrap_count_sum_01]⟩

end Smerge
